import Mathlib

/-!
Shallow embedding of the `prjcombine` part-builder subsystem
(`src/xilinx/rawdump.rs`) and proofs about its specification.

Modelling conventions:
* Rust `HashMap` becomes an association list (`AList`); `insert` replaces the
  value of an existing key in place and appends fresh keys at the end, `get`
  returns the first (unique) binding.  No observable behaviour of the source
  depends on hash iteration order.
* Rust `Vec` becomes `List`, `push` appends.
* Machine integers (`u8`/`u16`/`u32`) become `Nat`; the sentinel constants
  keep their numeric values (`u32::MAX` = 4294967295 and so on) and every
  capacity `assert!` of the source is modelled as an explicit bound check.
* A Rust panic (failed `assert!`/`unwrap`/explicit `panic!`) is modelled by
  returning `none`; normal termination returns `some` of the updated state.
* Rust names are kept wherever Lean allows.
-/

namespace Rawdump

/-- Strings of the source are modelled as lists of characters so that the
byte-slicing done by the site-slot classifier is directly expressible. -/
abbrev Str := List Char

/-- Association list standing in for Rust's `HashMap`. -/
abbrev AList (K V : Type) := List (K × V)

/-- `HashMap::get`: first binding of the key, if any. -/
def alGet {K V : Type} [DecidableEq K] : AList K V → K → Option V
  | [], _ => none
  | (k, v) :: rest, key => if k = key then some v else alGet rest key

/-- `HashMap::insert` / assignment through `get_mut`: replace the value of an
existing key in place, append a fresh key at the end. -/
def alPut {K V : Type} [DecidableEq K] : AList K V → K → V → AList K V
  | [], key, val => [(key, val)]
  | (k, v) :: rest, key, val =>
    if k = key then (k, val) :: rest else (k, v) :: alPut rest key val

/-- `Vec::resize(n, d)` when growing only (the source only ever grows). -/
def padTo {α : Type} (l : List α) (n : Nat) (d : α) : List α :=
  l ++ List.replicate (n - l.length) d

/-- grow-to `i+1` with default `d`, then write `v` at position `i` — the
shape of the source's local `set_site` / `set_conn_wire` / `set_var_pip`
closures in `add_tile`. -/
def setAt {α : Type} (l : List α) (i : Nat) (d v : α) : List α :=
  (padTo l (i + 1) d).set i v

/-- `Coord` (`x`, `y` grid position, `u16` in the source). -/
structure Coord where
  x : Nat
  y : Nat
deriving DecidableEq, Repr

/-- `WireIdx`: dense index into the global wire-name table. -/
structure WireIdx where
  idx : Nat
deriving DecidableEq, Repr

/-- `WireIdx::NONE` = `u32::MAX`. -/
def WireIdx.NONE : WireIdx := ⟨4294967295⟩

/-- `WireIdx::from_raw`: asserts `i < u32::MAX`. -/
def WireIdx.from_raw (i : Nat) : Option WireIdx :=
  if i < 4294967295 then some ⟨i⟩ else none

/-- `SpeedIdx`: dense index into the global speed-name table. -/
structure SpeedIdx where
  idx : Nat
deriving DecidableEq, Repr

/-- `SpeedIdx::NONE` = `u32::MAX`. -/
def SpeedIdx.NONE : SpeedIdx := ⟨4294967295⟩

/-- `SpeedIdx::UNKNOWN` = `u32::MAX - 1`. -/
def SpeedIdx.UNKNOWN : SpeedIdx := ⟨4294967294⟩

/-- `SpeedIdx::from_raw`: asserts `i < u32::MAX - 1`. -/
def SpeedIdx.from_raw (i : Nat) : Option SpeedIdx :=
  if i < 4294967294 then some ⟨i⟩ else none

/-- `NodeIdx`: dense index into the node table. -/
structure NodeIdx where
  idx : Nat
deriving DecidableEq, Repr

/-- `NodeIdx::NONE` = `u32::MAX` (wire never assigned a node). -/
def NodeIdx.NONE : NodeIdx := ⟨4294967295⟩

/-- `NodeIdx::PENDING` = `u32::MAX - 1` (promoted, node not yet resolved). -/
def NodeIdx.PENDING : NodeIdx := ⟨4294967294⟩

/-- `NodeIdx::from_raw`: asserts `i < u32::MAX - 1`. -/
def NodeIdx.from_raw (i : Nat) : Option NodeIdx :=
  if i < 4294967294 then some ⟨i⟩ else none

/-- `Source` (which vendor toolchain produced the dump). -/
inductive Source where
  | ISE
  | Vivado
deriving DecidableEq, Repr

/-- `TkSiteSlot`: canonical identity of a site within a tile kind. -/
inductive TkSiteSlot where
  | Single (kind : Nat)
  | Indexed (kind : Nat) (i : Nat)
  | Xy (kind : Nat) (dx : Nat) (dy : Nat)
deriving DecidableEq, Repr

/-- `TkSitePinDir`. -/
inductive TkSitePinDir where
  | Input
  | Output
  | Bidir
deriving DecidableEq, Repr

/-- `TkSitePin`. -/
structure TkSitePin where
  dir : TkSitePinDir
  wire : WireIdx
  speed : SpeedIdx
deriving DecidableEq, Repr

/-- `TkSite` (a site owned by a `TileKind`). -/
structure TkSite where
  slot : TkSiteSlot
  kind : Str
  pins : AList Str TkSitePin
deriving DecidableEq, Repr

/-- `TkWire`: per-kind state of one wire handle. -/
inductive TkWire where
  | Internal (s : SpeedIdx)
  | Connected (i : Nat)
deriving DecidableEq, Repr

/-- `TkPipMode`. -/
inductive TkPipMode where
  | Const (s : SpeedIdx)
  | Variable (i : Nat)
deriving DecidableEq, Repr

/-- `TkPipInversion`. -/
inductive TkPipInversion where
  | Never
  | Always
  | Prog
deriving DecidableEq, Repr

/-- `TkPipDirection`. -/
inductive TkPipDirection where
  | Uni
  | BiFwd
  | BiBwd
deriving DecidableEq, Repr

/-- `TkPip`. -/
structure TkPip where
  is_buf : Bool
  is_excluded : Bool
  is_test : Bool
  inversion : TkPipInversion
  direction : TkPipDirection
  mode : TkPipMode
deriving DecidableEq, Repr

/-- `TileKind`: deduplicated behaviour of one kind of tile. -/
structure TileKind where
  sites : List TkSite
  sites_by_slot : AList TkSiteSlot Nat
  wires : AList WireIdx TkWire
  conn_wires : List WireIdx
  pips : AList (WireIdx × WireIdx) TkPip
  var_pips : List (WireIdx × WireIdx)
  tiles : List Coord
deriving DecidableEq, Repr

/-- `Tile`: one concrete tile instance.  `conn_wires` carries
`#[serde(skip)]` in the source: it is dropped by serialization. -/
structure Tile where
  name : Str
  kind : Str
  sites : List (Option Str)
  conn_wires : List NodeIdx
  var_pips : List SpeedIdx
deriving DecidableEq, Repr

/-- `TkNode`: a cross-tile net (base coordinate plus template handle). -/
structure TkNode where
  base : Coord
  template : Nat
deriving DecidableEq, Repr

/-- `TkNodeTemplateWire`: one relative endpoint of a template. -/
structure TkNodeTemplateWire where
  delta : Coord
  wire : WireIdx
  speed : SpeedIdx
deriving DecidableEq, Repr

/-- `TkNodeTemplate`. -/
structure TkNodeTemplate where
  wires : List TkNodeTemplateWire
deriving DecidableEq, Repr

/-- `PartCombo`. -/
structure PartCombo where
  name : Str
  device : Str
  package : Str
  speed : Str
  temp : Str
deriving DecidableEq, Repr

/-- `PkgPin`. -/
structure PkgPin where
  pad : Option Str
  pin : Str
  vref_bank : Option Nat
  vcco_bank : Option Nat
  func : Str
  tracelen_um : Option Nat
  delay_min_fs : Option Nat
  delay_max_fs : Option Nat
deriving DecidableEq, Repr

/-- `Part`: the aggregate root. -/
structure Part where
  part : Str
  family : Str
  source : Source
  width : Nat
  height : Nat
  tile_kinds : AList Str TileKind
  tiles : AList Coord Tile
  speeds : List Str
  nodes : List TkNode
  templates : List TkNodeTemplate
  wires : List Str
  slot_kinds : List Str
  packages : AList Str (List PkgPin)
  combos : List PartCombo
deriving DecidableEq, Repr

/-- `PartBuilder`: the part plus the reverse-lookup interning tables. -/
structure PartBuilder where
  part : Part
  tiles_by_name : AList Str Coord
  speeds_by_name : AList Str SpeedIdx
  templates_idx : AList TkNodeTemplate Nat
  wires_by_name : AList Str WireIdx
  slot_kinds_by_name : AList Str Nat
deriving DecidableEq, Repr

/-! ### String helpers (`split_xy`, `get_lastnum`, slicing) -/

/-- Rust `str::find(pat)`: index of the first occurrence of `pat`. -/
def strFind (s pat : Str) : Option Nat :=
  (List.range (s.length + 1)).find? (fun i => pat.isPrefixOf (s.drop i))

/-- Rust `str::rfind(pat)`: index of the last occurrence of `pat`. -/
def strRFind (s pat : Str) : Option Nat :=
  ((List.range (s.length + 1)).reverse).find? (fun i => pat.isPrefixOf (s.drop i))

/-- Rust `str::parse::<uN>()` with an exclusive upper bound `bound`:
optional leading `+`, then one or more ASCII digits, overflow rejected. -/
def parseNum (bound : Nat) (s : Str) : Option Nat :=
  let t := match s with
    | '+' :: rest => rest
    | _ => s
  if t ≠ [] ∧ t.all (fun c => c.isDigit) then
    let v := t.foldl (fun a c => a * 10 + (c.toNat - 48)) 0
    if v < bound then some v else none
  else none

/-- `parse::<u32>()`. -/
def parse_u32 (s : Str) : Option Nat := parseNum 4294967296 s

/-- `parse::<u8>()`. -/
def parse_u8 (s : Str) : Option Nat := parseNum 256 s

/-- `get_lastnum`: value of the trailing digit run of `s`, `none` when `s`
does not end in a digit (the source then panics on `unwrap`).  The source
accumulates in a `u8`, hence the `% 256` wrap. -/
def get_lastnum (s : Str) : Option Nat :=
  s.foldl
    (fun num c =>
      if c.isDigit then
        some (match num with
          | none => c.toNat - 48
          | some p => (p * 10 + (c.toNat - 48)) % 256)
      else none)
    none

/-- `split_xy`: split `NAME_X<int>Y<int>` into the base name and the two
coordinates. -/
def split_xy (s : Str) : Option (Str × Nat × Nat) :=
  match strRFind s ("_X".toList) with
  | none => none
  | some pos =>
    let l := s.take pos
    let r := s.drop (pos + 2)
    match strRFind r ("Y".toList) with
    | none => none
    | some p2 =>
      match parse_u32 (r.take p2), parse_u32 (r.drop (p2 + 1)) with
      | some x, some y => some (l, x, y)
      | _, _ => none

/-! ### Argument records of `add_tile` -/

/-- One pin of a site argument: `(name, dir, wire, speed)`. -/
structure PinArg where
  pname : Str
  dir : TkSitePinDir
  wire : Option Str
  speed : Option Str
deriving DecidableEq, Repr

/-- One site argument: `(name, kind, pins)`. -/
structure SiteArg where
  sname : Str
  skind : Str
  pins : List PinArg
deriving DecidableEq, Repr

/-- One pip argument:
`(wire_from, wire_to, is_buf, is_excluded, is_test, inversion, direction, speed)`. -/
structure PipArg where
  wf : Str
  wt : Str
  is_buf : Bool
  is_excluded : Bool
  is_test : Bool
  inversion : TkPipInversion
  direction : TkPipDirection
  speed : Option Str
deriving DecidableEq, Repr

/-- `from_pinnum` (local to `slotify`): trailing number of the wire of the
named pin; `none` models both of its panics (pin missing, wire `None`). -/
def from_pinnum : List PinArg → Str → Option Nat
  | [], _ => none
  | pa :: rest, pin =>
    if pa.pname = pin then
      match pa.wire with
      | none => none
      | some w => get_lastnum w
    else from_pinnum rest pin

/-! ### Interning tables -/

/-- `PartBuilder::wire_to_idx`. -/
def wire_to_idx (st : PartBuilder) (s : Str) : Option (WireIdx × PartBuilder) :=
  match alGet st.wires_by_name s with
  | some i => some (i, st)
  | none =>
    match WireIdx.from_raw st.part.wires.length with
    | none => none
    | some i =>
      some (i,
        { st with
          part := { st.part with wires := st.part.wires ++ [s] }
          wires_by_name := alPut st.wires_by_name s i })

/-- `PartBuilder::speed_to_idx`. -/
def speed_to_idx : PartBuilder → Option Str → Option (SpeedIdx × PartBuilder)
  | st, none => some (SpeedIdx.UNKNOWN, st)
  | st, some s =>
    match alGet st.speeds_by_name s with
    | some i => some (i, st)
    | none =>
      match SpeedIdx.from_raw st.part.speeds.length with
      | none => none
      | some i =>
        some (i,
          { st with
            part := { st.part with speeds := st.part.speeds ++ [s] }
            speeds_by_name := alPut st.speeds_by_name s i })

/-- `PartBuilder::slot_kind_to_idx`. -/
def slot_kind_to_idx (st : PartBuilder) (s : Str) : Option (Nat × PartBuilder) :=
  match alGet st.slot_kinds_by_name s with
  | some i => some (i, st)
  | none =>
    let i := st.part.slot_kinds.length
    if i > 65535 then none
    else
      some (i,
        { st with
          part := { st.part with slot_kinds := st.part.slot_kinds ++ [s] }
          slot_kinds_by_name := alPut st.slot_kinds_by_name s i })

/-! ### The site-slot classifier (`slotify`) -/

/-- First loop of `slotify`: running minimum X/Y per slot-kind base of the
`NAME_X<i>Y<j>` site names. -/
def slotifyMinXY : PartBuilder → List SiteArg → AList Nat (Nat × Nat) →
    Option (AList Nat (Nat × Nat) × PartBuilder)
  | st, [], m => some (m, st)
  | st, sa :: rest, m =>
    match split_xy sa.sname with
    | none => slotifyMinXY st rest m
    | some (base, x, y) =>
      match slot_kind_to_idx st base with
      | none => none
      | some (b, st1) =>
        let e := (alGet m b).getD (x, y)
        slotifyMinXY st1 rest
          (alPut m b (if x < e.1 then x else e.1, if y < e.2 then y else e.2))

/-- The pure part of the per-site classification (the body of the second
loop of `slotify`): decides, from the family, the running minima and the
site argument alone, which slot-kind name to intern and how to finish the
slot from the interned handle.  Every successful branch of the source
calls `slot_kind_to_idx` exactly once; work before that call is the first
component here (`none` models a panic before interning), work after it is
the returned continuation (`none` models a panic after interning — the
state is discarded either way since the surrounding call aborts).  The
cascade of family/kind conditions is transcribed branch for branch. -/
def classifyPre (fam : Str) (minxy : AList Nat (Nat × Nat)) (sa : SiteArg) :
    Option (Str × (Nat → Option TkSiteSlot)) :=
  let n := sa.sname
  let k := sa.skind
  let p := sa.pins
  if fam = "xc4000e".toList ∨ fam = "xc4000ex".toList ∨ fam = "xc4000xla".toList ∨
      fam = "xc4000xv".toList ∨ fam = "spartanxl".toList then
    match strFind n ("_R".toList) with
    | some urpos =>
      match strFind n (".".toList) with
      | some dpos =>
        some (n.take urpos, fun b =>
          (parse_u8 (n.drop (dpos + 1))).map (fun d => .Indexed b d))
      | none => some (n.take urpos, fun b => some (.Single b))
    | none =>
      if k = "IOB".toList ∨ k = "CLKIOB".toList ∨ k = "FCLKIOB".toList then
        some ("IOB".toList, fun b =>
          (from_pinnum p ("O".toList)).map (fun d => .Indexed b d))
      else if k = "CIN".toList ∨ k = "COUT".toList ∨ k = "BUFF".toList then
        some (k, fun b => some (.Single b))
      else if k = "PRI-CLK".toList then
        some ("BUFGP".toList, fun b => some (.Single b))
      else if k = "SEC-CLK".toList then
        some ("BUFGS".toList, fun b => some (.Single b))
      else if k = "BUFG".toList ∨ k = "BUFGE".toList ∨ k = "BUFGLS".toList then
        match strFind n ("_".toList) with
        | none => none
        | some pos =>
          some (n.take pos, fun b =>
            let suf := n.drop pos
            if suf = "_WNW".toList then some (.Indexed b 0)
            else if suf = "_ENE".toList then some (.Indexed b 1)
            else if suf = "_NNE".toList then some (.Indexed b 2)
            else if suf = "_SSE".toList then some (.Indexed b 3)
            else if suf = "_ESE".toList then some (.Indexed b 4)
            else if suf = "_WSW".toList then some (.Indexed b 5)
            else if suf = "_SSW".toList then some (.Indexed b 6)
            else if suf = "_NNW".toList then some (.Indexed b 7)
            else none)
      else some (n, fun b => some (.Single b))
  else if fam = "virtex".toList ∨ fam = "virtexe".toList then
    if k = "IOB".toList ∨ k = "EMPTYIOB".toList ∨ k = "PCIIOB".toList ∨
        k = "DLLIOB".toList then
      some ("IOB".toList, fun b =>
        (from_pinnum p ("I".toList)).map (fun d => .Indexed b d))
    else if k = "TBUF".toList then
      some (k, fun b => (from_pinnum p ("O".toList)).map (fun d => .Indexed b d))
    else if k = "SLICE".toList then
      some (k, fun b => (from_pinnum p ("CIN".toList)).map (fun d => .Indexed b d))
    else if k = "GCLKIOB".toList then
      some (k, fun b => (from_pinnum p ("GCLKOUT".toList)).map (fun d => .Indexed b d))
    else if k = "GCLK".toList then
      some (k, fun b => (from_pinnum p ("CE".toList)).map (fun d => .Indexed b d))
    else if k = "DLL".toList then
      some (k, fun b =>
        if n = "DLL0".toList then some (.Indexed b 0)
        else if n = "DLL1".toList then some (.Indexed b 1)
        else if n = "DLL2".toList then some (.Indexed b 2)
        else if n = "DLL3".toList then some (.Indexed b 3)
        else if n = "DLL0P".toList then some (.Indexed b 0)
        else if n = "DLL1P".toList then some (.Indexed b 1)
        else if n = "DLL2P".toList then some (.Indexed b 2)
        else if n = "DLL3P".toList then some (.Indexed b 3)
        else if n = "DLL0S".toList then some (.Indexed b 4)
        else if n = "DLL1S".toList then some (.Indexed b 5)
        else if n = "DLL2S".toList then some (.Indexed b 6)
        else if n = "DLL3S".toList then some (.Indexed b 7)
        else none)
    else some (k, fun b => some (.Single b))
  else if k = "TBUF".toList ∧ ("virtex2".toList).isPrefixOf fam then
    some (k, fun b => (from_pinnum p ("O".toList)).map (fun d => .Indexed b d))
  else if (k = "GTIPAD".toList ∨ k = "GTOPAD".toList) ∧ fam = "virtex2p".toList then
    match n[2]? with
    | some 'P' => some (k, fun b => some (.Indexed b 0))
    | some 'N' => some (k, fun b => some (.Indexed b 1))
    | _ => none
  else
    match split_xy n with
    | some (base, x, y) =>
      some (base, fun b =>
        (alGet minxy b).map (fun e => .Xy b ((x - e.1) % 256) ((y - e.2) % 256)))
    | none =>
      if (("virtex2".toList).isPrefixOf fam ∨ ("spartan3".toList).isPrefixOf fam) ∧
          (("IOB".toList).isPrefixOf k ∨ ("IBUF".toList).isPrefixOf k ∨
            ("DIFF".toList).isPrefixOf k) then
        some ("IOB".toList, fun b =>
          (from_pinnum p ("T".toList)).map (fun d => .Indexed b d))
      else if ((("virtex2".toList).isPrefixOf fam ∨ fam = "spartan3".toList) ∧
            ("DCI".toList).isPrefixOf k) ∨
          (fam = "spartan3".toList ∧ k = "BUFGMUX".toList) then
        some (k, fun b => (get_lastnum n).map (fun d => .Indexed b d))
      else if ("virtex2".toList).isPrefixOf fam ∧ k = "BUFGMUX".toList then
        some (k, fun b =>
          if 8 ≤ n.length then
            (parse_u8 ((n.drop 7).take 1)).map (fun d => .Indexed b d)
          else none)
      else if fam = "spartan6".toList ∧ ("IOB".toList).isPrefixOf k then
        some ("IOB".toList, fun b =>
          (from_pinnum p ("PADOUT".toList)).map (fun d => .Indexed b d))
      else some (n, fun b => some (.Single b))

/-- The per-site classification: the pure plan above plus its single
`slot_kind_to_idx` call. -/
def classify_site (st : PartBuilder) (minxy : AList Nat (Nat × Nat))
    (sa : SiteArg) : Option (TkSiteSlot × PartBuilder) :=
  match classifyPre st.part.family minxy sa with
  | none => none
  | some (s, post) =>
    match slot_kind_to_idx st s with
    | none => none
    | some (b, st1) =>
      match post b with
      | none => none
      | some slot => some (slot, st1)

/-- Second loop of `slotify`: classify each site, assert slot uniqueness
within the tile, and collect the name-to-slot map. -/
def slotifySites : PartBuilder → AList Nat (Nat × Nat) → List SiteArg →
    List TkSiteSlot → AList Str TkSiteSlot →
    Option (AList Str TkSiteSlot × PartBuilder)
  | st, _, [], _, res => some (res, st)
  | st, minxy, sa :: rest, slots, res =>
    match classify_site st minxy sa with
    | none => none
    | some (slot, st1) =>
      if slot ∈ slots then none
      else slotifySites st1 minxy rest (slot :: slots) (alPut res sa.sname slot)

/-- `PartBuilder::slotify`. -/
def slotify (st : PartBuilder) (sites : List SiteArg) :
    Option (AList Str TkSiteSlot × PartBuilder) :=
  match slotifyMinXY st sites [] with
  | none => none
  | some (m, st1) => slotifySites st1 m sites [] []

/-! ### Tile methods -/

/-- `Tile::set_conn_wire`: grow, then write, panicking (`none`) when a
slot already resolved to a node is overwritten with another node. -/
def Tile.set_conn_wire (t : Tile) (idx : Nat) (val : NodeIdx) : Option Tile :=
  let cw := padTo t.conn_wires (idx + 1) NodeIdx.NONE
  let cur := cw.getD idx NodeIdx.NONE
  if cur ≠ NodeIdx.PENDING ∧ cur ≠ NodeIdx.NONE ∧ val ≠ NodeIdx.PENDING then none
  else some { t with conn_wires := cw.set idx val }

/-- `Tile::set_var_pip`. -/
def Tile.set_var_pip (t : Tile) (idx : Nat) (val : SpeedIdx) : Tile :=
  { t with var_pips := setAt t.var_pips idx SpeedIdx.NONE val }

/-- `Tile::has_wire`. -/
def Tile.has_wire (t : Tile) (tk : TileKind) (w : WireIdx) : Bool :=
  match alGet tk.wires w with
  | none => false
  | some (.Internal _) => true
  | some (.Connected idx) =>
    match t.conn_wires[idx]? with
    | none => false
    | some ni => if ni = NodeIdx.NONE then false else true

/-! ### `add_tile` -/

/-- The wire-list interning pass at the top of `add_tile`. -/
def internWirePairs : PartBuilder → List (Str × Option Str) →
    Option (List (WireIdx × SpeedIdx) × PartBuilder)
  | st, [] => some ([], st)
  | st, (n, s) :: rest =>
    match wire_to_idx st n with
    | none => none
    | some (w, st1) =>
      match speed_to_idx st1 s with
      | none => none
      | some (sp, st2) =>
        match internWirePairs st2 rest with
        | none => none
        | some (l, st3) => some ((w, sp) :: l, st3)

/-- An interned pip argument. -/
structure PipI where
  wf : WireIdx
  wt : WireIdx
  is_buf : Bool
  is_excluded : Bool
  is_test : Bool
  inversion : TkPipInversion
  direction : TkPipDirection
  speed : SpeedIdx
deriving DecidableEq, Repr

/-- The pip-list interning pass of `add_tile`. -/
def internPips : PartBuilder → List PipArg → Option (List PipI × PartBuilder)
  | st, [] => some ([], st)
  | st, pa :: rest =>
    match wire_to_idx st pa.wf with
    | none => none
    | some (f, st1) =>
      match wire_to_idx st1 pa.wt with
      | none => none
      | some (t, st2) =>
        match speed_to_idx st2 pa.speed with
        | none => none
        | some (sp, st3) =>
          match internPips st3 rest with
          | none => none
          | some (l, st4) =>
            some (⟨f, t, pa.is_buf, pa.is_excluded, pa.is_test,
              pa.inversion, pa.direction, sp⟩ :: l, st4)

/-- An interned site argument (`sites_raw` entry). -/
structure SiteI where
  slot : TkSiteSlot
  sname : Str
  skind : Str
  pins : List (Str × TkSitePinDir × WireIdx × SpeedIdx)
deriving DecidableEq, Repr

/-- Interning of one site's pin list. -/
def internPins : PartBuilder → List PinArg →
    Option (List (Str × TkSitePinDir × WireIdx × SpeedIdx) × PartBuilder)
  | st, [] => some ([], st)
  | st, pa :: rest =>
    let stepWire : Option (WireIdx × PartBuilder) :=
      match pa.wire with
      | some w => wire_to_idx st w
      | none => some (WireIdx.NONE, st)
    match stepWire with
    | none => none
    | some (w, st1) =>
      match speed_to_idx st1 pa.speed with
      | none => none
      | some (sp, st2) =>
        match internPins st2 rest with
        | none => none
        | some (l, st3) => some ((pa.pname, pa.dir, w, sp) :: l, st3)

/-- The `sites_raw` pass of `add_tile`: look the slot up in the `slotify`
result and intern every pin. -/
def internSites (slots : AList Str TkSiteSlot) : PartBuilder → List SiteArg →
    Option (List SiteI × PartBuilder)
  | st, [] => some ([], st)
  | st, sa :: rest =>
    match alGet slots sa.sname with
    | none => none
    | some slot =>
      match internPins st sa.pins with
      | none => none
      | some (pins, st1) =>
        match internSites slots st1 rest with
        | none => none
        | some (l, st2) => some (⟨slot, sa.sname, sa.skind, pins⟩ :: l, st2)

/-- `collect()` of a pin list into the pin map of a fresh `TkSite`. -/
def buildPins (l : List (Str × TkSitePinDir × WireIdx × SpeedIdx)) :
    AList Str TkSitePin :=
  l.foldl (fun m e => alPut m e.1 ⟨e.2.1, e.2.2.1, e.2.2.2⟩) []

/-- Pin merge of an existing site (merge branch of `add_tile`). -/
def mergeSitePins : AList Str TkSitePin →
    List (Str × TkSitePinDir × WireIdx × SpeedIdx) → Option (AList Str TkSitePin)
  | pins, [] => some pins
  | pins, (n, _, w, s) :: rest =>
    match alGet pins n with
    | none => none
    | some pin =>
      if w = WireIdx.NONE then mergeSitePins pins rest
      else if pin.wire ≠ WireIdx.NONE ∧ pin.wire ≠ w then none
      else if pin.speed ≠ s then none
      else mergeSitePins (alPut pins n { pin with wire := w }) rest

/-- Site merge loop of `add_tile` (merge branch); also builds the local
`sites` array of the new tile record. -/
def mergeSites : TileKind → List (Option Str) → List SiteI →
    Option (TileKind × List (Option Str))
  | tk, ls, [] => some (tk, ls)
  | tk, ls, si :: rest =>
    match alGet tk.sites_by_slot si.slot with
    | some idx =>
      match tk.sites[idx]? with
      | none => none
      | some site =>
        match mergeSitePins site.pins si.pins with
        | none => none
        | some pins1 =>
          mergeSites { tk with sites := tk.sites.set idx { site with pins := pins1 } }
            (setAt ls idx none (some si.sname)) rest
    | none =>
      let i := tk.sites.length
      mergeSites
        { tk with
          sites := tk.sites ++ [{ slot := si.slot, kind := si.skind, pins := buildPins si.pins }]
          sites_by_slot := alPut tk.sites_by_slot si.slot i }
        (setAt ls i none (some si.sname)) rest

/-- Retroactive `set_conn_wire(i, PENDING)` over the kind's tile list
(promotion back-fill in `add_tile` and `add_node`). -/
def backfillPending : AList Coord Tile → List Coord → Nat → Option (AList Coord Tile)
  | tiles, [], _ => some tiles
  | tiles, crd :: rest, i =>
    match alGet tiles crd with
    | none => none
    | some t =>
      match t.set_conn_wire i NodeIdx.PENDING with
      | none => none
      | some t1 => backfillPending (alPut tiles crd t1) rest i

/-- Wire merge loop of `add_tile` (merge branch); also builds the local
`conn_wires` array of the new tile record. -/
def mergeWires : TileKind → List NodeIdx → AList Coord Tile →
    List (WireIdx × SpeedIdx) →
    Option (TileKind × List NodeIdx × AList Coord Tile)
  | tk, lc, tiles, [] => some (tk, lc, tiles)
  | tk, lc, tiles, (n, s) :: rest =>
    match alGet tk.wires n with
    | none =>
      let i := tk.conn_wires.length
      mergeWires
        { tk with wires := alPut tk.wires n (.Connected i), conn_wires := tk.conn_wires ++ [n] }
        (setAt lc i NodeIdx.NONE NodeIdx.PENDING) tiles rest
    | some (.Internal cs) =>
      if cs = s then mergeWires tk lc tiles rest
      else
        let i := tk.conn_wires.length
        match backfillPending tiles tk.tiles i with
        | none => none
        | some tiles1 =>
          mergeWires
            { tk with wires := alPut tk.wires n (.Connected i), conn_wires := tk.conn_wires ++ [n] }
            (setAt lc i NodeIdx.NONE NodeIdx.PENDING) tiles1 rest
    | some (.Connected i) =>
      mergeWires tk (setAt lc i NodeIdx.NONE NodeIdx.PENDING) tiles rest

/-- Retroactive variable-pip back-fill: each already-registered tile gets
the old constant speed when it has both endpoint wires, `NONE` otherwise. -/
def retroVarPip : AList Coord Tile → List Coord → TileKind → WireIdx → WireIdx →
    SpeedIdx → Nat → Option (AList Coord Tile)
  | tiles, [], _, _, _, _, _ => some tiles
  | tiles, crd :: rest, tk, wf, wt, cs, i =>
    match alGet tiles crd with
    | none => none
    | some t =>
      let v := if t.has_wire tk wf && t.has_wire tk wt then cs else SpeedIdx.NONE
      retroVarPip (alPut tiles crd (t.set_var_pip i v)) rest tk wf wt cs i

/-- Pip merge loop of `add_tile` (merge branch); also builds the local
`var_pips` array of the new tile record. -/
def mergePips : TileKind → List SpeedIdx → AList Coord Tile → List PipI →
    Option (TileKind × List SpeedIdx × AList Coord Tile)
  | tk, lv, tiles, [] => some (tk, lv, tiles)
  | tk, lv, tiles, pa :: rest =>
    let key := (pa.wf, pa.wt)
    match alGet tk.pips key with
    | none =>
      mergePips
        { tk with pips := (alPut tk.pips key
            ⟨pa.is_buf, pa.is_excluded, pa.is_test, pa.inversion, pa.direction, .Const pa.speed⟩) }
        lv tiles rest
    | some pip =>
      if pip.is_buf ≠ pa.is_buf ∨ pip.is_excluded ≠ pa.is_excluded ∨
          pip.is_test ≠ pa.is_test ∨ pip.inversion ≠ pa.inversion ∨
          pip.direction ≠ pa.direction then none
      else
        match pip.mode with
        | .Const cs =>
          if cs = pa.speed then mergePips tk lv tiles rest
          else
            let i := tk.var_pips.length
            let tk1 := { tk with var_pips := tk.var_pips ++ [key] }
            match retroVarPip tiles tk1.tiles tk1 pa.wf pa.wt cs i with
            | none => none
            | some tiles1 =>
              mergePips { tk1 with pips := alPut tk1.pips key { pip with mode := .Variable i } }
                (setAt lv i SpeedIdx.NONE pa.speed) tiles1 rest
        | .Variable i =>
          mergePips tk (setAt lv i SpeedIdx.NONE pa.speed) tiles rest

/-- `collect()` of the wire list into the wire map of a fresh `TileKind`. -/
def buildWiresMap (l : List (WireIdx × SpeedIdx)) : AList WireIdx TkWire :=
  l.foldl (fun m e => alPut m e.1 (.Internal e.2)) []

/-- `collect()` of the pip list into the pip map of a fresh `TileKind`. -/
def buildPipsMap (l : List PipI) : AList (WireIdx × WireIdx) TkPip :=
  l.foldl (fun m pa => alPut m (pa.wf, pa.wt)
    ⟨pa.is_buf, pa.is_excluded, pa.is_test, pa.inversion, pa.direction, .Const pa.speed⟩) []

/-- Fresh `TkSite` list of a fresh `TileKind`. -/
def buildSites (l : List SiteI) : List TkSite :=
  l.map (fun si => { slot := si.slot, kind := si.skind, pins := buildPins si.pins })

/-- Fresh slot-to-index map of a fresh `TileKind`. -/
def buildSitesBySlot (l : List SiteI) : AList TkSiteSlot Nat :=
  (l.enum).foldl (fun m e => alPut m e.2.slot e.1) []

/-- The interning prefix of `add_tile`: wire pairs, pips, `slotify`,
`sites_raw`, in source order. -/
def addTilePrefix (st : PartBuilder) (sites : List SiteArg)
    (wires : List (Str × Option Str)) (pips : List PipArg) :
    Option (List (WireIdx × SpeedIdx) × List PipI × List SiteI × PartBuilder) :=
  match internWirePairs st wires with
  | none => none
  | some (wiresI, st1) =>
    match internPips st1 pips with
    | none => none
    | some (pipsI, st2) =>
      match slotify st2 sites with
      | none => none
      | some (slots, st3) =>
        match internSites slots st3 sites with
        | none => none
        | some (sitesI, st4) => some (wiresI, pipsI, sitesI, st4)

/-- `PartBuilder::add_tile`. -/
def add_tile (st : PartBuilder) (coord : Coord) (name kind : Str)
    (sites : List SiteArg) (wires : List (Str × Option Str))
    (pips : List PipArg) : Option PartBuilder :=
  if coord.x < st.part.width ∧ coord.y < st.part.height then
    match addTilePrefix st sites wires pips with
    | none => none
    | some (wiresI, pipsI, sitesI, st4) =>
          match alGet st4.part.tile_kinds kind with
            | some tk =>
              match mergeSites tk [] sitesI with
              | none => none
              | some (tkA, ls) =>
                match mergeWires tkA [] st4.part.tiles wiresI with
                | none => none
                | some (tkB, lc, tilesB) =>
                  match mergePips tkB [] tilesB pipsI with
                  | none => none
                  | some (tkC, lv, tilesC) =>
                    some { st4 with
                      part := { st4.part with
                        tile_kinds := alPut st4.part.tile_kinds kind
                          { tkC with tiles := tkC.tiles ++ [coord] }
                        tiles := alPut tilesC coord ⟨name, kind, ls, lc, lv⟩ }
                      tiles_by_name := alPut st4.tiles_by_name name coord }
            | none =>
              some { st4 with
                part := { st4.part with
                  tile_kinds := alPut st4.part.tile_kinds kind
                    ⟨buildSites sitesI, buildSitesBySlot sitesI, buildWiresMap wiresI,
                      [], buildPipsMap pipsI, [], [coord]⟩
                  tiles := alPut st4.part.tiles coord
                    ⟨name, kind, sitesI.map (fun si => some si.sname), [], []⟩ }
                tiles_by_name := alPut st4.tiles_by_name name coord }
  else none

/-! ### `add_node` -/

/-- The endpoint-resolution pass at the top of `add_node`. -/
def resolveNodeWires : PartBuilder → List (Str × Str × Option Str) →
    Option (List (Coord × WireIdx × SpeedIdx) × PartBuilder)
  | st, [] => some ([], st)
  | st, (t, w, s) :: rest =>
    match alGet st.tiles_by_name t with
    | none => none
    | some coord =>
      match wire_to_idx st w with
      | none => none
      | some (wi, st1) =>
        match speed_to_idx st1 s with
        | none => none
        | some (si, st2) =>
          match resolveNodeWires st2 rest with
          | none => none
          | some (l, st3) => some ((coord, wi, si) :: l, st3)

/-- `Iterator::min` over a list of naturals. -/
def listMin : List Nat → Option Nat
  | [] => none
  | x :: xs => some (match listMin xs with
    | none => x
    | some m => min x m)

/-- The derived `Ord` of `TkNodeTemplateWire`: lexicographic on
`(delta.x, delta.y, wire, speed)`. -/
def twLE (a b : TkNodeTemplateWire) : Prop :=
  a.delta.x < b.delta.x ∨ (a.delta.x = b.delta.x ∧
    (a.delta.y < b.delta.y ∨ (a.delta.y = b.delta.y ∧
      (a.wire.idx < b.wire.idx ∨ (a.wire.idx = b.wire.idx ∧
        a.speed.idx ≤ b.speed.idx)))))

instance : DecidableRel twLE := fun a b => by
  unfold twLE
  infer_instance

instance : IsTotal TkNodeTemplateWire twLE := by
  constructor
  intro a b
  unfold twLE
  omega

instance : IsTrans TkNodeTemplateWire twLE := by
  constructor
  intro a b c hab hbc
  unfold twLE at hab hbc ⊢
  omega

instance : IsAntisymm TkNodeTemplateWire twLE := by
  constructor
  intro a b hab hba
  obtain ⟨⟨ax, ay⟩, ⟨aw⟩, ⟨asp⟩⟩ := a
  obtain ⟨⟨bx, byy⟩, ⟨bw⟩, ⟨bsp⟩⟩ := b
  unfold twLE at hab hba
  simp only at hab hba
  have h : ax = bx ∧ ay = byy ∧ aw = bw ∧ asp = bsp := by omega
  simp only [h.1, h.2.1, h.2.2.1, h.2.2.2]

/-- The `twires.sort()` of `add_node` (stable sort by the derived order;
any sorted permutation is the same list because the order is total and
antisymmetric). -/
def sortTW (l : List TkNodeTemplateWire) : List TkNodeTemplateWire :=
  l.insertionSort twLE

/-- One relative template entry of `add_node`. -/
def relTW (bx byy : Nat) (e : Coord × WireIdx × SpeedIdx) : TkNodeTemplateWire :=
  ⟨⟨e.1.x - bx, e.1.y - byy⟩, e.2.1, e.2.2⟩

/-- Promotion of an `Internal` wire inside the endpoint loop of
`add_node`: allocate a fresh conn slot, rewrite the kind, back-fill
`PENDING` on every registered tile of the kind. -/
def promoteWire (st : PartBuilder) (kindName : Str) (tk : TileKind)
    (wire : WireIdx) : Option (Nat × PartBuilder) :=
  let i := tk.conn_wires.length
  let tk1 := { tk with
    wires := alPut tk.wires wire (.Connected i)
    conn_wires := tk.conn_wires ++ [wire] }
  let stA := { st with
    part := { st.part with tile_kinds := alPut st.part.tile_kinds kindName tk1 } }
  match backfillPending stA.part.tiles tk1.tiles i with
  | none => none
  | some tiles1 => some (i, { stA with part := { stA.part with tiles := tiles1 } })

/-- The endpoint-assignment loop at the bottom of `add_node`. -/
def nodeAssign (node : NodeIdx) : PartBuilder → List (Coord × WireIdx × SpeedIdx) →
    Option PartBuilder
  | st, [] => some st
  | st, (coord, wire, _) :: rest =>
    match alGet st.part.tiles coord with
    | none => none
    | some tile =>
      match alGet st.part.tile_kinds tile.kind with
      | none => none
      | some tk =>
        match alGet tk.wires wire with
        | none => none
        | some tw =>
          match (match tw with
            | .Internal _ => promoteWire st tile.kind tk wire
            | .Connected i => some (i, st)) with
          | none => none
          | some (idx, stB) =>
            match alGet stB.part.tiles coord with
            | none => none
            | some tile1 =>
              match tile1.set_conn_wire idx node with
              | none => none
              | some tile2 =>
                nodeAssign node
                  { stB with part := { stB.part with tiles := alPut stB.part.tiles coord tile2 } }
                  rest

/-- The template lookup-or-insert step of `add_node` (dedup by the sorted
relative endpoint list, with the `u32` capacity check). -/
def templateIdxStep (st : PartBuilder) (template : TkNodeTemplate) :
    Option (Nat × PartBuilder) :=
  match alGet st.templates_idx template with
  | some tidx => some (tidx, st)
  | none =>
    let i := st.part.templates.length
    if i > 4294967295 then none
    else
      some (i, { st with
        part := { st.part with templates := st.part.templates ++ [template] }
        templates_idx := alPut st.templates_idx template i })

/-- The general (node-allocating) path of `add_node`. -/
def add_node_general (st : PartBuilder) (l : List (Coord × WireIdx × SpeedIdx)) :
    Option PartBuilder :=
  match listMin (l.map (fun e => e.1.x)), listMin (l.map (fun e => e.1.y)) with
  | some bx, some byy =>
    match templateIdxStep st ⟨sortTW (l.map (relTW bx byy))⟩ with
    | none => none
    | some (tidx, st1) =>
      match NodeIdx.from_raw st1.part.nodes.length with
      | none => none
      | some node =>
        nodeAssign node
          { st1 with part := { st1.part with
              nodes := st1.part.nodes ++ [{ base := ⟨bx, byy⟩, template := tidx }] } }
          l
  | _, _ => none

/-- `PartBuilder::add_node`. -/
def add_node (st : PartBuilder) (ws : List (Str × Str × Option Str)) :
    Option PartBuilder :=
  match resolveNodeWires st ws with
  | none => none
  | some (l, st1) =>
    match l with
    | [(coord, wire, speed)] =>
      match alGet st1.part.tiles coord with
      | none => none
      | some tile =>
        match alGet st1.part.tile_kinds tile.kind with
        | none => none
        | some tk =>
          match alGet tk.wires wire with
          | none => none
          | some tw =>
            if tw = .Internal speed then some st1
            else add_node_general st1 l
    | _ => add_node_general st1 l

/-! ### The remaining builder operations and `Part` methods -/

/-- `PartBuilder::new`. -/
def PartBuilder.new (pname family : Str) (source : Source) (width height : Nat) :
    PartBuilder :=
  ⟨⟨pname, family, source, width, height, [], [], [], [], [], [], [], [], []⟩,
    [], [], [], [], []⟩

/-- `PartBuilder::add_package`. -/
def add_package (st : PartBuilder) (name : Str) (pins : List PkgPin) : PartBuilder :=
  { st with part := { st.part with packages := alPut st.part.packages name pins } }

/-- `PartBuilder::add_combo`. -/
def add_combo (st : PartBuilder) (name device package speed temp : Str) : PartBuilder :=
  { st with part := { st.part with
      combos := st.part.combos ++ [⟨name, device, package, speed, temp⟩] } }

/-- `PartBuilder::finish`. -/
def finish (st : PartBuilder) : Part := st.part

/-- Inner loop of `post_deserialize`: walk one node's template entries. -/
def pdWires : Part → Coord → List TkNodeTemplateWire → Nat → Option Part
  | p, _, [], _ => some p
  | p, base, tw :: rest, i =>
    let coord : Coord := ⟨base.x + tw.delta.x, base.y + tw.delta.y⟩
    match alGet p.tiles coord with
    | none => none
    | some tile =>
      match alGet p.tile_kinds tile.kind with
      | none => none
      | some tk =>
        match alGet tk.wires tw.wire with
        | some (.Connected idx) =>
          match NodeIdx.from_raw i with
          | none => none
          | some ni =>
            match tile.set_conn_wire idx ni with
            | none => none
            | some tile1 => pdWires { p with tiles := alPut p.tiles coord tile1 } base rest i
        | _ => none

/-- Outer loop of `post_deserialize`: enumerate the nodes. -/
def pdNodes : Part → List TkNode → Nat → Option Part
  | p, [], _ => some p
  | p, node :: rest, i =>
    match p.templates[node.template]? with
    | none => none
    | some tmpl =>
      match pdWires p node.base tmpl.wires i with
      | none => none
      | some p1 => pdNodes p1 rest (i + 1)

/-- `Part::post_deserialize`. -/
def post_deserialize (p : Part) : Option Part := pdNodes p p.nodes 0

/-- What serialization drops from a tile: the `#[serde(skip)]`
`conn_wires` cache (deserialization defaults it to empty). -/
def stripTile (t : Tile) : Tile := { t with conn_wires := [] }

/-- The persisted image of a `Part`: everything except the per-tile
`conn_wires` caches (modulo the byte encoding, which is lossless). -/
def stripPart (p : Part) : Part :=
  { p with tiles := p.tiles.map (fun e => (e.1, stripTile e.2)) }

/-- Model of `to_file` followed by `from_file`, minus the I/O and byte
codec (both lossless): drop the serde-skipped caches, then run
`post_deserialize`. -/
def from_file_model (p : Part) : Option Part := post_deserialize (stripPart p)

/-! ### Basic lemmas about the container model -/

theorem alGet_alPut_self {K V : Type} [DecidableEq K] (m : AList K V) (k : K) (v : V) :
    alGet (alPut m k v) k = some v := by
  induction m with
  | nil => simp [alPut, alGet]
  | cons e rest ih =>
    by_cases h : e.1 = k
    · simp [alPut, alGet, h]
    · simp [alPut, alGet, h, ih]

theorem alGet_alPut_ne {K V : Type} [DecidableEq K] (m : AList K V) {k k' : K} (v : V)
    (h : k' ≠ k) : alGet (alPut m k v) k' = alGet m k' := by
  have h2 : ¬(k = k') := fun he => h he.symm
  induction m with
  | nil => simp [alPut, alGet, h2]
  | cons e rest ih =>
    by_cases he : e.1 = k
    · subst he
      simp [alPut, alGet, h2]
    · simp only [alPut, he, if_neg, ite_false, alGet]
      by_cases he2 : e.1 = k'
      · simp [he2]
      · simp [he2, ih]

theorem alGet_alPut {K V : Type} [DecidableEq K] (m : AList K V) (k k' : K) (v : V) :
    alGet (alPut m k v) k' = if k' = k then some v else alGet m k' := by
  by_cases h : k' = k
  · subst h
    simp [alGet_alPut_self]
  · simp [h, alGet_alPut_ne m v h]

theorem padTo_length {α : Type} (l : List α) (n : Nat) (d : α) :
    (padTo l n d).length = max l.length n := by
  simp [padTo]
  omega

theorem padTo_getElem? {α : Type} (l : List α) (n j : Nat) (d : α) :
    (padTo l n d)[j]? =
      if j < l.length then l[j]? else if j < n then some d else none := by
  unfold padTo
  by_cases h : j < l.length
  · rw [List.getElem?_append_left h]
    simp [h]
  · rw [List.getElem?_append_right (by omega)]
    rw [List.getElem?_replicate]
    by_cases h2 : j < n
    · rw [if_pos (by omega), if_neg h, if_pos h2]
    · rw [if_neg (by omega), if_neg h, if_neg h2]

theorem setAt_getElem?_self {α : Type} (l : List α) (i : Nat) (d v : α) :
    (setAt l i d v)[i]? = some v := by
  unfold setAt
  apply List.getElem?_set_eq_of_lt
  rw [padTo_length]
  omega

theorem setAt_getElem?_ne {α : Type} (l : List α) {i j : Nat} (d v : α) (h : j ≠ i) :
    (setAt l i d v)[j]? =
      if j < l.length then l[j]? else if j < i + 1 then some d else none := by
  unfold setAt
  rw [List.getElem?_set_ne (fun he => h he.symm)]
  exact padTo_getElem? l (i + 1) j d

theorem setAt_length {α : Type} (l : List α) (i : Nat) (d v : α) :
    (setAt l i d v).length = max l.length (i + 1) := by
  simp [setAt, padTo_length]

/-! ### C8: interning idempotence -/

/-- C8.  Each interning operation (`wire_to_idx`, `speed_to_idx` with a
known name, `slot_kind_to_idx`) is idempotent: a repeated call with an
equal name returns the same handle and the very same builder state (so no
table grows); and `speed_to_idx` applied to `None` returns the `UNKNOWN`
sentinel and leaves the whole state untouched. -/
theorem interning_idempotent :
    (∀ (st : PartBuilder) (n : Str) (i : WireIdx) (st1 : PartBuilder),
      wire_to_idx st n = some (i, st1) → wire_to_idx st1 n = some (i, st1)) ∧
    (∀ (st : PartBuilder) (n : Str) (i : SpeedIdx) (st1 : PartBuilder),
      speed_to_idx st (some n) = some (i, st1) → speed_to_idx st1 (some n) = some (i, st1)) ∧
    (∀ (st : PartBuilder) (n : Str) (i : Nat) (st1 : PartBuilder),
      slot_kind_to_idx st n = some (i, st1) → slot_kind_to_idx st1 n = some (i, st1)) ∧
    (∀ st : PartBuilder, speed_to_idx st none = some (SpeedIdx.UNKNOWN, st)) := by
  refine ⟨?_, ?_, ?_, fun st => rfl⟩
  · intro st n i st1 h
    unfold wire_to_idx at h ⊢
    match hg : alGet st.wires_by_name n with
    | some j =>
      rw [hg] at h
      cases h
      rw [hg]
    | none =>
      rw [hg] at h
      match hf : WireIdx.from_raw st.part.wires.length with
      | none => rw [hf] at h; cases h
      | some w =>
        rw [hf] at h
        cases h
        simp [alGet_alPut_self]
  · intro st n i st1 h
    simp only [speed_to_idx] at h ⊢
    match hg : alGet st.speeds_by_name n with
    | some j =>
      rw [hg] at h
      cases h
      rw [hg]
    | none =>
      rw [hg] at h
      match hf : SpeedIdx.from_raw st.part.speeds.length with
      | none => rw [hf] at h; cases h
      | some w =>
        rw [hf] at h
        cases h
        simp [alGet_alPut_self]
  · intro st n i st1 h
    unfold slot_kind_to_idx at h ⊢
    match hg : alGet st.slot_kinds_by_name n with
    | some j =>
      rw [hg] at h
      cases h
      rw [hg]
    | none =>
      rw [hg] at h
      by_cases hb : st.part.slot_kinds.length > 65535
      · simp [hb] at h
      · simp only [hb, if_neg, ite_false] at h
        cases h
        simp [alGet_alPut_self]

/-- Empty builder used by concrete witnesses. -/
def wEmpty : PartBuilder := PartBuilder.new [] [] Source.ISE 1 1

/-- `wEmpty` after interning wire `A`. -/
def wAfterWire : PartBuilder :=
  { wEmpty with
    part := { wEmpty.part with wires := [['A']] }
    wires_by_name := [(['A'], ⟨0⟩)] }

/-- `wEmpty` after interning speed `f`. -/
def wAfterSpeed : PartBuilder :=
  { wEmpty with
    part := { wEmpty.part with speeds := [['f']] }
    speeds_by_name := [(['f'], ⟨0⟩)] }

/-- `wEmpty` after interning slot kind `S`. -/
def wAfterSlotKind : PartBuilder :=
  { wEmpty with
    part := { wEmpty.part with slot_kinds := [['S']] }
    slot_kinds_by_name := [(['S'], 0)] }

/-- Witness for C8 at concrete inputs. -/
theorem interning_idempotent_witness :
    wire_to_idx wAfterWire ['A'] = some (⟨0⟩, wAfterWire) ∧
    speed_to_idx wAfterSpeed (some ['f']) = some (⟨0⟩, wAfterSpeed) ∧
    slot_kind_to_idx wAfterSlotKind ['S'] = some (0, wAfterSlotKind) ∧
    speed_to_idx wEmpty none = some (SpeedIdx.UNKNOWN, wEmpty) :=
  ⟨interning_idempotent.1 wEmpty ['A'] ⟨0⟩ wAfterWire (by decide),
   interning_idempotent.2.1 wEmpty ['f'] ⟨0⟩ wAfterSpeed (by decide),
   interning_idempotent.2.2.1 wEmpty ['S'] 0 wAfterSlotKind (by decide),
   interning_idempotent.2.2.2 wEmpty⟩

/-! ### C10: the single-endpoint fast path still interns -/

/-- A builder state whose kind `K` already lists the wire handle that the
next fresh interning will produce (`⟨0⟩`, since the global wire table is
empty), with the internal speed likewise equal to the handle the next
fresh speed interning will produce. -/
def fpB : PartBuilder :=
  ⟨⟨[], [], Source.ISE, 1, 1,
    [(['K'], ⟨[], [], [(⟨0⟩, .Internal ⟨0⟩)], [], [], [], [⟨0, 0⟩]⟩)],
    [(⟨0, 0⟩, ⟨['t'], ['K'], [], [], []⟩)],
    [], [], [], [], [], [], []⟩,
    [(['t'], ⟨0, 0⟩)], [], [], [], []⟩

/-- `fpB` after `add_node` interned wire `W` and speed `sp`. -/
def fpB1 : PartBuilder :=
  { fpB with
    part := { fpB.part with wires := [['W']], speeds := [['s', 'p']] }
    wires_by_name := [(['W'], ⟨0⟩)]
    speeds_by_name := [(['s', 'p'], ⟨0⟩)] }

/-- C10.  `add_node` interns the endpoint's wire and speed names before
the single-endpoint fast-path check, so a call that returns through the
fast path — allocating no node and no template and leaving the tiles and
tile kinds untouched — can still have grown the global wire and speed
tables and their name indices. -/
theorem add_node_fast_path_interns :
    add_node fpB [(['t'], ['W'], some ['s', 'p'])] = some fpB1 ∧
    fpB1.part.nodes = fpB.part.nodes ∧
    fpB1.part.templates = fpB.part.templates ∧
    fpB1.part.tiles = fpB.part.tiles ∧
    fpB1.part.tile_kinds = fpB.part.tile_kinds ∧
    fpB1.part.wires = fpB.part.wires ++ [['W']] ∧
    fpB1.part.speeds = fpB.part.speeds ++ [['s', 'p']] ∧
    fpB1.wires_by_name = fpB.wires_by_name ++ [(['W'], WireIdx.mk 0)] ∧
    fpB1.speeds_by_name = fpB.speeds_by_name ++ [(['s', 'p'], SpeedIdx.mk 0)] := by
  decide

/-! ### Frame lemmas: interning touches only the name tables -/

/-- Everything the three interning operations leave untouched. -/
def internsOnly (st st1 : PartBuilder) : Prop :=
  st1.part.part = st.part.part ∧
  st1.part.family = st.part.family ∧
  st1.part.source = st.part.source ∧
  st1.part.width = st.part.width ∧
  st1.part.height = st.part.height ∧
  st1.part.tile_kinds = st.part.tile_kinds ∧
  st1.part.tiles = st.part.tiles ∧
  st1.part.nodes = st.part.nodes ∧
  st1.part.templates = st.part.templates ∧
  st1.part.packages = st.part.packages ∧
  st1.part.combos = st.part.combos ∧
  st1.tiles_by_name = st.tiles_by_name ∧
  st1.templates_idx = st.templates_idx

theorem internsOnly_refl (st : PartBuilder) : internsOnly st st :=
  ⟨rfl, rfl, rfl, rfl, rfl, rfl, rfl, rfl, rfl, rfl, rfl, rfl, rfl⟩

theorem internsOnly_trans {a b c : PartBuilder} (h1 : internsOnly a b)
    (h2 : internsOnly b c) : internsOnly a c := by
  obtain ⟨p1, p2, p3, p4, p5, p6, p7, p8, p9, p10, p11, p12, p13⟩ := h1
  obtain ⟨q1, q2, q3, q4, q5, q6, q7, q8, q9, q10, q11, q12, q13⟩ := h2
  exact ⟨q1.trans p1, q2.trans p2, q3.trans p3, q4.trans p4, q5.trans p5,
    q6.trans p6, q7.trans p7, q8.trans p8, q9.trans p9, q10.trans p10,
    q11.trans p11, q12.trans p12, q13.trans p13⟩

theorem wire_to_idx_internsOnly {st : PartBuilder} {s : Str} {i : WireIdx}
    {st1 : PartBuilder} (h : wire_to_idx st s = some (i, st1)) :
    internsOnly st st1 := by
  unfold wire_to_idx at h
  cases hg : alGet st.wires_by_name s with
  | some j =>
    rw [hg] at h
    cases h
    exact internsOnly_refl st
  | none =>
    rw [hg] at h
    cases hf : WireIdx.from_raw st.part.wires.length with
    | none => rw [hf] at h; cases h
    | some w =>
      rw [hf] at h
      cases h
      exact ⟨rfl, rfl, rfl, rfl, rfl, rfl, rfl, rfl, rfl, rfl, rfl, rfl, rfl⟩

theorem speed_to_idx_internsOnly {st : PartBuilder} {s : Option Str} {i : SpeedIdx}
    {st1 : PartBuilder} (h : speed_to_idx st s = some (i, st1)) :
    internsOnly st st1 := by
  cases s with
  | none =>
    simp only [speed_to_idx] at h
    cases h
    exact internsOnly_refl st
  | some n =>
    simp only [speed_to_idx] at h
    cases hg : alGet st.speeds_by_name n with
    | some j =>
      rw [hg] at h
      cases h
      exact internsOnly_refl st
    | none =>
      rw [hg] at h
      cases hf : SpeedIdx.from_raw st.part.speeds.length with
      | none => rw [hf] at h; cases h
      | some w =>
        rw [hf] at h
        cases h
        exact ⟨rfl, rfl, rfl, rfl, rfl, rfl, rfl, rfl, rfl, rfl, rfl, rfl, rfl⟩

theorem slot_kind_to_idx_internsOnly {st : PartBuilder} {s : Str} {i : Nat}
    {st1 : PartBuilder} (h : slot_kind_to_idx st s = some (i, st1)) :
    internsOnly st st1 := by
  unfold slot_kind_to_idx at h
  cases hg : alGet st.slot_kinds_by_name s with
  | some j =>
    rw [hg] at h
    cases h
    exact internsOnly_refl st
  | none =>
    rw [hg] at h
    by_cases hb : st.part.slot_kinds.length > 65535
    · simp [hb] at h
    · simp only [hb, ite_false] at h
      cases h
      exact ⟨rfl, rfl, rfl, rfl, rfl, rfl, rfl, rfl, rfl, rfl, rfl, rfl, rfl⟩

theorem internWirePairs_internsOnly :
    ∀ (l : List (Str × Option Str)) {st : PartBuilder} {res : List (WireIdx × SpeedIdx)}
      {st1 : PartBuilder}, internWirePairs st l = some (res, st1) → internsOnly st st1 := by
  intro l
  induction l with
  | nil =>
    intro st res st1 h
    simp only [internWirePairs] at h
    cases h
    exact internsOnly_refl st
  | cons e rest ih =>
    intro st res st1 h
    obtain ⟨n, s⟩ := e
    simp only [internWirePairs] at h
    split at h
    next => cases h
    next w stA h1 =>
      split at h
      next => cases h
      next sp stB h2 =>
        split at h
        next => cases h
        next l2 stC h3 =>
          cases h
          exact internsOnly_trans
            (internsOnly_trans (wire_to_idx_internsOnly h1) (speed_to_idx_internsOnly h2))
            (ih h3)

theorem internPips_internsOnly :
    ∀ (l : List PipArg) {st : PartBuilder} {res : List PipI} {st1 : PartBuilder},
      internPips st l = some (res, st1) → internsOnly st st1 := by
  intro l
  induction l with
  | nil =>
    intro st res st1 h
    simp only [internPips] at h
    cases h
    exact internsOnly_refl st
  | cons pa rest ih =>
    intro st res st1 h
    simp only [internPips] at h
    split at h
    next => cases h
    next f stA h1 =>
      split at h
      next => cases h
      next t stB h2 =>
        split at h
        next => cases h
        next sp stC h3 =>
          split at h
          next => cases h
          next l2 stD h4 =>
            cases h
            exact internsOnly_trans (internsOnly_trans
              (internsOnly_trans (wire_to_idx_internsOnly h1) (wire_to_idx_internsOnly h2))
              (speed_to_idx_internsOnly h3)) (ih h4)

theorem internPins_internsOnly :
    ∀ (l : List PinArg) {st : PartBuilder}
      {res : List (Str × TkSitePinDir × WireIdx × SpeedIdx)} {st1 : PartBuilder},
      internPins st l = some (res, st1) → internsOnly st st1 := by
  intro l
  induction l with
  | nil =>
    intro st res st1 h
    simp only [internPins] at h
    cases h
    exact internsOnly_refl st
  | cons pa rest ih =>
    intro st res st1 h
    simp only [internPins] at h
    split at h
    next => cases h
    next w stA h1 =>
      have hA : internsOnly st stA := by
        cases hw : pa.wire with
        | some wn => rw [hw] at h1; exact wire_to_idx_internsOnly h1
        | none => rw [hw] at h1; cases h1; exact internsOnly_refl st
      split at h
      next => cases h
      next sp stB h2 =>
        split at h
        next => cases h
        next l2 stC h3 =>
          cases h
          exact internsOnly_trans (internsOnly_trans hA (speed_to_idx_internsOnly h2)) (ih h3)

theorem internSites_internsOnly (slots : AList Str TkSiteSlot) :
    ∀ (l : List SiteArg) {st : PartBuilder} {res : List SiteI} {st1 : PartBuilder},
      internSites slots st l = some (res, st1) → internsOnly st st1 := by
  intro l
  induction l with
  | nil =>
    intro st res st1 h
    simp only [internSites] at h
    cases h
    exact internsOnly_refl st
  | cons sa rest ih =>
    intro st res st1 h
    simp only [internSites] at h
    split at h
    next => cases h
    next slot h0 =>
      split at h
      next => cases h
      next pins stA h1 =>
        split at h
        next => cases h
        next l2 stB h2 =>
          cases h
          exact internsOnly_trans (internPins_internsOnly _ h1) (ih h2)

theorem classify_site_internsOnly {st : PartBuilder} {m : AList Nat (Nat × Nat)}
    {sa : SiteArg} {slot : TkSiteSlot} {st1 : PartBuilder}
    (h : classify_site st m sa = some (slot, st1)) : internsOnly st st1 := by
  unfold classify_site at h
  split at h
  next => cases h
  next s post h0 =>
    split at h
    next => cases h
    next b stA h1 =>
      split at h
      next => cases h
      next sl h2 =>
        cases h
        exact slot_kind_to_idx_internsOnly h1

theorem slotifyMinXY_internsOnly :
    ∀ (l : List SiteArg) {st : PartBuilder} {m res : AList Nat (Nat × Nat)}
      {st1 : PartBuilder}, slotifyMinXY st l m = some (res, st1) → internsOnly st st1 := by
  intro l
  induction l with
  | nil =>
    intro st m res st1 h
    simp only [slotifyMinXY] at h
    cases h
    exact internsOnly_refl st
  | cons sa rest ih =>
    intro st m res st1 h
    simp only [slotifyMinXY] at h
    split at h
    next h0 =>
      exact ih h
    next base x y h0 =>
      split at h
      next => cases h
      next b stA h1 =>
        exact internsOnly_trans (slot_kind_to_idx_internsOnly h1) (ih h)

theorem slotifySites_internsOnly :
    ∀ (l : List SiteArg) {st : PartBuilder} {m : AList Nat (Nat × Nat)}
      {slots : List TkSiteSlot} {acc res : AList Str TkSiteSlot} {st1 : PartBuilder},
      slotifySites st m l slots acc = some (res, st1) → internsOnly st st1 := by
  intro l
  induction l with
  | nil =>
    intro st m slots acc res st1 h
    simp only [slotifySites] at h
    cases h
    exact internsOnly_refl st
  | cons sa rest ih =>
    intro st m slots acc res st1 h
    simp only [slotifySites] at h
    split at h
    next => cases h
    next slot stA h0 =>
      by_cases hm : slot ∈ slots
      · simp [hm] at h
      · simp only [hm, ite_false] at h
        exact internsOnly_trans (classify_site_internsOnly h0) (ih h)

theorem slotify_internsOnly {st : PartBuilder} {sites : List SiteArg}
    {res : AList Str TkSiteSlot} {st1 : PartBuilder}
    (h : slotify st sites = some (res, st1)) : internsOnly st st1 := by
  unfold slotify at h
  split at h
  next => cases h
  next m stA h0 =>
    exact internsOnly_trans (slotifyMinXY_internsOnly _ h0) (slotifySites_internsOnly _ h)

theorem addTilePrefix_internsOnly {st : PartBuilder} {sites : List SiteArg}
    {wires : List (Str × Option Str)} {pips : List PipArg}
    {wiresI : List (WireIdx × SpeedIdx)} {pipsI : List PipI} {sitesI : List SiteI}
    {st4 : PartBuilder}
    (h : addTilePrefix st sites wires pips = some (wiresI, pipsI, sitesI, st4)) :
    internsOnly st st4 := by
  unfold addTilePrefix at h
  split at h
  next => cases h
  next wI stA h1 =>
    split at h
    next => cases h
    next pI stB h2 =>
      split at h
      next => cases h
      next slots stC h3 =>
        split at h
        next => cases h
        next sI stD h4 =>
          cases h
          exact internsOnly_trans (internsOnly_trans
            (internsOnly_trans (internWirePairs_internsOnly _ h1) (internPips_internsOnly _ h2))
            (slotify_internsOnly h3)) (internSites_internsOnly _ _ h4)

/-! ### Lemmas about the wire maps built and merged by `add_tile` -/

theorem alGet_foldl_wires_not_mem :
    ∀ (l : List (WireIdx × SpeedIdx)) (m : AList WireIdx TkWire) {wi : WireIdx},
      wi ∉ l.map Prod.fst →
      alGet (l.foldl (fun m e => alPut m e.1 (.Internal e.2)) m) wi = alGet m wi := by
  intro l
  induction l with
  | nil => intro m wi _; rfl
  | cons e rest ih =>
    intro m wi h
    simp only [List.map_cons, List.mem_cons] at h
    push_neg at h
    simp only [List.foldl_cons]
    rw [ih _ h.2, alGet_alPut_ne _ _ h.1]

theorem alGet_buildWiresMap_mem :
    ∀ (l : List (WireIdx × SpeedIdx)) (m : AList WireIdx TkWire) {wi : WireIdx}
      {si : SpeedIdx}, (l.map Prod.fst).Nodup → (wi, si) ∈ l →
      alGet (l.foldl (fun m e => alPut m e.1 (.Internal e.2)) m) wi =
        some (.Internal si) := by
  intro l
  induction l with
  | nil => intro m wi si _ hm; cases hm
  | cons e rest ih =>
    intro m wi si hnd hm
    simp only [List.map_cons, List.nodup_cons] at hnd
    simp only [List.foldl_cons]
    cases hm with
    | head =>
      rw [alGet_foldl_wires_not_mem rest _ hnd.1, alGet_alPut_self]
    | tail _ hm2 => exact ih _ hnd.2 hm2

theorem mergeSites_frame :
    ∀ (l : List SiteI) {tk : TileKind} {ls : List (Option Str)} {tk' : TileKind}
      {ls' : List (Option Str)}, mergeSites tk ls l = some (tk', ls') →
      tk'.wires = tk.wires ∧ tk'.conn_wires = tk.conn_wires ∧ tk'.pips = tk.pips ∧
      tk'.var_pips = tk.var_pips ∧ tk'.tiles = tk.tiles := by
  intro l
  induction l with
  | nil =>
    intro tk ls tk' ls' h
    simp only [mergeSites] at h
    cases h
    exact ⟨rfl, rfl, rfl, rfl, rfl⟩
  | cons si rest ih =>
    intro tk ls tk' ls' h
    simp only [mergeSites] at h
    split at h
    next idx h0 =>
      split at h
      next => cases h
      next site h1 =>
        split at h
        next => cases h
        next pins1 h2 =>
          exact (let hx := ih h; hx)
    next h0 =>
      exact (let hx := ih h; hx)

theorem mergePips_frame :
    ∀ (l : List PipI) {tk : TileKind} {lv : List SpeedIdx} {tiles : AList Coord Tile}
      {tk' : TileKind} {lv' : List SpeedIdx} {tiles' : AList Coord Tile},
      mergePips tk lv tiles l = some (tk', lv', tiles') →
      tk'.wires = tk.wires ∧ tk'.conn_wires = tk.conn_wires ∧ tk'.sites = tk.sites ∧
      tk'.sites_by_slot = tk.sites_by_slot ∧ tk'.tiles = tk.tiles := by
  intro l
  induction l with
  | nil =>
    intro tk lv tiles tk' lv' tiles' h
    simp only [mergePips] at h
    cases h
    exact ⟨rfl, rfl, rfl, rfl, rfl⟩
  | cons pa rest ih =>
    intro tk lv tiles tk' lv' tiles' h
    simp only [mergePips] at h
    split at h
    next h0 =>
      exact (let hx := ih h; hx)
    next pip h0 =>
      split at h
      next => cases h
      next hflags =>
        split at h
        next cs hmode =>
          split at h
          next heqs => exact (let hx := ih h; hx)
          next heqs =>
            split at h
            next => cases h
            next tiles1 h1 =>
              exact (let hx := ih h; hx)
        next i hmode =>
          exact (let hx := ih h; hx)

theorem mergeWires_key_frame :
    ∀ (l : List (WireIdx × SpeedIdx)) {tk : TileKind} {lc : List NodeIdx}
      {tiles : AList Coord Tile} {tk' : TileKind} {lc' : List NodeIdx}
      {tiles' : AList Coord Tile} {wi : WireIdx},
      wi ∉ l.map Prod.fst → mergeWires tk lc tiles l = some (tk', lc', tiles') →
      alGet tk'.wires wi = alGet tk.wires wi := by
  intro l
  induction l with
  | nil =>
    intro tk lc tiles tk' lc' tiles' wi _ h
    simp only [mergeWires] at h
    cases h
    rfl
  | cons e rest ih =>
    intro tk lc tiles tk' lc' tiles' wi hmem h
    obtain ⟨n, s⟩ := e
    simp only [List.map_cons, List.mem_cons] at hmem
    push_neg at hmem
    simp only [mergeWires] at h
    split at h
    next h0 =>
      rw [ih hmem.2 h]
      exact alGet_alPut_ne _ _ hmem.1
    next cs h0 =>
      split at h
      next heq => exact ih hmem.2 h
      next heq =>
        split at h
        next => cases h
        next tiles1 h1 =>
          rw [ih hmem.2 h]
          exact alGet_alPut_ne _ _ hmem.1
    next i h0 =>
      exact ih hmem.2 h

theorem mergeWires_fresh :
    ∀ (l : List (WireIdx × SpeedIdx)) {tk : TileKind} {lc : List NodeIdx}
      {tiles : AList Coord Tile} {tk' : TileKind} {lc' : List NodeIdx}
      {tiles' : AList Coord Tile} {wi : WireIdx} {si : SpeedIdx},
      (l.map Prod.fst).Nodup → (wi, si) ∈ l → alGet tk.wires wi = none →
      mergeWires tk lc tiles l = some (tk', lc', tiles') →
      ∃ i, alGet tk'.wires wi = some (.Connected i) := by
  intro l
  induction l with
  | nil => intro tk lc tiles tk' lc' tiles' wi si _ hm; cases hm
  | cons e rest ih =>
    intro tk lc tiles tk' lc' tiles' wi si hnd hm hfresh h
    simp only [List.map_cons, List.nodup_cons] at hnd
    simp only [mergeWires] at h
    cases hm with
    | head =>
      rw [hfresh] at h
      refine ⟨tk.conn_wires.length, ?_⟩
      rw [mergeWires_key_frame rest hnd.1 h]
      exact alGet_alPut_self _ _ _
    | tail _ hm2 =>
      have hne : wi ≠ e.1 := by
        intro he
        exact hnd.1 (he ▸ (List.mem_map.mpr ⟨(wi, si), hm2, rfl⟩))
      obtain ⟨n, s⟩ := e
      split at h
      next h0 =>
        exact ih hnd.2 hm2 ((alGet_alPut_ne _ _ hne).trans hfresh) h
      next cs h0 =>
        split at h
        next heq => exact ih hnd.2 hm2 hfresh h
        next heq =>
          split at h
          next => cases h
          next tiles1 h1 =>
            exact ih hnd.2 hm2 ((alGet_alPut_ne _ _ hne).trans hfresh) h
      next i h0 =>
        exact ih hnd.2 hm2 hfresh h

/-! ### C3: how wires enter a kind's wire map -/

/-- Fallback builder used only to give `Option.getD` a default in the
concrete runs below (every call involved succeeds). -/
def cxFallback : PartBuilder := PartBuilder.new [] [] Source.ISE 0 0

/-- One tile of kind `T` with wire `A`. -/
def cx3B1 : PartBuilder :=
  (add_tile (PartBuilder.new ['p'] ['f'] Source.ISE 4 4) ⟨0, 0⟩ ['t', '0'] ['T']
    [] [(['A'], none)] []).getD cxFallback

/-- A second tile of kind `T` additionally reporting wire `B`. -/
def cx3B2 : PartBuilder :=
  (add_tile cx3B1 ⟨1, 0⟩ ['t', '1'] ['T'] [] [(['A'], none), (['B'], none)] []).getD
    cxFallback

/-- Counterexample to C3: wire `B` (handle 1) is recorded in kind `T`'s
wire map for the first time by the second (merging) `add_tile`, and its
state at that first insertion is `Connected 0` — not `Internal`. -/
theorem wire_insertion_cx :
    add_tile cx3B1 ⟨1, 0⟩ ['t', '1'] ['T'] [] [(['A'], none), (['B'], none)] []
      = some cx3B2 ∧
    (alGet cx3B1.part.tile_kinds ['T']).map (fun tk => alGet tk.wires ⟨1⟩)
      = some none ∧
    (alGet cx3B2.part.tile_kinds ['T']).map (fun tk => alGet tk.wires ⟨1⟩)
      = some (some (.Connected 0)) := by
  decide

/-- C3 (amended).  A wire of the *first* instance of a kind starts
`Internal` with the speed that instance reported; but a wire first
appearing in a *later* instance merged into an existing kind is inserted
directly as `Connected` with a fresh slot, never `Internal`. -/
theorem wire_insertion_states :
    (∀ (st : PartBuilder) (coord : Coord) (name kind : Str) (sites : List SiteArg)
      (wires : List (Str × Option Str)) (pips : List PipArg) (st' : PartBuilder)
      (wiresI : List (WireIdx × SpeedIdx)) (pipsI : List PipI) (sitesI : List SiteI)
      (st4 : PartBuilder) (wi : WireIdx) (si : SpeedIdx),
      add_tile st coord name kind sites wires pips = some st' →
      addTilePrefix st sites wires pips = some (wiresI, pipsI, sitesI, st4) →
      alGet st.part.tile_kinds kind = none →
      (wiresI.map Prod.fst).Nodup → (wi, si) ∈ wiresI →
      (alGet st'.part.tile_kinds kind).map (fun tk => alGet tk.wires wi)
        = some (some (.Internal si))) ∧
    (∀ (st : PartBuilder) (coord : Coord) (name kind : Str) (sites : List SiteArg)
      (wires : List (Str × Option Str)) (pips : List PipArg) (st' : PartBuilder)
      (wiresI : List (WireIdx × SpeedIdx)) (pipsI : List PipI) (sitesI : List SiteI)
      (st4 : PartBuilder) (tk : TileKind) (wi : WireIdx) (si : SpeedIdx),
      add_tile st coord name kind sites wires pips = some st' →
      addTilePrefix st sites wires pips = some (wiresI, pipsI, sitesI, st4) →
      alGet st.part.tile_kinds kind = some tk →
      (wiresI.map Prod.fst).Nodup → (wi, si) ∈ wiresI →
      alGet tk.wires wi = none →
      ∃ i, (alGet st'.part.tile_kinds kind).map (fun tk2 => alGet tk2.wires wi)
        = some (some (.Connected i))) := by
  constructor
  · intro st coord name kind sites wires pips st' wiresI pipsI sitesI st4 wi si
      hadd hpre hk hnd hm
    unfold add_tile at hadd
    split at hadd
    case isFalse => cases hadd
    case isTrue hb =>
      split at hadd
      next h0 => cases hadd
      next w1 p1 s1 stD heq =>
        rw [hpre] at heq
        cases heq
        have hfr := (addTilePrefix_internsOnly hpre).2.2.2.2.2.1
        split at hadd
        next tk2 hk2 =>
          rw [hfr, hk] at hk2
          cases hk2
        next hk2 =>
          cases hadd
          rw [alGet_alPut_self]
          simp only [Option.map_some']
          rw [show alGet (buildWiresMap wiresI) wi = some (.Internal si) from
            alGet_buildWiresMap_mem wiresI [] hnd hm]
  · intro st coord name kind sites wires pips st' wiresI pipsI sitesI st4 tk wi si
      hadd hpre hk hnd hm hfresh
    unfold add_tile at hadd
    split at hadd
    case isFalse => cases hadd
    case isTrue hb =>
      split at hadd
      next h0 => cases hadd
      next w1 p1 s1 stD heq =>
        rw [hpre] at heq
        cases heq
        have hfr := (addTilePrefix_internsOnly hpre).2.2.2.2.2.1
        split at hadd
        next tk2 hk2 =>
          rw [hfr, hk] at hk2
          cases hk2
          split at hadd
          next => cases hadd
          next tkA ls hms =>
            split at hadd
            next => cases hadd
            next tkB lc tilesB hmw =>
              split at hadd
              next => cases hadd
              next tkC lv tilesC hmp =>
                cases hadd
                have hwA : alGet tkA.wires wi = none :=
                  (mergeSites_frame _ hms).1 ▸ hfresh
                obtain ⟨i, hwB⟩ := mergeWires_fresh wiresI hnd hm hwA hmw
                refine ⟨i, ?_⟩
                rw [alGet_alPut_self]
                simp only [Option.map_some']
                rw [show ({ tkC with tiles := tkC.tiles ++ [coord] } : TileKind).wires
                  = tkC.wires from rfl]
                rw [(mergePips_frame _ hmp).1, hwB]
        next hk2 =>
          rw [hfr, hk] at hk2
          cases hk2

/-- The builder `cx3B1` starts from. -/
def cx3B0 : PartBuilder := PartBuilder.new ['p'] ['f'] Source.ISE 4 4

/-- `cx3B0` after the interning prefix of the first `add_tile`. -/
def cx3B0i : PartBuilder :=
  { cx3B0 with
    part := { cx3B0.part with wires := [['A']] }
    wires_by_name := [(['A'], ⟨0⟩)] }

/-- `cx3B1` after the interning prefix of the second `add_tile`. -/
def cx3B1i : PartBuilder :=
  { cx3B1 with
    part := { cx3B1.part with wires := [['A'], ['B']] }
    wires_by_name := [(['A'], ⟨0⟩), (['B'], ⟨1⟩)] }

/-- Kind `T` as recorded in `cx3B1`. -/
def cx3TkT : TileKind := ⟨[], [], [(⟨0⟩, .Internal SpeedIdx.UNKNOWN)], [], [], [], [⟨0, 0⟩]⟩

/-- Witness for C3 (amended) at concrete inputs. -/
theorem wire_insertion_states_witness :
    ((alGet cx3B1.part.tile_kinds ['T']).map (fun tk => alGet tk.wires ⟨0⟩)
      = some (some (.Internal SpeedIdx.UNKNOWN))) ∧
    (∃ i, (alGet cx3B2.part.tile_kinds ['T']).map (fun tk2 => alGet tk2.wires ⟨1⟩)
      = some (some (.Connected i))) :=
  ⟨wire_insertion_states.1 cx3B0 ⟨0, 0⟩ ['t', '0'] ['T'] [] [(['A'], none)] []
      cx3B1 [(⟨0⟩, SpeedIdx.UNKNOWN)] [] [] cx3B0i ⟨0⟩ SpeedIdx.UNKNOWN
      (by decide) (by decide) (by decide) (by decide) (by decide),
   wire_insertion_states.2 cx3B1 ⟨1, 0⟩ ['t', '1'] ['T'] []
      [(['A'], none), (['B'], none)] [] cx3B2
      [(⟨0⟩, SpeedIdx.UNKNOWN), (⟨1⟩, SpeedIdx.UNKNOWN)] [] [] cx3B1i cx3TkT
      ⟨1⟩ SpeedIdx.UNKNOWN
      (by decide) (by decide) (by decide) (by decide) (by decide) (by decide)⟩

/-! ### C6: a conn-wire slot holds at most one node -/

theorem padTo_getD {α : Type} (l : List α) (i : Nat) (d : α) :
    (padTo l (i + 1) d).getD i d = l.getD i d := by
  rw [List.getD_eq_getElem?_getD, List.getD_eq_getElem?_getD, padTo_getElem?]
  by_cases h : i < l.length
  · rw [if_pos h]
  · rw [if_neg h, if_pos (Nat.lt_succ_self i),
      List.getElem?_eq_none (Nat.le_of_not_lt h)]
    rfl

theorem set_conn_wire_ok (t : Tile) (idx : Nat) (val : NodeIdx)
    (h : t.conn_wires.getD idx NodeIdx.NONE = NodeIdx.PENDING ∨
      t.conn_wires.getD idx NodeIdx.NONE = NodeIdx.NONE) :
    ∃ t', t.set_conn_wire idx val = some t' ∧ t'.conn_wires[idx]? = some val := by
  unfold Tile.set_conn_wire
  rw [if_neg]
  · refine ⟨_, rfl, ?_⟩
    show ((padTo t.conn_wires (idx + 1) NodeIdx.NONE).set idx val)[idx]? = some val
    apply List.getElem?_set_eq_of_lt
    rw [padTo_length]
    omega
  · rw [padTo_getD]
    cases h with
    | inl h => rw [h]; intro hc; exact hc.1 rfl
    | inr h => rw [h]; intro hc; exact hc.2.1 rfl

theorem set_conn_wire_err (t : Tile) (idx : Nat) (val : NodeIdx)
    (h1 : t.conn_wires.getD idx NodeIdx.NONE ≠ NodeIdx.PENDING)
    (h2 : t.conn_wires.getD idx NodeIdx.NONE ≠ NodeIdx.NONE)
    (h3 : val ≠ NodeIdx.PENDING) :
    t.set_conn_wire idx val = none := by
  unfold Tile.set_conn_wire
  rw [if_pos]
  rw [padTo_getD]
  exact ⟨h1, h2, h3⟩

theorem NodeIdx_from_raw_ne {n : Nat} {node : NodeIdx}
    (h : NodeIdx.from_raw n = some node) :
    node ≠ NodeIdx.PENDING ∧ node ≠ NodeIdx.NONE := by
  unfold NodeIdx.from_raw at h
  split at h
  · cases h
    next hb =>
    constructor
    · intro hc
      rw [show NodeIdx.PENDING = ⟨4294967294⟩ from rfl] at hc
      cases hc
      omega
    · intro hc
      rw [show NodeIdx.NONE = ⟨4294967295⟩ from rfl] at hc
      cases hc
      omega
  · cases h

theorem templateIdxStep_frame {st : PartBuilder} {template : TkNodeTemplate}
    {tidx : Nat} {st1 : PartBuilder}
    (h : templateIdxStep st template = some (tidx, st1)) :
    st1.part.tiles = st.part.tiles ∧ st1.part.tile_kinds = st.part.tile_kinds ∧
    st1.part.nodes = st.part.nodes ∧ st1.tiles_by_name = st.tiles_by_name := by
  unfold templateIdxStep at h
  split at h
  next hti =>
    cases h
    exact ⟨rfl, rfl, rfl, rfl⟩
  next hti =>
    dsimp only at h
    split at h
    next => cases h
    next =>
      cases h
      exact ⟨rfl, rfl, rfl, rfl⟩

theorem nodeAssign_single_err (node : NodeIdx) (stX : PartBuilder) (c : Coord)
    (w : WireIdx) (s : SpeedIdx) (tile : Tile) (tk : TileKind) (i : Nat)
    (h1 : alGet stX.part.tiles c = some tile)
    (h2 : alGet stX.part.tile_kinds tile.kind = some tk)
    (h3 : alGet tk.wires w = some (.Connected i))
    (h4 : tile.conn_wires.getD i NodeIdx.NONE ≠ NodeIdx.PENDING)
    (h5 : tile.conn_wires.getD i NodeIdx.NONE ≠ NodeIdx.NONE)
    (h6 : node ≠ NodeIdx.PENDING) :
    nodeAssign node stX [(c, w, s)] = none := by
  simp only [nodeAssign, h1, h2, h3]
  rw [set_conn_wire_err tile i node h4 h5 h6]

/-- C6.  A `(tile, wire)` conn-wire slot is associated with at most one
concrete `NodeIdx`: (1) `Tile::set_conn_wire` overwrites a `PENDING` or
`NONE` entry; (2) writing over an entry that is neither `PENDING` nor
`NONE` (i.e. an already-resolved node) with anything but `PENDING` is a
structural error; and (3) an `add_node` whose endpoint's slot already
holds a concrete node therefore fails instead of silently overwriting. -/
theorem conn_wire_single_node :
    (∀ (t : Tile) (idx : Nat) (val : NodeIdx),
      (t.conn_wires.getD idx NodeIdx.NONE = NodeIdx.PENDING ∨
        t.conn_wires.getD idx NodeIdx.NONE = NodeIdx.NONE) →
      ∃ t', t.set_conn_wire idx val = some t' ∧ t'.conn_wires[idx]? = some val) ∧
    (∀ (t : Tile) (idx : Nat) (val : NodeIdx),
      t.conn_wires.getD idx NodeIdx.NONE ≠ NodeIdx.PENDING →
      t.conn_wires.getD idx NodeIdx.NONE ≠ NodeIdx.NONE →
      val ≠ NodeIdx.PENDING →
      t.set_conn_wire idx val = none) ∧
    (∀ (st : PartBuilder) (ws : List (Str × Str × Option Str)) (c : Coord)
      (w : WireIdx) (s : SpeedIdx) (st1 : PartBuilder) (tile : Tile) (tk : TileKind)
      (i : Nat),
      resolveNodeWires st ws = some ([(c, w, s)], st1) →
      alGet st1.part.tiles c = some tile →
      alGet st1.part.tile_kinds tile.kind = some tk →
      alGet tk.wires w = some (.Connected i) →
      tile.conn_wires.getD i NodeIdx.NONE ≠ NodeIdx.PENDING →
      tile.conn_wires.getD i NodeIdx.NONE ≠ NodeIdx.NONE →
      add_node st ws = none) := by
  refine ⟨set_conn_wire_ok, set_conn_wire_err, ?_⟩
  intro st ws c w s st1 tile tk i hres ht hk hw h4 h5
  unfold add_node
  rw [hres]
  simp only [ht, hk, hw]
  rw [if_neg (by intro hc; cases hc)]
  unfold add_node_general
  simp only [List.map_cons, List.map_nil, listMin]
  split
  next => rfl
  next tidx st2 hstep =>
    have hfr := templateIdxStep_frame hstep
    split
    next hraw => rfl
    next node hraw =>
      have hne := NodeIdx_from_raw_ne hraw
      have ht2 : alGet st2.part.tiles c = some tile := by rw [hfr.1]; exact ht
      have hk2 : alGet st2.part.tile_kinds tile.kind = some tk := by
        rw [hfr.2.1]; exact hk
      exact nodeAssign_single_err node _ c w s tile tk i ht2 hk2 hw h4 h5 hne.1

/-- Two tiles of kind `T`, both with wire `A` (§8 scenario, first step). -/
def cx6B2 : PartBuilder :=
  (add_tile ((add_tile (PartBuilder.new ['p'] ['f'] Source.ISE 2 1) ⟨0, 0⟩
      ['t', '0'] ['T'] [] [(['A'], none)] []).getD cxFallback)
    ⟨1, 0⟩ ['t', '1'] ['T'] [] [(['A'], none)] []).getD cxFallback

/-- `cx6B2` after one node claiming `(t0, A)` and `(t1, A)`. -/
def cx6B3 : PartBuilder :=
  (add_node cx6B2 [(['t', '0'], ['A'], none), (['t', '1'], ['A'], none)]).getD
    cxFallback

/-- The `t0` tile record inside `cx6B3`. -/
def cx6Tile : Tile := ⟨['t', '0'], ['T'], [], [⟨0⟩], []⟩

/-- The kind-`T` record inside `cx6B3`. -/
def cx6Tk : TileKind :=
  ⟨[], [], [(⟨0⟩, .Connected 0)], [⟨0⟩], [], [], [⟨0, 0⟩, ⟨1, 0⟩]⟩

/-- Witness for C6 at concrete inputs. -/
theorem conn_wire_single_node_witness :
    (∃ t', Tile.set_conn_wire ⟨[], [], [], [], []⟩ 0 ⟨5⟩ = some t' ∧
      t'.conn_wires[0]? = some ⟨5⟩) ∧
    Tile.set_conn_wire ⟨[], [], [], [⟨3⟩], []⟩ 0 ⟨5⟩ = none ∧
    add_node cx6B3 [(['t', '0'], ['A'], none)] = none :=
  ⟨conn_wire_single_node.1 ⟨[], [], [], [], []⟩ 0 ⟨5⟩ (by decide),
   conn_wire_single_node.2.1 ⟨[], [], [], [⟨3⟩], []⟩ 0 ⟨5⟩ (by decide) (by decide)
     (by decide),
   conn_wire_single_node.2.2 cx6B3 [(['t', '0'], ['A'], none)] ⟨0, 0⟩ ⟨0⟩
     SpeedIdx.UNKNOWN cx6B3 cx6Tile cx6Tk 0 (by decide) (by decide) (by decide)
     (by decide) (by decide) (by decide)⟩

/-! ### C9: `add_node` is partial at its public boundary -/

theorem resolveNodeWires_none :
    ∀ (ws : List (Str × Str × Option Str)) (st : PartBuilder),
      (∃ e ∈ ws, alGet st.tiles_by_name e.1 = none) →
      resolveNodeWires st ws = none := by
  intro ws
  induction ws with
  | nil =>
    intro st h
    obtain ⟨e, he, _⟩ := h
    cases he
  | cons e0 rest ih =>
    intro st h
    obtain ⟨t0, w0, s0⟩ := e0
    cases hl : alGet st.tiles_by_name t0 with
    | none => simp only [resolveNodeWires, hl]
    | some coord =>
      cases hw : wire_to_idx st w0 with
      | none => simp only [resolveNodeWires, hl, hw]
      | some ws1 =>
        obtain ⟨wi, stA⟩ := ws1
        cases hs : speed_to_idx stA s0 with
        | none => simp only [resolveNodeWires, hl, hw, hs]
        | some ss1 =>
          obtain ⟨si, stB⟩ := ss1
          have hrest : resolveNodeWires stB rest = none := by
            apply ih
            obtain ⟨e, he, hee⟩ := h
            cases he with
            | head => rw [hl] at hee; cases hee
            | tail _ hm =>
              refine ⟨e, hm, ?_⟩
              rw [(speed_to_idx_internsOnly hs).2.2.2.2.2.2.2.2.2.2.2.1,
                (wire_to_idx_internsOnly hw).2.2.2.2.2.2.2.2.2.2.2.1]
              exact hee
          simp only [resolveNodeWires, hl, hw, hs, hrest]

theorem nodeAssign_bad :
    ∀ (l : List (Coord × WireIdx × SpeedIdx)) (node : NodeIdx) (st : PartBuilder)
      (c : Coord) (w : WireIdx) (s : SpeedIdx),
      (c, w, s) ∈ l →
      (∀ kind tk, alGet st.part.tile_kinds kind = some tk → alGet tk.wires w = none) →
      nodeAssign node st l = none := by
  intro l
  induction l with
  | nil => intro node st c w s hm _; cases hm
  | cons e0 rest ih =>
    intro node st c w s hm hbad
    obtain ⟨c0, w0, s0⟩ := e0
    cases hm with
    | head =>
      cases ht : alGet st.part.tiles c with
      | none => simp only [nodeAssign, ht]
      | some tile =>
        cases hk : alGet st.part.tile_kinds tile.kind with
        | none => simp only [nodeAssign, ht, hk]
        | some tk =>
          simp only [nodeAssign, ht, hk, hbad tile.kind tk hk]
    | tail _ hm2 =>
      cases ht : alGet st.part.tiles c0 with
      | none => simp only [nodeAssign, ht]
      | some tile =>
        cases hk : alGet st.part.tile_kinds tile.kind with
        | none => simp only [nodeAssign, ht, hk]
        | some tk =>
          cases hw : alGet tk.wires w0 with
          | none => simp only [nodeAssign, ht, hk, hw]
          | some tw =>
            cases tw with
            | Internal sp =>
              cases hp : promoteWire st tile.kind tk w0 with
              | none => simp only [nodeAssign, ht, hk, hw, hp]
              | some pr =>
                obtain ⟨idx, stB⟩ := pr
                cases ht1 : alGet stB.part.tiles c0 with
                | none => simp only [nodeAssign, ht, hk, hw, hp, ht1]
                | some tile1 =>
                  cases hset : tile1.set_conn_wire idx node with
                  | none => simp only [nodeAssign, ht, hk, hw, hp, ht1, hset]
                  | some tile2 =>
                    simp only [nodeAssign, ht, hk, hw, hp, ht1, hset]
                    apply ih node _ c w s hm2
                    intro kind tk2 hk2
                    have hwabs : alGet tk.wires w = none := hbad tile.kind tk hk
                    have hwne : w ≠ w0 := by
                      intro he
                      rw [← he, hwabs] at hw
                      cases hw
                    unfold promoteWire at hp
                    dsimp only at hp
                    split at hp
                    next => cases hp
                    next tiles1 hbf =>
                      cases hp
                      dsimp only at hk2
                      rw [alGet_alPut] at hk2
                      split at hk2
                      next heq =>
                        cases hk2
                        dsimp only
                        rw [alGet_alPut_ne _ _ hwne]
                        exact hwabs
                      next heq => exact hbad kind tk2 hk2
            | Connected i =>
              cases hset : tile.set_conn_wire i node with
              | none => simp only [nodeAssign, ht, hk, hw, hset]
              | some tile2 =>
                simp only [nodeAssign, ht, hk, hw, hset]
                apply ih node _ c w s hm2
                intro kind tk2 hk2
                exact hbad kind tk2 hk2

/-- C9.  `add_node` is partial at its public boundary: an endpoint naming
a tile never registered panics on the `tiles_by_name` unwrap, and (outside
the single-endpoint fast path) an endpoint whose wire handle is absent
from the wire maps of the tile kinds panics on the `tk.wires` unwrap; the
call aborts (`none` models the panic) rather than returning normally or
skipping the endpoint. -/
theorem add_node_partiality :
    (∀ (st : PartBuilder) (ws : List (Str × Str × Option Str)),
      (∃ e ∈ ws, alGet st.tiles_by_name e.1 = none) → add_node st ws = none) ∧
    (∀ (st : PartBuilder) (ws : List (Str × Str × Option Str))
      (l : List (Coord × WireIdx × SpeedIdx)) (st1 : PartBuilder) (c : Coord)
      (w : WireIdx) (s : SpeedIdx),
      resolveNodeWires st ws = some (l, st1) →
      l.length ≠ 1 →
      (c, w, s) ∈ l →
      (∀ kind tk, alGet st1.part.tile_kinds kind = some tk → alGet tk.wires w = none) →
      add_node st ws = none) := by
  constructor
  · intro st ws h
    unfold add_node
    rw [resolveNodeWires_none ws st h]
  · intro st ws l st1 c w s hres hlen hm hbad
    unfold add_node
    rw [hres]
    cases l with
    | nil => cases hm
    | cons e1 rest1 =>
      cases rest1 with
      | nil =>
        obtain ⟨c1, w1, s1⟩ := e1
        exact absurd rfl hlen
      | cons e2 rest2 =>
        obtain ⟨c1, w1, s1⟩ := e1
        obtain ⟨c2, w2, s2⟩ := e2
        simp only [add_node_general, List.map_cons, listMin]
        split
        next => rfl
        next tidx st2 hstep =>
          have hfr := templateIdxStep_frame hstep
          split
          next => rfl
          next node hraw =>
            apply nodeAssign_bad _ node _ c w s hm
            intro kind tk hk
            apply hbad kind tk
            rw [← hfr.2.1]
            exact hk

/-- `cx6B2` after `add_node` interned the unknown wire name `X`. -/
def cx9st1 : PartBuilder :=
  { cx6B2 with
    part := { cx6B2.part with wires := [['A'], ['X']] }
    wires_by_name := [(['A'], ⟨0⟩), (['X'], ⟨1⟩)] }

/-- Witness for C9 at concrete inputs: an unknown tile name, and a
two-endpoint node naming a wire absent from the kind's wire map. -/
theorem add_node_partiality_witness :
    add_node cx6B3 [(['z'], ['A'], none)] = none ∧
    add_node cx6B2 [(['t', '0'], ['X'], none), (['t', '1'], ['X'], none)] = none :=
  ⟨add_node_partiality.1 cx6B3 [(['z'], ['A'], none)]
      ⟨(['z'], ['A'], none), by decide, by decide⟩,
   add_node_partiality.2 cx6B2
      [(['t', '0'], ['X'], none), (['t', '1'], ['X'], none)]
      [(⟨0, 0⟩, ⟨1⟩, SpeedIdx.UNKNOWN), (⟨1, 0⟩, ⟨1⟩, SpeedIdx.UNKNOWN)] cx9st1
      ⟨0, 0⟩ ⟨1⟩ SpeedIdx.UNKNOWN (by decide) (by decide) (by decide)
      (by
        intro kind tk hk
        have he : cx9st1.part.tile_kinds =
            [(['T'], ⟨[], [], [(⟨0⟩, .Internal SpeedIdx.UNKNOWN)], [], [], [],
              [⟨0, 0⟩, ⟨1, 0⟩]⟩)] := by decide
        rw [he] at hk
        unfold alGet at hk
        split at hk
        · cases hk
          decide
        · cases hk)⟩

/-! ### C5: promotion back-fills every registered tile -/

theorem set_conn_wire_get {t : Tile} {i : Nat} {v : NodeIdx} {t' : Tile}
    (h : t.set_conn_wire i v = some t') : t'.conn_wires[i]? = some v := by
  unfold Tile.set_conn_wire at h
  dsimp only at h
  split at h
  next => cases h
  next =>
    cases h
    apply List.getElem?_set_eq_of_lt
    rw [padTo_length]
    omega

theorem backfill_preserves :
    ∀ (l : List Coord) (tiles : AList Coord Tile) (i : Nat)
      (tiles' : AList Coord Tile) (crd : Coord) (t : Tile),
      backfillPending tiles l i = some tiles' →
      alGet tiles crd = some t → t.conn_wires[i]? = some NodeIdx.PENDING →
      ∃ t', alGet tiles' crd = some t' ∧ t'.conn_wires[i]? = some NodeIdx.PENDING := by
  intro l
  induction l with
  | nil =>
    intro tiles i tiles' crd t h hget hp
    cases h
    exact ⟨t, hget, hp⟩
  | cons crd0 rest ih =>
    intro tiles i tiles' crd t h hget hp
    simp only [backfillPending] at h
    split at h
    next => cases h
    next t0 hget0 =>
      split at h
      next => cases h
      next t1 hset =>
        by_cases hc : crd = crd0
        · subst hc
          rw [hget] at hget0
          cases hget0
          exact ih _ i tiles' crd t1 h (alGet_alPut_self _ _ _) (set_conn_wire_get hset)
        · exact ih _ i tiles' crd t h
            ((alGet_alPut_ne _ _ hc).trans hget) hp

theorem backfill_mem :
    ∀ (l : List Coord) (tiles : AList Coord Tile) (i : Nat)
      (tiles' : AList Coord Tile) (crd : Coord),
      backfillPending tiles l i = some tiles' → crd ∈ l →
      ∃ t', alGet tiles' crd = some t' ∧ t'.conn_wires[i]? = some NodeIdx.PENDING := by
  intro l
  induction l with
  | nil => intro tiles i tiles' crd _ hm; cases hm
  | cons crd0 rest ih =>
    intro tiles i tiles' crd h hm
    simp only [backfillPending] at h
    split at h
    next => cases h
    next t0 hget0 =>
      split at h
      next => cases h
      next t1 hset =>
        cases hm with
        | head =>
          exact backfill_preserves rest _ i tiles' crd0 t1 h
            (alGet_alPut_self _ _ _) (set_conn_wire_get hset)
        | tail _ hm2 => exact ih _ i tiles' crd h hm2

/-- C5.  When an `add_tile` (speed conflict) or an `add_node` (cross-tile
resolution) promotes a kind's wire from `Internal` to `Connected`, every
tile already registered under that kind ends the call with a present,
non-`NONE` entry (`PENDING` or a concrete node) in the wire's fresh
conn-wire slot. -/
theorem promotion_backfill :
    (∀ (st : PartBuilder) (coord : Coord) (name kind : Str)
      (wires : List (Str × Option Str)) (st' : PartBuilder) (wi : WireIdx)
      (si : SpeedIdx) (st4 : PartBuilder) (tk : TileKind) (cs : SpeedIdx),
      add_tile st coord name kind [] wires [] = some st' →
      addTilePrefix st [] wires [] = some ([(wi, si)], [], [], st4) →
      alGet st.part.tile_kinds kind = some tk →
      alGet tk.wires wi = some (.Internal cs) →
      cs ≠ si →
      ∀ crd, crd ∈ tk.tiles →
        ∃ t1 v, alGet st'.part.tiles crd = some t1 ∧
          t1.conn_wires[tk.conn_wires.length]? = some v ∧ v ≠ NodeIdx.NONE) ∧
    (∀ (st : PartBuilder) (ws : List (Str × Str × Option Str)) (st' : PartBuilder)
      (c : Coord) (wi : WireIdx) (si : SpeedIdx) (st1 : PartBuilder) (tile : Tile)
      (tk : TileKind) (cs : SpeedIdx),
      add_node st ws = some st' →
      resolveNodeWires st ws = some ([(c, wi, si)], st1) →
      alGet st1.part.tiles c = some tile →
      alGet st1.part.tile_kinds tile.kind = some tk →
      alGet tk.wires wi = some (.Internal cs) →
      cs ≠ si →
      ∀ crd, crd ∈ tk.tiles →
        ∃ t1 v, alGet st'.part.tiles crd = some t1 ∧
          t1.conn_wires[tk.conn_wires.length]? = some v ∧ v ≠ NodeIdx.NONE) := by
  constructor
  · intro st coord name kind wires st' wi si st4 tk cs hadd hpre hk hw hne crd hmem
    unfold add_tile at hadd
    split at hadd
    case isFalse => cases hadd
    case isTrue hb =>
      split at hadd
      next => cases hadd
      next w1 p1 s1 stD heq =>
        rw [hpre] at heq
        cases heq
        have hfr := addTilePrefix_internsOnly hpre
        split at hadd
        next tk2 hk2 =>
          rw [hfr.2.2.2.2.2.1, hk] at hk2
          cases hk2
          split at hadd
          next => cases hadd
          next tkA ls hms =>
            simp only [mergeSites] at hms
            cases hms
            split at hadd
            next => cases hadd
            next tkB lc tilesB hmw =>
              simp only [mergeWires, hw] at hmw
              rw [if_neg hne] at hmw
              split at hmw
              next => cases hmw
              next tiles1 hbf =>
                cases hmw
                split at hadd
                next => cases hadd
                next tkC lv tilesC hmp =>
                  simp only [mergePips] at hmp
                  cases hmp
                  cases hadd
                  by_cases hc : crd = coord
                  · subst hc
                    refine ⟨_, NodeIdx.PENDING, alGet_alPut_self _ _ _, ?_, by decide⟩
                    exact setAt_getElem?_self _ _ _ _
                  · obtain ⟨t', hget, hp⟩ := backfill_mem tk.tiles _ _ _ crd hbf hmem
                    refine ⟨t', NodeIdx.PENDING, ?_, hp, by decide⟩
                    rw [alGet_alPut_ne _ _ hc]
                    exact hget
        next hk2 =>
          rw [hfr.2.2.2.2.2.1, hk] at hk2
          cases hk2
  · intro st ws st' c wi si st1 tile tk cs hadd hres ht hk hw hne crd hmem
    unfold add_node at hadd
    rw [hres] at hadd
    simp only [ht, hk, hw] at hadd
    rw [if_neg (by intro hc; cases hc; exact hne rfl)] at hadd
    simp only [add_node_general, List.map_cons, List.map_nil, listMin] at hadd
    split at hadd
    next => cases hadd
    next tidx st2 hstep =>
      have hfr := templateIdxStep_frame hstep
      split at hadd
      next => cases hadd
      next node hraw =>
        have hne2 := NodeIdx_from_raw_ne hraw
        have ht2 : alGet st2.part.tiles c = some tile := by rw [hfr.1]; exact ht
        have hk2 : alGet st2.part.tile_kinds tile.kind = some tk := by
          rw [hfr.2.1]; exact hk
        simp only [nodeAssign, ht2, hk2, hw] at hadd
        split at hadd
        next => cases hadd
        next idx stB hpromo =>
          unfold promoteWire at hpromo
          dsimp only at hpromo
          split at hpromo
          next => cases hpromo
          next tiles1 hbf =>
            cases hpromo
            split at hadd
            next => cases hadd
            next tile1 hget1 =>
              split at hadd
              next => cases hadd
              next tile2 hset2 =>
                cases hadd
                dsimp only at hget1 hbf ⊢
                by_cases hc : crd = c
                · subst hc
                  refine ⟨tile2, node, ?_, ?_, hne2.2⟩
                  · exact alGet_alPut_self _ _ _
                  · exact set_conn_wire_get hset2
                · obtain ⟨t', hget, hp⟩ := backfill_mem tk.tiles _ _ _ crd hbf hmem
                  refine ⟨t', NodeIdx.PENDING, ?_, hp, by decide⟩
                  rw [alGet_alPut_ne _ _ hc]
                  exact hget

/-- One tile of kind `U` with wire `B` (unknown speed). -/
def cx5B1 : PartBuilder :=
  (add_tile (PartBuilder.new ['p'] ['f'] Source.ISE 4 4) ⟨0, 0⟩ ['u', '0'] ['U']
    [] [(['B'], none)] []).getD cxFallback

/-- `cx5B1` after interning speed `s`. -/
def cx5B1i : PartBuilder :=
  { cx5B1 with
    part := { cx5B1.part with speeds := [['s']] }
    speeds_by_name := [(['s'], ⟨0⟩)] }

/-- A conflicting-speed second instance of kind `U` (promotes wire `B`). -/
def cx5B2 : PartBuilder :=
  (add_tile cx5B1 ⟨1, 0⟩ ['u', '1'] ['U'] [] [(['B'], some ['s'])] []).getD cxFallback

/-- A conflicting-speed single-endpoint node (promotes wire `B`). -/
def cx5B3 : PartBuilder :=
  (add_node cx5B1 [(['u', '0'], ['B'], some ['s'])]).getD cxFallback

/-- Kind `U` as recorded in `cx5B1`. -/
def cx5Tk : TileKind := ⟨[], [], [(⟨0⟩, .Internal SpeedIdx.UNKNOWN)], [], [], [], [⟨0, 0⟩]⟩

/-- The `u0` tile record inside `cx5B1`. -/
def cx5Tile : Tile := ⟨['u', '0'], ['U'], [], [], []⟩

/-- Witness for C5 at concrete inputs. -/
theorem promotion_backfill_witness :
    (∃ t1 v, alGet cx5B2.part.tiles ⟨0, 0⟩ = some t1 ∧
      t1.conn_wires[0]? = some v ∧ v ≠ NodeIdx.NONE) ∧
    (∃ t1 v, alGet cx5B3.part.tiles ⟨0, 0⟩ = some t1 ∧
      t1.conn_wires[0]? = some v ∧ v ≠ NodeIdx.NONE) :=
  ⟨promotion_backfill.1 cx5B1 ⟨1, 0⟩ ['u', '1'] ['U'] [(['B'], some ['s'])]
      cx5B2 ⟨0⟩ ⟨0⟩ cx5B1i cx5Tk SpeedIdx.UNKNOWN (by decide) (by decide)
      (by decide) (by decide) (by decide) ⟨0, 0⟩ (by decide),
   promotion_backfill.2 cx5B1 [(['u', '0'], ['B'], some ['s'])] cx5B3 ⟨0, 0⟩
      ⟨0⟩ ⟨0⟩ cx5B1i cx5Tile cx5Tk SpeedIdx.UNKNOWN (by decide) (by decide)
      (by decide) (by decide) (by decide) (by decide) ⟨0, 0⟩ (by decide)⟩

/-! ### C4: pip promotion to `Variable` with retroactive per-tile fill -/

theorem set_var_pip_get (t : Tile) (i : Nat) (v : SpeedIdx) :
    (t.set_var_pip i v).var_pips[i]? = some v :=
  setAt_getElem?_self _ _ _ _

theorem retroVarPip_spec :
    ∀ (l : List Coord) (tiles : AList Coord Tile) (tk : TileKind) (wf wt : WireIdx)
      (cs : SpeedIdx) (i : Nat) (tiles' : AList Coord Tile),
      l.Nodup →
      retroVarPip tiles l tk wf wt cs i = some tiles' →
      (∀ crd, crd ∉ l → alGet tiles' crd = alGet tiles crd) ∧
      (∀ crd t0, crd ∈ l → alGet tiles crd = some t0 →
        alGet tiles' crd = some (t0.set_var_pip i
          (if t0.has_wire tk wf && t0.has_wire tk wt then cs else SpeedIdx.NONE))) := by
  intro l
  induction l with
  | nil =>
    intro tiles tk wf wt cs i tiles' _ h
    cases h
    exact ⟨fun _ _ => rfl, fun crd t0 hm => by cases hm⟩
  | cons crd0 rest ih =>
    intro tiles tk wf wt cs i tiles' hnd h
    simp only [List.nodup_cons] at hnd
    simp only [retroVarPip] at h
    split at h
    next => cases h
    next t hget0 =>
      have spec := ih _ tk wf wt cs i tiles' hnd.2 h
      constructor
      · intro crd hcrd
        simp only [List.mem_cons] at hcrd
        push_neg at hcrd
        rw [spec.1 crd hcrd.2]
        exact alGet_alPut_ne _ _ hcrd.1
      · intro crd t0 hm hget
        cases hm with
        | head =>
          rw [hget] at hget0
          cases hget0
          rw [spec.1 crd0 hnd.1]
          exact alGet_alPut_self _ _ _
        | tail _ hm2 =>
          have hne : crd ≠ crd0 := by
            intro he
            exact hnd.1 (he ▸ hm2)
          apply spec.2 crd t0 hm2
          rw [alGet_alPut_ne _ _ hne]
          exact hget

/-- C4.  Merging an instance that reports a new speed for a pip in
`Const cs` mode promotes the pip to `Variable` with a fresh `var_pips`
slot; every tile already registered under the kind gets, in that slot,
`cs` when it has both endpoint wires and `NONE` otherwise, and the tile
being added gets the newly reported speed. -/
theorem pip_promotion_retro :
    ∀ (st : PartBuilder) (coord : Coord) (name kind : Str) (pa : PipArg)
      (st' : PartBuilder) (pI : PipI) (st4 : PartBuilder) (tk : TileKind)
      (p0 : TkPip) (cs : SpeedIdx),
      add_tile st coord name kind [] [] [pa] = some st' →
      addTilePrefix st [] [] [pa] = some ([], [pI], [], st4) →
      alGet st.part.tile_kinds kind = some tk →
      alGet tk.pips (pI.wf, pI.wt) = some p0 →
      p0.mode = .Const cs →
      cs ≠ pI.speed →
      coord ∉ tk.tiles →
      tk.tiles.Nodup →
      ∃ tk', alGet st'.part.tile_kinds kind = some tk' ∧
        alGet tk'.pips (pI.wf, pI.wt) =
          some { p0 with mode := .Variable tk.var_pips.length } ∧
        tk'.var_pips = tk.var_pips ++ [(pI.wf, pI.wt)] ∧
        tk'.tiles = tk.tiles ++ [coord] ∧
        (∀ crd t0, crd ∈ tk.tiles → alGet st.part.tiles crd = some t0 →
          ∃ t1, alGet st'.part.tiles crd = some t1 ∧
            t1.var_pips[tk.var_pips.length]? =
              some (if t0.has_wire tk pI.wf && t0.has_wire tk pI.wt then cs
                else SpeedIdx.NONE)) ∧
        (∃ tnew, alGet st'.part.tiles coord = some tnew ∧
          tnew.var_pips[tk.var_pips.length]? = some pI.speed) := by
  intro st coord name kind pa st' pI st4 tk p0 cs hadd hpre hk hp0 hmode hnecs
    hco hnd
  unfold add_tile at hadd
  split at hadd
  case isFalse => cases hadd
  case isTrue hb =>
    split at hadd
    next => cases hadd
    next w1 p1 s1 stD heq =>
      rw [hpre] at heq
      cases heq
      have hfr := addTilePrefix_internsOnly hpre
      split at hadd
      next tk2 hk2 =>
        rw [hfr.2.2.2.2.2.1, hk] at hk2
        cases hk2
        split at hadd
        next => cases hadd
        next tkA ls hms =>
          simp only [mergeSites] at hms
          cases hms
          split at hadd
          next => cases hadd
          next tkB lc tilesB hmw =>
            simp only [mergeWires] at hmw
            cases hmw
            split at hadd
            next => cases hadd
            next tkC lv tilesC hmp =>
              simp only [mergePips, hp0, hmode] at hmp
              split at hmp
              next hflags => cases hmp
              next hflags =>
                split at hmp
                next => cases hmp
                next tiles1 hretro =>
                  cases hmp
                  cases hadd
                  have spec := retroVarPip_spec tk.tiles _ _ pI.wf pI.wt cs
                    tk.var_pips.length _ hnd hretro
                  refine ⟨_, alGet_alPut_self _ _ _, ?_, rfl, rfl, ?_, ?_⟩
                  · exact alGet_alPut_self _ _ _
                  · intro crd t0 hm hget
                    have hne : crd ≠ coord := fun he => hco (he ▸ hm)
                    refine ⟨_, ?_, set_var_pip_get t0 _ _⟩
                    rw [alGet_alPut_ne _ _ hne]
                    apply spec.2 crd t0 hm
                    rw [hfr.2.2.2.2.2.2.1]
                    exact hget
                  · refine ⟨_, alGet_alPut_self _ _ _, ?_⟩
                    exact setAt_getElem?_self _ _ _ _
      next hk2 =>
        rw [hfr.2.2.2.2.2.1, hk] at hk2
        cases hk2

/-- One tile of kind `P` with wires `A`, `B` and an `A -> B` pip of
unknown speed. -/
def cx4B1 : PartBuilder :=
  (add_tile (PartBuilder.new ['p'] ['f'] Source.ISE 4 4) ⟨0, 0⟩ ['q', '0'] ['P']
    [] [(['A'], none), (['B'], none)]
    [⟨['A'], ['B'], false, false, false, .Never, .Uni, none⟩]).getD cxFallback

/-- The conflicting pip argument of the second instance. -/
def cx4pa : PipArg := ⟨['A'], ['B'], false, false, false, .Never, .Uni, some ['s']⟩

/-- The second instance of `P` reporting a concrete pip speed. -/
def cx4B2 : PartBuilder :=
  (add_tile cx4B1 ⟨1, 0⟩ ['q', '1'] ['P'] [] [] [cx4pa]).getD cxFallback

/-- `cx4B1` after the interning prefix of the second call. -/
def cx4B1i : PartBuilder :=
  { cx4B1 with
    part := { cx4B1.part with speeds := [['s']] }
    speeds_by_name := [(['s'], ⟨0⟩)] }

/-- The interned pip of the second call. -/
def cx4pI : PipI := ⟨⟨0⟩, ⟨1⟩, false, false, false, .Never, .Uni, ⟨0⟩⟩

/-- Kind `P` as recorded in `cx4B1`. -/
def cx4Tk : TileKind :=
  ⟨[], [], [(⟨0⟩, .Internal SpeedIdx.UNKNOWN), (⟨1⟩, .Internal SpeedIdx.UNKNOWN)],
    [], [((⟨0⟩, ⟨1⟩), ⟨false, false, false, .Never, .Uni, .Const SpeedIdx.UNKNOWN⟩)],
    [], [⟨0, 0⟩]⟩

/-- The recorded pip of `cx4B1`. -/
def cx4P0 : TkPip := ⟨false, false, false, .Never, .Uni, .Const SpeedIdx.UNKNOWN⟩

/-- Witness for C4 at concrete inputs. -/
theorem pip_promotion_retro_witness :
    ∃ tk', alGet cx4B2.part.tile_kinds ['P'] = some tk' ∧
      alGet tk'.pips (cx4pI.wf, cx4pI.wt) =
        some { cx4P0 with mode := .Variable cx4Tk.var_pips.length } ∧
      tk'.var_pips = cx4Tk.var_pips ++ [(cx4pI.wf, cx4pI.wt)] ∧
      tk'.tiles = cx4Tk.tiles ++ [⟨1, 0⟩] ∧
      (∀ crd t0, crd ∈ cx4Tk.tiles → alGet cx4B1.part.tiles crd = some t0 →
        ∃ t1, alGet cx4B2.part.tiles crd = some t1 ∧
          t1.var_pips[cx4Tk.var_pips.length]? =
            some (if t0.has_wire cx4Tk cx4pI.wf && t0.has_wire cx4Tk cx4pI.wt
              then SpeedIdx.UNKNOWN else SpeedIdx.NONE)) ∧
      (∃ tnew, alGet cx4B2.part.tiles ⟨1, 0⟩ = some tnew ∧
        tnew.var_pips[cx4Tk.var_pips.length]? = some cx4pI.speed) :=
  pip_promotion_retro cx4B1 ⟨1, 0⟩ ['q', '1'] ['P'] cx4pa cx4B2 cx4pI cx4B1i
    cx4Tk cx4P0 SpeedIdx.UNKNOWN (by decide) (by decide) (by decide) (by decide)
    (by decide) (by decide) (by decide) (by decide)

/-! ### C7: template dedup is translation- and permutation-invariant -/

theorem listMin_eq_some_iff :
    ∀ (xs : List Nat) (m : Nat),
      listMin xs = some m ↔ (m ∈ xs ∧ ∀ y ∈ xs, m ≤ y) := by
  intro xs
  induction xs with
  | nil =>
    intro m
    simp [listMin]
  | cons x rest ih =>
    intro m
    cases hr : listMin rest with
    | none =>
      have hre : rest = [] := by
        cases rest with
        | nil => rfl
        | cons a b => simp [listMin] at hr
      subst hre
      constructor
      · intro h
        simp only [listMin, Option.some.injEq] at h
        subst h
        exact ⟨List.mem_cons_self x [], by
          intro y hy
          rcases List.mem_cons.mp hy with h | h
          · omega
          · cases h⟩
      · rintro ⟨hm, hb⟩
        rcases List.mem_cons.mp hm with h | h
        · subst h
          simp [listMin]
        · cases h
    | some m0 =>
      have hm0 := (ih m0).mp hr
      constructor
      · intro h
        simp only [listMin, hr, Option.some.injEq] at h
        constructor
        · by_cases hc : x ≤ m0
          · apply List.mem_cons.mpr
            left
            omega
          · apply List.mem_cons.mpr
            right
            have hmm : m = m0 := by omega
            rw [hmm]
            exact hm0.1
        · intro y hy
          rcases List.mem_cons.mp hy with hh | hh
          · subst hh
            omega
          · have := hm0.2 y hh
            omega
      · rintro ⟨hm, hb⟩
        simp only [listMin, hr, Option.some.injEq]
        have h1 : m ≤ x := hb x (List.mem_cons_self x rest)
        have h2 : m ≤ m0 := hb m0 (List.mem_cons_of_mem x hm0.1)
        have h3 : x ≤ m ∨ m0 ≤ m := by
          rcases List.mem_cons.mp hm with hh | hh
          · left
            omega
          · right
            exact hm0.2 m hh
        omega

theorem listMin_perm {xs ys : List Nat} (h : xs.Perm ys) :
    listMin xs = listMin ys := by
  cases hx : listMin xs with
  | none =>
    have hxe : xs = [] := by
      cases xs with
      | nil => rfl
      | cons a b => simp [listMin] at hx
    subst hxe
    have hye : ys = [] := (List.Perm.nil_eq h).symm
    subst hye
    rfl
  | some m =>
    have hc := (listMin_eq_some_iff xs m).mp hx
    symm
    rw [listMin_eq_some_iff]
    exact ⟨h.mem_iff.mp hc.1, fun y hy => hc.2 y (h.mem_iff.mpr hy)⟩

theorem listMin_map_add :
    ∀ (xs : List Nat) (t : Nat),
      listMin (xs.map (fun x => x + t)) = (listMin xs).map (fun x => x + t) := by
  intro xs t
  induction xs with
  | nil => rfl
  | cons x rest ih =>
    simp only [List.map_cons, listMin, ih]
    cases listMin rest with
    | none => rfl
    | some m =>
      simp only [Option.map_some', Option.some.injEq]
      omega

theorem sortTW_perm_eq {l1 l2 : List TkNodeTemplateWire} (h : l1.Perm l2) :
    sortTW l1 = sortTW l2 := by
  exact List.eq_of_perm_of_sorted
    ((List.perm_insertionSort twLE l1).trans
      (h.trans (List.perm_insertionSort twLE l2).symm))
    (List.sorted_insertionSort twLE l1) (List.sorted_insertionSort twLE l2)

/-- A uniform coordinate translation of one `add_node` endpoint. -/
def shiftEp (tx ty : Nat) (e : Coord × WireIdx × SpeedIdx) :
    Coord × WireIdx × SpeedIdx :=
  (⟨e.1.x + tx, e.1.y + ty⟩, e.2)

theorem relTW_shiftEp (tx ty bx byy : Nat) (e : Coord × WireIdx × SpeedIdx) :
    relTW (bx + tx) (byy + ty) (shiftEp tx ty e) = relTW bx byy e := by
  unfold relTW shiftEp
  dsimp only
  have hx : e.1.x + tx - (bx + tx) = e.1.x - bx := by omega
  have hy : e.1.y + ty - (byy + ty) = e.1.y - byy := by omega
  rw [hx, hy]

theorem resolveNodeWires_internsOnly :
    ∀ (ws : List (Str × Str × Option Str)) {st : PartBuilder}
      {l : List (Coord × WireIdx × SpeedIdx)} {st1 : PartBuilder},
      resolveNodeWires st ws = some (l, st1) → internsOnly st st1 := by
  intro ws
  induction ws with
  | nil =>
    intro st l st1 h
    simp only [resolveNodeWires] at h
    cases h
    exact internsOnly_refl st
  | cons e0 rest ih =>
    intro st l st1 h
    obtain ⟨t0, w0, s0⟩ := e0
    simp only [resolveNodeWires] at h
    split at h
    next => cases h
    next coord hl =>
      split at h
      next => cases h
      next wi stA hw =>
        split at h
        next => cases h
        next si stB hs =>
          split at h
          next => cases h
          next l2 stC hrest =>
            cases h
            exact internsOnly_trans
              (internsOnly_trans (wire_to_idx_internsOnly hw) (speed_to_idx_internsOnly hs))
              (ih hrest)

theorem promoteWire_frame {st : PartBuilder} {kindName : Str} {tk : TileKind}
    {wire : WireIdx} {i : Nat} {st' : PartBuilder}
    (h : promoteWire st kindName tk wire = some (i, st')) :
    st'.part.nodes = st.part.nodes ∧ st'.part.templates = st.part.templates ∧
    st'.templates_idx = st.templates_idx := by
  unfold promoteWire at h
  dsimp only at h
  split at h
  next => cases h
  next tiles1 hbf =>
    cases h
    exact ⟨rfl, rfl, rfl⟩

theorem nodeAssign_frame :
    ∀ (l : List (Coord × WireIdx × SpeedIdx)) (node : NodeIdx) {st st' : PartBuilder},
      nodeAssign node st l = some st' →
      st'.part.nodes = st.part.nodes ∧ st'.part.templates = st.part.templates ∧
      st'.templates_idx = st.templates_idx := by
  intro l
  induction l with
  | nil =>
    intro node st st' h
    simp only [nodeAssign] at h
    cases h
    exact ⟨rfl, rfl, rfl⟩
  | cons e0 rest ih =>
    intro node st st' h
    obtain ⟨c0, w0, s0⟩ := e0
    simp only [nodeAssign] at h
    split at h
    next => cases h
    next tile ht =>
      split at h
      next => cases h
      next tk hk =>
        split at h
        next => cases h
        next tw hw =>
          split at h
          next => cases h
          next idx stB hstep =>
            split at h
            next => cases h
            next tile1 ht1 =>
              split at h
              next => cases h
              next tile2 hset =>
                have hrest := ih node h
                have hstepf : stB.part.nodes = st.part.nodes ∧
                    stB.part.templates = st.part.templates ∧
                    stB.templates_idx = st.templates_idx := by
                  cases tw with
                  | Internal sp => exact promoteWire_frame hstep
                  | Connected i =>
                    cases hstep
                    exact ⟨rfl, rfl, rfl⟩
                refine ⟨?_, ?_, ?_⟩
                · rw [hrest.1]
                  exact hstepf.1
                · rw [hrest.2.1]
                  exact hstepf.2.1
                · rw [hrest.2.2]
                  exact hstepf.2.2

theorem templateIdxStep_post {st : PartBuilder} {T : TkNodeTemplate} {tidx : Nat}
    {st' : PartBuilder} (h : templateIdxStep st T = some (tidx, st')) :
    alGet st'.templates_idx T = some tidx := by
  unfold templateIdxStep at h
  split at h
  next hti =>
    cases h
    exact hti
  next hti =>
    dsimp only at h
    split at h
    next => cases h
    next =>
      cases h
      exact alGet_alPut_self _ _ _

theorem templateIdxStep_hit {st : PartBuilder} {T : TkNodeTemplate} {tidx : Nat}
    (h : alGet st.templates_idx T = some tidx) :
    templateIdxStep st T = some (tidx, st) := by
  unfold templateIdxStep
  rw [h]

theorem add_node_general_spec {st : PartBuilder}
    {l : List (Coord × WireIdx × SpeedIdx)} {st' : PartBuilder} {bx byy : Nat}
    (hbx : listMin (l.map (fun e => e.1.x)) = some bx)
    (hby : listMin (l.map (fun e => e.1.y)) = some byy)
    (h : add_node_general st l = some st') :
    ∃ tidx stT,
      templateIdxStep st ⟨sortTW (l.map (relTW bx byy))⟩ = some (tidx, stT) ∧
      st'.part.nodes = stT.part.nodes ++ [⟨⟨bx, byy⟩, tidx⟩] ∧
      st'.part.templates = stT.part.templates ∧
      st'.templates_idx = stT.templates_idx := by
  unfold add_node_general at h
  rw [hbx, hby] at h
  simp only at h
  split at h
  next => cases h
  next tidx stT hstep =>
    split at h
    next => cases h
    next node hraw =>
      have hfr := nodeAssign_frame l node h
      refine ⟨tidx, stT, hstep, ?_, ?_, ?_⟩
      · rw [hfr.1]
      · rw [hfr.2.1]
      · rw [hfr.2.2]

theorem shift_proj_x (l : List (Coord × WireIdx × SpeedIdx)) (tx ty : Nat) :
    (l.map (shiftEp tx ty)).map (fun e => e.1.x) =
      (l.map (fun e => e.1.x)).map (fun v => v + tx) := by
  rw [List.map_map, List.map_map]
  rfl

theorem shift_proj_y (l : List (Coord × WireIdx × SpeedIdx)) (tx ty : Nat) :
    (l.map (shiftEp tx ty)).map (fun e => e.1.y) =
      (l.map (fun e => e.1.y)).map (fun v => v + ty) := by
  rw [List.map_map, List.map_map]
  rfl

/-- Four tiles of kind `T` on a 2x2 grid, all with wire `A`. -/
def cx7B4 : PartBuilder :=
  (add_tile ((add_tile ((add_tile ((add_tile
      (PartBuilder.new ['p'] ['f'] Source.ISE 2 2) ⟨0, 0⟩
      ['t', '0'] ['T'] [] [(['A'], none)] []).getD cxFallback)
    ⟨1, 0⟩ ['t', '1'] ['T'] [] [(['A'], none)] []).getD cxFallback)
    ⟨0, 1⟩ ['t', '2'] ['T'] [] [(['A'], none)] []).getD cxFallback)
    ⟨1, 1⟩ ['t', '3'] ['T'] [] [(['A'], none)] []).getD cxFallback

/-- `cx7B4` after a node claiming `(t0, A)` and `(t1, A)`. -/
def cx7N1 : PartBuilder :=
  (add_node cx7B4 [(['t', '0'], ['A'], none), (['t', '1'], ['A'], none)]).getD
    cxFallback

/-- `cx7N1` after a second node claiming `(t2, A)` and `(t3, A)`. -/
def cx7N2 : PartBuilder :=
  (add_node cx7N1 [(['t', '2'], ['A'], none), (['t', '3'], ['A'], none)]).getD
    cxFallback

/-- C7.  Two node-allocating `add_node` calls whose endpoint multisets are
identical up to a uniform coordinate translation — in any endpoint order —
allocate two distinct nodes (consecutive indices) that share one
deduplicated template: the second call allocates no template at all. -/
theorem template_dedup :
    ∀ (st : PartBuilder) (ws1 ws2 : List (Str × Str × Option Str))
      (st1 st2 : PartBuilder) (l1 l2 : List (Coord × WireIdx × SpeedIdx))
      (stA stB : PartBuilder) (t1x t1y t2x t2y : Nat),
      add_node st ws1 = some st1 →
      add_node st1 ws2 = some st2 →
      resolveNodeWires st ws1 = some (l1, stA) →
      resolveNodeWires st1 ws2 = some (l2, stB) →
      2 ≤ l1.length →
      (l2.map (shiftEp t2x t2y)).Perm (l1.map (shiftEp t1x t1y)) →
      st2.part.nodes.length = st.part.nodes.length + 2 ∧
      st2.part.templates = st1.part.templates ∧
      (∃ n1 n2,
        st2.part.nodes[st.part.nodes.length]? = some n1 ∧
        st2.part.nodes[st.part.nodes.length + 1]? = some n2 ∧
        n1.template = n2.template) := by
  intro st ws1 ws2 st1 st2 l1 l2 stA stB t1x t1y t2x t2y h1 h2 hres1 hres2 hlen hperm
  have hlen2 : l2.length = l1.length := by
    have hpl := hperm.length_eq
    simpa using hpl
  unfold add_node at h1 h2
  rw [hres1] at h1
  rw [hres2] at h2
  cases l1 with
  | nil => simp at hlen
  | cons e1 r1 =>
  cases r1 with
  | nil => simp at hlen
  | cons e1b r1b =>
  obtain ⟨c1, w1, s1⟩ := e1
  obtain ⟨c1b, w1b, s1b⟩ := e1b
  have hgen1 : add_node_general stA ((c1, w1, s1) :: (c1b, w1b, s1b) :: r1b) = some st1 := h1
  cases l2 with
  | nil =>
    simp only [List.length_nil, List.length_cons] at hlen2
    omega
  | cons e2 r2 =>
  cases r2 with
  | nil =>
    simp only [List.length_cons, List.length_nil] at hlen2
    omega
  | cons e2b r2b =>
  obtain ⟨c2, w2, s2⟩ := e2
  obtain ⟨c2b, w2b, s2b⟩ := e2b
  have hgen2 : add_node_general stB ((c2, w2, s2) :: (c2b, w2b, s2b) :: r2b) = some st2 := h2
  obtain ⟨bx1, hbx1⟩ : ∃ m,
      listMin (((c1, w1, s1) :: (c1b, w1b, s1b) :: r1b).map (fun e => e.1.x)) = some m :=
    ⟨_, rfl⟩
  obtain ⟨by1, hby1⟩ : ∃ m,
      listMin (((c1, w1, s1) :: (c1b, w1b, s1b) :: r1b).map (fun e => e.1.y)) = some m :=
    ⟨_, rfl⟩
  obtain ⟨bx2, hbx2⟩ : ∃ m,
      listMin (((c2, w2, s2) :: (c2b, w2b, s2b) :: r2b).map (fun e => e.1.x)) = some m :=
    ⟨_, rfl⟩
  obtain ⟨by2, hby2⟩ : ∃ m,
      listMin (((c2, w2, s2) :: (c2b, w2b, s2b) :: r2b).map (fun e => e.1.y)) = some m :=
    ⟨_, rfl⟩
  obtain ⟨tidx1, stT1, hstep1, hnodes1, htmpl1, hidx1⟩ :=
    add_node_general_spec hbx1 hby1 hgen1
  obtain ⟨tidx2, stT2, hstep2, hnodes2, htmpl2, hidx2⟩ :=
    add_node_general_spec hbx2 hby2 hgen2
  have hminx : bx2 + t2x = bx1 + t1x := by
    have e2x : listMin ((((c2, w2, s2) :: (c2b, w2b, s2b) :: r2b).map
        (shiftEp t2x t2y)).map (fun e => e.1.x)) = some (bx2 + t2x) := by
      rw [shift_proj_x, listMin_map_add, hbx2]
      rfl
    have e1x : listMin ((((c1, w1, s1) :: (c1b, w1b, s1b) :: r1b).map
        (shiftEp t1x t1y)).map (fun e => e.1.x)) = some (bx1 + t1x) := by
      rw [shift_proj_x, listMin_map_add, hbx1]
      rfl
    have hp := listMin_perm (hperm.map (fun e => e.1.x))
    rw [e2x, e1x] at hp
    exact Option.some.inj hp
  have hminy : by2 + t2y = by1 + t1y := by
    have e2y : listMin ((((c2, w2, s2) :: (c2b, w2b, s2b) :: r2b).map
        (shiftEp t2x t2y)).map (fun e => e.1.y)) = some (by2 + t2y) := by
      rw [shift_proj_y, listMin_map_add, hby2]
      rfl
    have e1y : listMin ((((c1, w1, s1) :: (c1b, w1b, s1b) :: r1b).map
        (shiftEp t1x t1y)).map (fun e => e.1.y)) = some (by1 + t1y) := by
      rw [shift_proj_y, listMin_map_add, hby1]
      rfl
    have hp := listMin_perm (hperm.map (fun e => e.1.y))
    rw [e2y, e1y] at hp
    exact Option.some.inj hp
  have hl2r : ((c2, w2, s2) :: (c2b, w2b, s2b) :: r2b).map (relTW bx2 by2) =
      (((c2, w2, s2) :: (c2b, w2b, s2b) :: r2b).map (shiftEp t2x t2y)).map
        (relTW (bx2 + t2x) (by2 + t2y)) := by
    rw [List.map_map]
    congr 1
    funext e
    exact (relTW_shiftEp t2x t2y bx2 by2 e).symm
  have hl1r : ((c1, w1, s1) :: (c1b, w1b, s1b) :: r1b).map (relTW bx1 by1) =
      (((c1, w1, s1) :: (c1b, w1b, s1b) :: r1b).map (shiftEp t1x t1y)).map
        (relTW (bx1 + t1x) (by1 + t1y)) := by
    rw [List.map_map]
    congr 1
    funext e
    exact (relTW_shiftEp t1x t1y bx1 by1 e).symm
  have hTeq : (⟨sortTW (((c2, w2, s2) :: (c2b, w2b, s2b) :: r2b).map (relTW bx2 by2))⟩ :
      TkNodeTemplate) =
      ⟨sortTW (((c1, w1, s1) :: (c1b, w1b, s1b) :: r1b).map (relTW bx1 by1))⟩ := by
    have hperm2 : (((c2, w2, s2) :: (c2b, w2b, s2b) :: r2b).map (relTW bx2 by2)).Perm
        (((c1, w1, s1) :: (c1b, w1b, s1b) :: r1b).map (relTW bx1 by1)) := by
      rw [hl2r, hl1r, hminx, hminy]
      exact hperm.map _
    exact congrArg TkNodeTemplate.mk (sortTW_perm_eq hperm2)
  obtain ⟨-, -, -, -, -, -, -, hAnodes, hAtempl, -, -, -, hAidx⟩ :=
    resolveNodeWires_internsOnly _ hres1
  obtain ⟨-, -, -, -, -, -, -, hBnodes, hBtempl, -, -, -, hBidx⟩ :=
    resolveNodeWires_internsOnly _ hres2
  have hstepfr1 := templateIdxStep_frame hstep1
  have hlook : alGet stB.templates_idx
      (⟨sortTW (((c1, w1, s1) :: (c1b, w1b, s1b) :: r1b).map (relTW bx1 by1))⟩ :
        TkNodeTemplate) = some tidx1 := by
    rw [hBidx, hidx1]
    exact templateIdxStep_post hstep1
  have hstep2h := templateIdxStep_hit (hTeq ▸ hlook)
  rw [hstep2h] at hstep2
  cases hstep2
  have hn1 : st1.part.nodes = st.part.nodes ++ [⟨⟨bx1, by1⟩, tidx1⟩] := by
    rw [hnodes1, hstepfr1.2.2.1, hAnodes]
  have hn2 : st2.part.nodes =
      st.part.nodes ++ [⟨⟨bx1, by1⟩, tidx1⟩] ++ [⟨⟨bx2, by2⟩, tidx1⟩] := by
    rw [hnodes2, hBnodes, hn1]
  refine ⟨?_, ?_, ?_⟩
  · rw [hn2]
    simp [List.length_append]
  · rw [htmpl2, hBtempl]
  · refine ⟨⟨⟨bx1, by1⟩, tidx1⟩, ⟨⟨bx2, by2⟩, tidx1⟩, ?_, ?_, rfl⟩
    · rw [hn2]
      rw [List.getElem?_append_left (by simp)]
      rw [List.getElem?_append_right (Nat.le_refl _)]
      simp
    · rw [hn2]
      rw [List.getElem?_append_right (by simp)]
      simp

/-- Witness for C7 at concrete inputs: the second node (endpoints shifted by
`(0, 1)` relative to the first) reuses the first node's template. -/
theorem template_dedup_witness :
    cx7N2.part.nodes.length = cx7B4.part.nodes.length + 2 ∧
    cx7N2.part.templates = cx7N1.part.templates ∧
    (∃ n1 n2,
      cx7N2.part.nodes[cx7B4.part.nodes.length]? = some n1 ∧
      cx7N2.part.nodes[cx7B4.part.nodes.length + 1]? = some n2 ∧
      n1.template = n2.template) :=
  template_dedup cx7B4
    [(['t', '0'], ['A'], none), (['t', '1'], ['A'], none)]
    [(['t', '2'], ['A'], none), (['t', '3'], ['A'], none)]
    cx7N1 cx7N2
    [(⟨0, 0⟩, ⟨0⟩, SpeedIdx.UNKNOWN), (⟨1, 0⟩, ⟨0⟩, SpeedIdx.UNKNOWN)]
    [(⟨0, 1⟩, ⟨0⟩, SpeedIdx.UNKNOWN), (⟨1, 1⟩, ⟨0⟩, SpeedIdx.UNKNOWN)]
    cx7B4 cx7N1 0 1 0 0
    (by decide) (by decide) (by decide) (by decide) (by decide) (by decide)

/-! ### C2: repeating an identical `add_tile` call -/

theorem alPut_self {K V : Type} [DecidableEq K] :
    ∀ (m : AList K V) {k : K} {v : V}, alGet m k = some v → alPut m k v = m := by
  intro m
  induction m with
  | nil => intro k v h; simp [alGet] at h
  | cons e rest ih =>
    intro k v h
    obtain ⟨k0, v0⟩ := e
    simp only [alGet] at h
    by_cases hk : k0 = k
    · rw [if_pos hk] at h
      cases h
      simp [alPut, if_pos hk]
    · rw [if_neg hk] at h
      simp only [alPut, if_neg hk]
      rw [ih h]

/-- Existing bindings of the three name-interning tables survive any
interning activity (the tables only gain bindings). -/
def tablesLE (st st1 : PartBuilder) : Prop :=
  (∀ k v, alGet st.wires_by_name k = some v → alGet st1.wires_by_name k = some v) ∧
  (∀ k v, alGet st.speeds_by_name k = some v → alGet st1.speeds_by_name k = some v) ∧
  (∀ k v, alGet st.slot_kinds_by_name k = some v →
    alGet st1.slot_kinds_by_name k = some v)

theorem tablesLE_refl (st : PartBuilder) : tablesLE st st :=
  ⟨fun _ _ h => h, fun _ _ h => h, fun _ _ h => h⟩

theorem tablesLE_trans {a b c : PartBuilder} (h1 : tablesLE a b) (h2 : tablesLE b c) :
    tablesLE a c :=
  ⟨fun k v h => h2.1 k v (h1.1 k v h), fun k v h => h2.2.1 k v (h1.2.1 k v h),
   fun k v h => h2.2.2 k v (h1.2.2 k v h)⟩

theorem wire_to_idx_tablesLE {st : PartBuilder} {s : Str} {i : WireIdx}
    {st1 : PartBuilder} (h : wire_to_idx st s = some (i, st1)) : tablesLE st st1 := by
  unfold wire_to_idx at h
  cases hg : alGet st.wires_by_name s with
  | some j => rw [hg] at h; cases h; exact tablesLE_refl st
  | none =>
    rw [hg] at h
    cases hf : WireIdx.from_raw st.part.wires.length with
    | none => rw [hf] at h; cases h
    | some w =>
      rw [hf] at h
      cases h
      refine ⟨fun k v hk => ?_, fun _ _ h => h, fun _ _ h => h⟩
      show alGet (alPut st.wires_by_name s i) k = some v
      by_cases hks : k = s
      · subst hks
        rw [hg] at hk
        cases hk
      · rw [alGet_alPut_ne _ _ hks]
        exact hk

theorem speed_to_idx_tablesLE {st : PartBuilder} {s : Option Str} {i : SpeedIdx}
    {st1 : PartBuilder} (h : speed_to_idx st s = some (i, st1)) : tablesLE st st1 := by
  cases s with
  | none =>
    simp only [speed_to_idx] at h
    cases h
    exact tablesLE_refl st
  | some n =>
    simp only [speed_to_idx] at h
    cases hg : alGet st.speeds_by_name n with
    | some j => rw [hg] at h; cases h; exact tablesLE_refl st
    | none =>
      rw [hg] at h
      cases hf : SpeedIdx.from_raw st.part.speeds.length with
      | none => rw [hf] at h; cases h
      | some w =>
        rw [hf] at h
        cases h
        refine ⟨fun _ _ h => h, fun k v hk => ?_, fun _ _ h => h⟩
        show alGet (alPut st.speeds_by_name n i) k = some v
        by_cases hks : k = n
        · subst hks
          rw [hg] at hk
          cases hk
        · rw [alGet_alPut_ne _ _ hks]
          exact hk

theorem slot_kind_to_idx_tablesLE {st : PartBuilder} {s : Str} {i : Nat}
    {st1 : PartBuilder} (h : slot_kind_to_idx st s = some (i, st1)) :
    tablesLE st st1 := by
  unfold slot_kind_to_idx at h
  cases hg : alGet st.slot_kinds_by_name s with
  | some j => rw [hg] at h; cases h; exact tablesLE_refl st
  | none =>
    rw [hg] at h
    by_cases hb : st.part.slot_kinds.length > 65535
    · simp [hb] at h
    · simp only [hb, ite_false] at h
      cases h
      refine ⟨fun _ _ h => h, fun _ _ h => h, fun k v hk => ?_⟩
      show alGet (alPut st.slot_kinds_by_name s _) k = some v
      by_cases hks : k = s
      · subst hks
        rw [hg] at hk
        cases hk
      · rw [alGet_alPut_ne _ _ hks]
        exact hk

theorem wire_to_idx_reg {st : PartBuilder} {s : Str} {i : WireIdx} {st1 : PartBuilder}
    (h : wire_to_idx st s = some (i, st1)) : alGet st1.wires_by_name s = some i := by
  unfold wire_to_idx at h
  cases hg : alGet st.wires_by_name s with
  | some j => rw [hg] at h; cases h; exact hg
  | none =>
    rw [hg] at h
    cases hf : WireIdx.from_raw st.part.wires.length with
    | none => rw [hf] at h; cases h
    | some w =>
      rw [hf] at h
      cases h
      exact alGet_alPut_self _ _ _

theorem speed_to_idx_reg {st : PartBuilder} {s : Str} {i : SpeedIdx} {st1 : PartBuilder}
    (h : speed_to_idx st (some s) = some (i, st1)) :
    alGet st1.speeds_by_name s = some i := by
  simp only [speed_to_idx] at h
  cases hg : alGet st.speeds_by_name s with
  | some j => rw [hg] at h; cases h; exact hg
  | none =>
    rw [hg] at h
    cases hf : SpeedIdx.from_raw st.part.speeds.length with
    | none => rw [hf] at h; cases h
    | some w =>
      rw [hf] at h
      cases h
      exact alGet_alPut_self _ _ _

theorem slot_kind_to_idx_reg {st : PartBuilder} {s : Str} {i : Nat} {st1 : PartBuilder}
    (h : slot_kind_to_idx st s = some (i, st1)) :
    alGet st1.slot_kinds_by_name s = some i := by
  unfold slot_kind_to_idx at h
  cases hg : alGet st.slot_kinds_by_name s with
  | some j => rw [hg] at h; cases h; exact hg
  | none =>
    rw [hg] at h
    by_cases hb : st.part.slot_kinds.length > 65535
    · simp [hb] at h
    · simp only [hb, ite_false] at h
      cases h
      exact alGet_alPut_self _ _ _

theorem wire_to_idx_pure {st : PartBuilder} {s : Str} {i : WireIdx}
    (h : alGet st.wires_by_name s = some i) : wire_to_idx st s = some (i, st) := by
  unfold wire_to_idx
  rw [h]

theorem speed_to_idx_pure {st : PartBuilder} {s : Str} {i : SpeedIdx}
    (h : alGet st.speeds_by_name s = some i) :
    speed_to_idx st (some s) = some (i, st) := by
  simp only [speed_to_idx]
  rw [h]

theorem slot_kind_to_idx_pure {st : PartBuilder} {s : Str} {i : Nat}
    (h : alGet st.slot_kinds_by_name s = some i) :
    slot_kind_to_idx st s = some (i, st) := by
  unfold slot_kind_to_idx
  rw [h]

theorem internWirePairs_tablesLE :
    ∀ (l : List (Str × Option Str)) {st : PartBuilder} {res : List (WireIdx × SpeedIdx)}
      {st1 : PartBuilder}, internWirePairs st l = some (res, st1) → tablesLE st st1 := by
  intro l
  induction l with
  | nil =>
    intro st res st1 h
    simp only [internWirePairs] at h
    cases h
    exact tablesLE_refl st
  | cons e rest ih =>
    intro st res st1 h
    obtain ⟨n, s⟩ := e
    simp only [internWirePairs] at h
    split at h
    next => cases h
    next w stA h1 =>
      split at h
      next => cases h
      next sp stB h2 =>
        split at h
        next => cases h
        next l2 stC h3 =>
          cases h
          exact tablesLE_trans
            (tablesLE_trans (wire_to_idx_tablesLE h1) (speed_to_idx_tablesLE h2))
            (ih h3)

theorem internPips_tablesLE :
    ∀ (l : List PipArg) {st : PartBuilder} {res : List PipI} {st1 : PartBuilder},
      internPips st l = some (res, st1) → tablesLE st st1 := by
  intro l
  induction l with
  | nil =>
    intro st res st1 h
    simp only [internPips] at h
    cases h
    exact tablesLE_refl st
  | cons pa rest ih =>
    intro st res st1 h
    simp only [internPips] at h
    split at h
    next => cases h
    next f stA h1 =>
      split at h
      next => cases h
      next t stB h2 =>
        split at h
        next => cases h
        next sp stC h3 =>
          split at h
          next => cases h
          next l2 stD h4 =>
            cases h
            exact tablesLE_trans (tablesLE_trans
              (tablesLE_trans (wire_to_idx_tablesLE h1) (wire_to_idx_tablesLE h2))
              (speed_to_idx_tablesLE h3)) (ih h4)

theorem internPins_tablesLE :
    ∀ (l : List PinArg) {st : PartBuilder}
      {res : List (Str × TkSitePinDir × WireIdx × SpeedIdx)} {st1 : PartBuilder},
      internPins st l = some (res, st1) → tablesLE st st1 := by
  intro l
  induction l with
  | nil =>
    intro st res st1 h
    simp only [internPins] at h
    cases h
    exact tablesLE_refl st
  | cons pa rest ih =>
    intro st res st1 h
    simp only [internPins] at h
    split at h
    next => cases h
    next w stA h1 =>
      have hA : tablesLE st stA := by
        cases hw : pa.wire with
        | some wn => rw [hw] at h1; exact wire_to_idx_tablesLE h1
        | none => rw [hw] at h1; cases h1; exact tablesLE_refl st
      split at h
      next => cases h
      next sp stB h2 =>
        split at h
        next => cases h
        next l2 stC h3 =>
          cases h
          exact tablesLE_trans (tablesLE_trans hA (speed_to_idx_tablesLE h2)) (ih h3)

theorem internSites_tablesLE (slots : AList Str TkSiteSlot) :
    ∀ (l : List SiteArg) {st : PartBuilder} {res : List SiteI} {st1 : PartBuilder},
      internSites slots st l = some (res, st1) → tablesLE st st1 := by
  intro l
  induction l with
  | nil =>
    intro st res st1 h
    simp only [internSites] at h
    cases h
    exact tablesLE_refl st
  | cons sa rest ih =>
    intro st res st1 h
    simp only [internSites] at h
    split at h
    next => cases h
    next slot h0 =>
      split at h
      next => cases h
      next pins stA h1 =>
        split at h
        next => cases h
        next l2 stB h2 =>
          cases h
          exact tablesLE_trans (internPins_tablesLE _ h1) (ih h2)

theorem classify_site_tablesLE {st : PartBuilder} {m : AList Nat (Nat × Nat)}
    {sa : SiteArg} {slot : TkSiteSlot} {st1 : PartBuilder}
    (h : classify_site st m sa = some (slot, st1)) : tablesLE st st1 := by
  unfold classify_site at h
  split at h
  next => cases h
  next s post heq =>
    split at h
    next => cases h
    next b stA h1 =>
      split at h
      next => cases h
      next slot0 hpost =>
        cases h
        exact slot_kind_to_idx_tablesLE h1

theorem slotifyMinXY_tablesLE :
    ∀ (l : List SiteArg) (m : AList Nat (Nat × Nat)) {st : PartBuilder}
      {res : AList Nat (Nat × Nat)} {st1 : PartBuilder},
      slotifyMinXY st l m = some (res, st1) → tablesLE st st1 := by
  intro l
  induction l with
  | nil =>
    intro m st res st1 h
    simp only [slotifyMinXY] at h
    cases h
    exact tablesLE_refl st
  | cons sa rest ih =>
    intro m st res st1 h
    simp only [slotifyMinXY] at h
    split at h
    next => exact ih _ h
    next base x y heq =>
      split at h
      next => cases h
      next b stA h1 =>
        exact tablesLE_trans (slot_kind_to_idx_tablesLE h1) (ih _ h)

theorem slotifySites_tablesLE :
    ∀ (l : List SiteArg) (slots : List TkSiteSlot) (acc : AList Str TkSiteSlot)
      {m : AList Nat (Nat × Nat)} {st : PartBuilder} {res : AList Str TkSiteSlot}
      {st1 : PartBuilder},
      slotifySites st m l slots acc = some (res, st1) → tablesLE st st1 := by
  intro l
  induction l with
  | nil =>
    intro slots acc m st res st1 h
    simp only [slotifySites] at h
    cases h
    exact tablesLE_refl st
  | cons sa rest ih =>
    intro slots acc m st res st1 h
    simp only [slotifySites] at h
    split at h
    next => cases h
    next slot stA h0 =>
      split at h
      next => cases h
      next hmem =>
        exact tablesLE_trans (classify_site_tablesLE h0) (ih _ _ h)

theorem slotify_tablesLE {st : PartBuilder} {sites : List SiteArg}
    {res : AList Str TkSiteSlot} {st1 : PartBuilder}
    (h : slotify st sites = some (res, st1)) : tablesLE st st1 := by
  unfold slotify at h
  split at h
  next => cases h
  next m stM h0 =>
    exact tablesLE_trans (slotifyMinXY_tablesLE _ _ h0) (slotifySites_tablesLE _ _ _ h)

theorem internWirePairs_replay :
    ∀ (l : List (Str × Option Str)) {st : PartBuilder} {res : List (WireIdx × SpeedIdx)}
      {st1 stF : PartBuilder},
      internWirePairs st l = some (res, st1) → tablesLE st1 stF →
      internWirePairs stF l = some (res, stF) := by
  intro l
  induction l with
  | nil =>
    intro st res st1 stF h hLE
    simp only [internWirePairs] at h
    cases h
    simp only [internWirePairs]
  | cons e rest ih =>
    intro st res st1 stF h hLE
    obtain ⟨n, s⟩ := e
    simp only [internWirePairs] at h
    split at h
    next => cases h
    next w stA h1 =>
      split at h
      next => cases h
      next sp stB h2 =>
        split at h
        next => cases h
        next l2 stC h3 =>
          cases h
          have hAF : tablesLE stA stF :=
            tablesLE_trans (tablesLE_trans (speed_to_idx_tablesLE h2)
              (internWirePairs_tablesLE _ h3)) hLE
          have hBF : tablesLE stB stF :=
            tablesLE_trans (internWirePairs_tablesLE _ h3) hLE
          have hw2 : wire_to_idx stF n = some (w, stF) :=
            wire_to_idx_pure (hAF.1 _ _ (wire_to_idx_reg h1))
          have hs2 : speed_to_idx stF s = some (sp, stF) := by
            cases s with
            | none =>
              simp only [speed_to_idx] at h2
              cases h2
              simp only [speed_to_idx]
            | some str =>
              exact speed_to_idx_pure (hBF.2.1 _ _ (speed_to_idx_reg h2))
          have hr2 : internWirePairs stF rest = some (l2, stF) := ih h3 hLE
          simp only [internWirePairs, hw2, hs2, hr2]

theorem internPips_replay :
    ∀ (l : List PipArg) {st : PartBuilder} {res : List PipI} {st1 stF : PartBuilder},
      internPips st l = some (res, st1) → tablesLE st1 stF →
      internPips stF l = some (res, stF) := by
  intro l
  induction l with
  | nil =>
    intro st res st1 stF h hLE
    simp only [internPips] at h
    cases h
    simp only [internPips]
  | cons pa rest ih =>
    intro st res st1 stF h hLE
    simp only [internPips] at h
    split at h
    next => cases h
    next f stA h1 =>
      split at h
      next => cases h
      next t stB h2 =>
        split at h
        next => cases h
        next sp stC h3 =>
          split at h
          next => cases h
          next l2 stD h4 =>
            cases h
            have hAF : tablesLE stA stF :=
              tablesLE_trans (tablesLE_trans (tablesLE_trans (wire_to_idx_tablesLE h2)
                (speed_to_idx_tablesLE h3)) (internPips_tablesLE _ h4)) hLE
            have hBF : tablesLE stB stF :=
              tablesLE_trans (tablesLE_trans (speed_to_idx_tablesLE h3)
                (internPips_tablesLE _ h4)) hLE
            have hCF : tablesLE stC stF :=
              tablesLE_trans (internPips_tablesLE _ h4) hLE
            have hf2 : wire_to_idx stF pa.wf = some (f, stF) :=
              wire_to_idx_pure (hAF.1 _ _ (wire_to_idx_reg h1))
            have ht2 : wire_to_idx stF pa.wt = some (t, stF) :=
              wire_to_idx_pure (hBF.1 _ _ (wire_to_idx_reg h2))
            have hs2 : speed_to_idx stF pa.speed = some (sp, stF) := by
              cases hsp : pa.speed with
              | none =>
                rw [hsp] at h3
                simp only [speed_to_idx] at h3
                cases h3
                simp only [speed_to_idx]
              | some str =>
                rw [hsp] at h3
                exact speed_to_idx_pure (hCF.2.1 _ _ (speed_to_idx_reg h3))
            have hr2 : internPips stF rest = some (l2, stF) := ih h4 hLE
            simp only [internPips, hf2, ht2, hs2, hr2]

theorem internPins_replay :
    ∀ (l : List PinArg) {st : PartBuilder}
      {res : List (Str × TkSitePinDir × WireIdx × SpeedIdx)} {st1 stF : PartBuilder},
      internPins st l = some (res, st1) → tablesLE st1 stF →
      internPins stF l = some (res, stF) := by
  intro l
  induction l with
  | nil =>
    intro st res st1 stF h hLE
    simp only [internPins] at h
    cases h
    simp only [internPins]
  | cons pa rest ih =>
    intro st res st1 stF h hLE
    simp only [internPins] at h
    split at h
    next => cases h
    next w stA h1 =>
      split at h
      next => cases h
      next sp stB h2 =>
        split at h
        next => cases h
        next l2 stC h3 =>
          cases h
          have hAF : tablesLE stA stF :=
            tablesLE_trans (tablesLE_trans (speed_to_idx_tablesLE h2)
              (internPins_tablesLE _ h3)) hLE
          have hBF : tablesLE stB stF :=
            tablesLE_trans (internPins_tablesLE _ h3) hLE
          have hw2 : (match pa.wire with
              | some w0 => wire_to_idx stF w0
              | none => some (WireIdx.NONE, stF)) = some (w, stF) := by
            cases hw : pa.wire with
            | some wn =>
              rw [hw] at h1
              exact wire_to_idx_pure (hAF.1 _ _ (wire_to_idx_reg h1))
            | none =>
              rw [hw] at h1
              cases h1
              rfl
          have hs2 : speed_to_idx stF pa.speed = some (sp, stF) := by
            cases hsp : pa.speed with
            | none =>
              rw [hsp] at h2
              simp only [speed_to_idx] at h2
              cases h2
              simp only [speed_to_idx]
            | some str =>
              rw [hsp] at h2
              exact speed_to_idx_pure (hBF.2.1 _ _ (speed_to_idx_reg h2))
          have hr2 : internPins stF rest = some (l2, stF) := ih h3 hLE
          simp only [internPins, hw2, hs2, hr2]

theorem internSites_replay (slots : AList Str TkSiteSlot) :
    ∀ (l : List SiteArg) {st : PartBuilder} {res : List SiteI} {st1 stF : PartBuilder},
      internSites slots st l = some (res, st1) → tablesLE st1 stF →
      internSites slots stF l = some (res, stF) := by
  intro l
  induction l with
  | nil =>
    intro st res st1 stF h hLE
    simp only [internSites] at h
    cases h
    simp only [internSites]
  | cons sa rest ih =>
    intro st res st1 stF h hLE
    simp only [internSites] at h
    split at h
    next => cases h
    next slot h0 =>
      split at h
      next => cases h
      next pins stA h1 =>
        split at h
        next => cases h
        next l2 stB h2 =>
          cases h
          have hAF : tablesLE stA stF :=
            tablesLE_trans (internSites_tablesLE _ _ h2) hLE
          have hp2 : internPins stF sa.pins = some (pins, stF) :=
            internPins_replay _ h1 hAF
          have hr2 : internSites slots stF rest = some (l2, stF) := ih h2 hLE
          simp only [internSites, h0, hp2, hr2]

theorem classify_site_replay {st : PartBuilder} {m : AList Nat (Nat × Nat)}
    {sa : SiteArg} {slot : TkSiteSlot} {st1 stF : PartBuilder}
    (h : classify_site st m sa = some (slot, st1)) (hLE : tablesLE st1 stF)
    (hfam : stF.part.family = st.part.family) :
    classify_site stF m sa = some (slot, stF) := by
  unfold classify_site at h ⊢
  split at h
  next => cases h
  next s post heq =>
    split at h
    next => cases h
    next b stA h1 =>
      split at h
      next => cases h
      next slot0 hpost =>
        cases h
        rw [hfam, heq]
        have hb2 : slot_kind_to_idx stF s = some (b, stF) :=
          slot_kind_to_idx_pure (hLE.2.2 _ _ (slot_kind_to_idx_reg h1))
        simp only [hb2, hpost]

theorem slotifyMinXY_replay :
    ∀ (l : List SiteArg) (m : AList Nat (Nat × Nat)) {st : PartBuilder}
      {res : AList Nat (Nat × Nat)} {st1 stF : PartBuilder},
      slotifyMinXY st l m = some (res, st1) → tablesLE st1 stF →
      slotifyMinXY stF l m = some (res, stF) := by
  intro l
  induction l with
  | nil =>
    intro m st res st1 stF h hLE
    simp only [slotifyMinXY] at h
    cases h
    simp only [slotifyMinXY]
  | cons sa rest ih =>
    intro m st res st1 stF h hLE
    simp only [slotifyMinXY] at h
    split at h
    next heq =>
      have hr2 := ih _ h hLE
      simp only [slotifyMinXY, heq, hr2]
    next base x y heq =>
      split at h
      next => cases h
      next b stA h1 =>
        have hAF : tablesLE stA stF :=
          tablesLE_trans (slotifyMinXY_tablesLE _ _ h) hLE
        have hb2 : slot_kind_to_idx stF base = some (b, stF) :=
          slot_kind_to_idx_pure (hAF.2.2 _ _ (slot_kind_to_idx_reg h1))
        have hr2 := ih _ h hLE
        simp only [slotifyMinXY, heq, hb2, hr2]

theorem slotifySites_replay :
    ∀ (l : List SiteArg) (slots : List TkSiteSlot) (acc : AList Str TkSiteSlot)
      {m : AList Nat (Nat × Nat)} {st : PartBuilder} {res : AList Str TkSiteSlot}
      {st1 stF : PartBuilder},
      slotifySites st m l slots acc = some (res, st1) → tablesLE st1 stF →
      stF.part.family = st.part.family →
      slotifySites stF m l slots acc = some (res, stF) := by
  intro l
  induction l with
  | nil =>
    intro slots acc m st res st1 stF h hLE hfam
    simp only [slotifySites] at h
    cases h
    simp only [slotifySites]
  | cons sa rest ih =>
    intro slots acc m st res st1 stF h hLE hfam
    simp only [slotifySites] at h
    split at h
    next => cases h
    next slot stA h0 =>
      split at h
      next => cases h
      next hmem =>
        have hAF : tablesLE stA stF :=
          tablesLE_trans (slotifySites_tablesLE _ _ _ h) hLE
        have hfamA : stF.part.family = stA.part.family := by
          rw [(classify_site_internsOnly h0).2.1, hfam]
        have hc2 : classify_site stF m sa = some (slot, stF) :=
          classify_site_replay h0 hAF hfam
        have hr2 := ih _ _ h hLE hfamA
        simp only [slotifySites, hc2, hmem, ite_false, hr2]

theorem slotify_replay {st : PartBuilder} {sites : List SiteArg}
    {res : AList Str TkSiteSlot} {st1 stF : PartBuilder}
    (h : slotify st sites = some (res, st1)) (hLE : tablesLE st1 stF)
    (hfam : stF.part.family = st.part.family) :
    slotify stF sites = some (res, stF) := by
  unfold slotify at h ⊢
  split at h
  next => cases h
  next m stM h0 =>
    have hMF : tablesLE stM stF :=
      tablesLE_trans (slotifySites_tablesLE _ _ _ h) hLE
    have hfamM : stF.part.family = stM.part.family := by
      rw [(slotifyMinXY_internsOnly _ h0).2.1, hfam]
    have h02 : slotifyMinXY stF sites [] = some (m, stF) :=
      slotifyMinXY_replay _ _ h0 hMF
    rw [h02]
    exact slotifySites_replay _ _ _ h hLE hfamM

theorem addTilePrefix_replay {st : PartBuilder} {sites : List SiteArg}
    {wires : List (Str × Option Str)} {pips : List PipArg}
    {wiresI : List (WireIdx × SpeedIdx)} {pipsI : List PipI} {sitesI : List SiteI}
    {st4 stF : PartBuilder}
    (h : addTilePrefix st sites wires pips = some (wiresI, pipsI, sitesI, st4))
    (hLE : tablesLE st4 stF) (hfam : stF.part.family = st4.part.family) :
    addTilePrefix stF sites wires pips = some (wiresI, pipsI, sitesI, stF) := by
  unfold addTilePrefix at h ⊢
  split at h
  next => cases h
  next w1 stA h1 =>
    split at h
    next => cases h
    next p1 stB h2 =>
      split at h
      next => cases h
      next slots stC h3 =>
        split at h
        next => cases h
        next s1 stD h4 =>
          cases h
          have hBF : tablesLE stB stF :=
            tablesLE_trans (tablesLE_trans (slotify_tablesLE h3)
              (internSites_tablesLE _ _ h4)) hLE
          have hCF : tablesLE stC stF :=
            tablesLE_trans (internSites_tablesLE _ _ h4) hLE
          have hfamB : stF.part.family = stB.part.family := by
            rw [hfam, (internSites_internsOnly _ _ h4).2.1,
              (slotify_internsOnly h3).2.1]
          have hw2 : internWirePairs stF wires = some (wiresI, stF) :=
            internWirePairs_replay _ h1
              (tablesLE_trans (internPips_tablesLE _ h2) hBF)
          have hp2 : internPips stF pips = some (pipsI, stF) :=
            internPips_replay _ h2 hBF
          have hs3 : slotify stF sites = some (slots, stF) :=
            slotify_replay h3 hCF hfamB
          have hs4 : internSites slots stF sites = some (sitesI, stF) :=
            internSites_replay _ _ h4 hLE
          simp only [hw2, hp2, hs3, hs4]

theorem listSetSelf {α : Type} :
    ∀ (l : List α) (i : Nat) (v : α), l[i]? = some v → l.set i v = l := by
  intro l
  induction l with
  | nil => intro i v h; simp at h
  | cons a l ih =>
    intro i v h
    cases i with
    | zero =>
      simp only [List.getElem?_cons_zero, Option.some.injEq] at h
      subst h
      rfl
    | succ n =>
      simp only [List.getElem?_cons_succ] at h
      show a :: l.set n v = a :: l
      rw [ih n v h]

theorem listSetAppend {α : Type} :
    ∀ (l : List α) (d v : α), (l ++ [d]).set l.length v = l ++ [v] := by
  intro l d v
  induction l with
  | nil => rfl
  | cons a l ih =>
    show a :: (l ++ [d]).set l.length v = a :: (l ++ [v])
    rw [ih]

theorem setAt_eq_append {α : Type} (l : List α) (d v : α) :
    setAt l l.length d v = l ++ [v] := by
  unfold setAt
  have hp : padTo l (l.length + 1) d = l ++ [d] := by
    unfold padTo
    rw [Nat.add_sub_cancel_left]
    rfl
  rw [hp, listSetAppend]

theorem mergeSitePins_get :
    ∀ (l : List (Str × TkSitePinDir × WireIdx × SpeedIdx))
      {pins pins1 : AList Str TkSitePin} {n : Str},
      mergeSitePins pins l = some pins1 → n ∉ l.map (fun e => e.1) →
      alGet pins1 n = alGet pins n := by
  intro l
  induction l with
  | nil =>
    intro pins pins1 n h _
    simp only [mergeSitePins] at h
    cases h
    rfl
  | cons e rest ih =>
    intro pins pins1 n h hmem
    obtain ⟨n0, d, w, s⟩ := e
    simp only [List.map_cons, List.mem_cons] at hmem
    push_neg at hmem
    simp only [mergeSitePins] at h
    split at h
    next => cases h
    next pin hget =>
      split at h
      next hw => exact ih h hmem.2
      next hw =>
        split at h
        next => cases h
        next hc =>
          split at h
          next => cases h
          next hc2 =>
            rw [ih h hmem.2]
            exact alGet_alPut_ne _ _ hmem.1

theorem mergeSitePins_abs :
    ∀ (l : List (Str × TkSitePinDir × WireIdx × SpeedIdx)) (pins : AList Str TkSitePin),
      (∀ e ∈ l, ∃ pin, alGet pins e.1 = some pin ∧
        (e.2.2.1 = WireIdx.NONE ∨ (pin.wire = e.2.2.1 ∧ pin.speed = e.2.2.2))) →
      mergeSitePins pins l = some pins := by
  intro l
  induction l with
  | nil => intro pins _; simp only [mergeSitePins]
  | cons e rest ih =>
    intro pins habs
    obtain ⟨n0, d, w, s⟩ := e
    obtain ⟨pin, hget0, hdisj0⟩ := habs _ (List.mem_cons_self _ _)
    have hget : alGet pins n0 = some pin := hget0
    have hdisj : w = WireIdx.NONE ∨ (pin.wire = w ∧ pin.speed = s) := hdisj0
    have hrest := fun e he => habs e (List.mem_cons_of_mem _ he)
    simp only [mergeSitePins, hget]
    by_cases hw : w = WireIdx.NONE
    · rw [if_pos hw]
      exact ih pins hrest
    · rw [if_neg hw]
      obtain ⟨hwire, hspeed⟩ := hdisj.resolve_left hw
      rw [if_neg (fun hc => hc.2 hwire)]
      rw [if_neg (fun hc => hc hspeed)]
      have hupd : ({ pin with wire := w } : TkSitePin) = pin := by
        rw [← hwire]
      rw [hupd, alPut_self _ hget]
      exact ih pins hrest

theorem mergeSitePins_post :
    ∀ (l : List (Str × TkSitePinDir × WireIdx × SpeedIdx))
      {pins pins1 : AList Str TkSitePin},
      (l.map (fun e => e.1)).Nodup →
      mergeSitePins pins l = some pins1 →
      ∀ e ∈ l, ∃ pin, alGet pins1 e.1 = some pin ∧
        (e.2.2.1 = WireIdx.NONE ∨ (pin.wire = e.2.2.1 ∧ pin.speed = e.2.2.2)) := by
  intro l
  induction l with
  | nil => intro pins pins1 _ _ e he; cases he
  | cons e0 rest ih =>
    intro pins pins1 hnd h e he
    obtain ⟨n0, d, w, s⟩ := e0
    simp only [List.map_cons, List.nodup_cons] at hnd
    simp only [mergeSitePins] at h
    split at h
    next => cases h
    next pin hget =>
      split at h
      next hw =>
        cases he with
        | head =>
          refine ⟨pin, ?_, Or.inl hw⟩
          rw [mergeSitePins_get rest h hnd.1]
          exact hget
        | tail _ hm => exact ih hnd.2 h e hm
      next hw =>
        split at h
        next => cases h
        next hc =>
          split at h
          next => cases h
          next hc2 =>
            cases he with
            | head =>
              refine ⟨{ pin with wire := w }, ?_, Or.inr ⟨rfl, not_not.mp hc2⟩⟩
              rw [mergeSitePins_get rest h hnd.1]
              exact alGet_alPut_self _ _ _
            | tail _ hm => exact ih hnd.2 h e hm

theorem alGet_foldl_pins_not_mem :
    ∀ (l : List (Str × TkSitePinDir × WireIdx × SpeedIdx)) (m : AList Str TkSitePin)
      {n : Str}, n ∉ l.map (fun e => e.1) →
      alGet (l.foldl (fun m e => alPut m e.1 ⟨e.2.1, e.2.2.1, e.2.2.2⟩) m) n =
        alGet m n := by
  intro l
  induction l with
  | nil => intro m n _; rfl
  | cons e rest ih =>
    intro m n h
    simp only [List.map_cons, List.mem_cons] at h
    push_neg at h
    simp only [List.foldl_cons]
    rw [ih _ h.2, alGet_alPut_ne _ _ h.1]

theorem alGet_buildPins_mem :
    ∀ (l : List (Str × TkSitePinDir × WireIdx × SpeedIdx)) (m : AList Str TkSitePin)
      {e : Str × TkSitePinDir × WireIdx × SpeedIdx},
      (l.map (fun e => e.1)).Nodup → e ∈ l →
      alGet (l.foldl (fun m e => alPut m e.1 ⟨e.2.1, e.2.2.1, e.2.2.2⟩) m) e.1 =
        some ⟨e.2.1, e.2.2.1, e.2.2.2⟩ := by
  intro l
  induction l with
  | nil => intro m e _ hm; cases hm
  | cons e0 rest ih =>
    intro m e hnd hm
    simp only [List.map_cons, List.nodup_cons] at hnd
    simp only [List.foldl_cons]
    cases hm with
    | head =>
      rw [alGet_foldl_pins_not_mem rest _ hnd.1, alGet_alPut_self]
    | tail _ hm2 => exact ih _ hnd.2 hm2

theorem mergeSitePins_fresh (l : List (Str × TkSitePinDir × WireIdx × SpeedIdx))
    (hnd : (l.map (fun e => e.1)).Nodup) :
    mergeSitePins (buildPins l) l = some (buildPins l) := by
  apply mergeSitePins_abs
  intro e he
  refine ⟨⟨e.2.1, e.2.2.1, e.2.2.2⟩, ?_, Or.inr ⟨rfl, rfl⟩⟩
  exact alGet_buildPins_mem l [] hnd he

/-- Well-formedness of a kind's site table: the slot-to-index map is
injective and in bounds (the construction maintains this). -/
def sitesWF (tk : TileKind) : Prop :=
  (∀ s1 s2 i, alGet tk.sites_by_slot s1 = some i →
    alGet tk.sites_by_slot s2 = some i → s1 = s2) ∧
  (∀ s i, alGet tk.sites_by_slot s = some i → i < tk.sites.length)

theorem sitesWF_set {tk : TileKind} (idx : Nat) (site : TkSite) (h : sitesWF tk) :
    sitesWF { tk with sites := tk.sites.set idx site } := by
  refine ⟨h.1, ?_⟩
  intro s i hg
  have hb := h.2 s i hg
  show i < (tk.sites.set idx site).length
  rw [List.length_set]
  exact hb

theorem sitesWF_append {tk : TileKind} {slot : TkSiteSlot} (site : TkSite)
    (_hget : alGet tk.sites_by_slot slot = none) (h : sitesWF tk) :
    sitesWF { tk with sites := tk.sites ++ [site],
                      sites_by_slot :=
                        alPut tk.sites_by_slot slot tk.sites.length } := by
  constructor
  · intro s1 s2 i hg1 hg2
    simp only [alGet_alPut] at hg1 hg2
    by_cases e1 : s1 = slot
    · rw [if_pos e1] at hg1
      by_cases e2 : s2 = slot
      · rw [e1, e2]
      · rw [if_neg e2] at hg2
        cases hg1
        exact absurd (h.2 _ _ hg2) (lt_irrefl _)
    · rw [if_neg e1] at hg1
      by_cases e2 : s2 = slot
      · rw [if_pos e2] at hg2
        cases hg2
        exact absurd (h.2 _ _ hg1) (lt_irrefl _)
      · rw [if_neg e2] at hg2
        exact h.1 s1 s2 i hg1 hg2
  · intro s i hg
    simp only [alGet_alPut] at hg
    show i < (tk.sites ++ [site]).length
    rw [List.length_append]
    by_cases e : s = slot
    · rw [if_pos e] at hg
      cases hg
      simp
    · rw [if_neg e] at hg
      have hb := h.2 _ _ hg
      simp only [List.length_singleton]
      omega

theorem mergeSites_WF :
    ∀ (l : List SiteI) {tk : TileKind} {ls : List (Option Str)} {tkA : TileKind}
      {ls1 : List (Option Str)}, sitesWF tk → mergeSites tk ls l = some (tkA, ls1) →
      sitesWF tkA := by
  intro l
  induction l with
  | nil =>
    intro tk ls tkA ls1 hwf h
    simp only [mergeSites] at h
    cases h
    exact hwf
  | cons si rest ih =>
    intro tk ls tkA ls1 hwf h
    simp only [mergeSites] at h
    split at h
    next idx h0 =>
      split at h
      next => cases h
      next site h1 =>
        split at h
        next => cases h
        next pins1 h2 =>
          exact ih (sitesWF_set idx _ hwf) h
    next h0 =>
      exact ih (sitesWF_append _ h0 hwf) h

theorem mergeSites_entry_not_mem :
    ∀ (l : List SiteI) {tk tkA : TileKind} {ls ls1 : List (Option Str)}
      {sl : TkSiteSlot},
      sitesWF tk → mergeSites tk ls l = some (tkA, ls1) → sl ∉ l.map SiteI.slot →
      alGet tkA.sites_by_slot sl = alGet tk.sites_by_slot sl ∧
      (∀ i, alGet tk.sites_by_slot sl = some i → tkA.sites[i]? = tk.sites[i]?) := by
  intro l
  induction l with
  | nil =>
    intro tk tkA ls ls1 sl _ h _
    simp only [mergeSites] at h
    cases h
    exact ⟨rfl, fun _ _ => rfl⟩
  | cons si rest ih =>
    intro tk tkA ls ls1 sl hwf h hmem
    simp only [List.map_cons, List.mem_cons] at hmem
    push_neg at hmem
    simp only [mergeSites] at h
    split at h
    next idx h0 =>
      split at h
      next => cases h
      next site h1 =>
        split at h
        next => cases h
        next pins1 h2 =>
          have hwf2 := sitesWF_set idx ({ site with pins := pins1 }) hwf
          have hrec := ih hwf2 h hmem.2
          constructor
          · rw [hrec.1]
          · intro i hgi
            have hne : i ≠ idx := fun he =>
              hmem.1 (hwf.1 sl si.slot idx (he ▸ hgi) h0)
            rw [hrec.2 i hgi]
            show (tk.sites.set idx _)[i]? = tk.sites[i]?
            exact List.getElem?_set_ne (fun he => hne he.symm)
    next h0 =>
      have hwf2 := sitesWF_append ⟨si.slot, si.skind, buildPins si.pins⟩ h0 hwf
      have hrec := ih hwf2 h hmem.2
      constructor
      · rw [hrec.1]
        show alGet (alPut tk.sites_by_slot si.slot tk.sites.length) sl = _
        exact alGet_alPut_ne _ _ hmem.1
      · intro i hgi
        have hlt := hwf.2 _ _ hgi
        rw [hrec.2 i (by
          show alGet (alPut tk.sites_by_slot si.slot tk.sites.length) sl = some i
          rw [alGet_alPut_ne _ _ hmem.1]
          exact hgi)]
        show (tk.sites ++ [_])[i]? = tk.sites[i]?
        exact List.getElem?_append_left hlt

theorem mergeSites_sim :
    ∀ (l : List SiteI) {tk tkA : TileKind} {ls ls1 : List (Option Str)}
      (tkX : TileKind),
      sitesWF tk → (l.map SiteI.slot).Nodup →
      (∀ si ∈ l, (si.pins.map (fun e => e.1)).Nodup) →
      mergeSites tk ls l = some (tkA, ls1) →
      tkX.sites = tkA.sites → tkX.sites_by_slot = tkA.sites_by_slot →
      mergeSites tkX ls l = some (tkX, ls1) := by
  intro l
  induction l with
  | nil =>
    intro tk tkA ls ls1 tkX _ _ _ h _ _
    simp only [mergeSites] at h
    cases h
    simp only [mergeSites]
  | cons si rest ih =>
    intro tk tkA ls ls1 tkX hwf hnd hpnd h hsX hbX
    simp only [List.map_cons, List.nodup_cons] at hnd
    simp only [mergeSites] at h
    split at h
    next idx h0 =>
      split at h
      next => cases h
      next site h1 =>
        split at h
        next => cases h
        next pins1 h2 =>
          have hwf2 := sitesWF_set idx ({ site with pins := pins1 }) hwf
          have hpres := mergeSites_entry_not_mem rest hwf2 h hnd.1
          have hb : alGet tkX.sites_by_slot si.slot = some idx := by
            rw [hbX, hpres.1]
            exact h0
          have hidx : idx < tk.sites.length := hwf.2 _ _ h0
          have hsiteA : tkX.sites[idx]? = some { site with pins := pins1 } := by
            rw [hsX, hpres.2 idx h0]
            show (tk.sites.set idx _)[idx]? = _
            apply List.getElem?_set_eq_of_lt
            exact hidx
          have hmerge2 : mergeSitePins pins1 si.pins = some pins1 :=
            mergeSitePins_abs _ _
              (mergeSitePins_post _ (hpnd si (List.mem_cons_self _ _)) h2)
          have hrec := ih tkX hwf2 hnd.2
            (fun q hq => hpnd q (List.mem_cons_of_mem _ hq)) h hsX hbX
          have hset : tkX.sites.set idx ({ site with pins := pins1 }) = tkX.sites :=
            listSetSelf _ _ _ hsiteA
          simp only [mergeSites, hb, hsiteA, hmerge2]
          show mergeSites
            { tkX with sites := tkX.sites.set idx ({ site with pins := pins1 }) }
            (setAt ls idx none (some si.sname)) rest = some (tkX, ls1)
          rw [hset]
          exact hrec
    next h0 =>
      have hwf2 := sitesWF_append ⟨si.slot, si.skind, buildPins si.pins⟩ h0 hwf
      have hpres := mergeSites_entry_not_mem rest hwf2 h hnd.1
      have hb : alGet tkX.sites_by_slot si.slot = some tk.sites.length := by
        rw [hbX, hpres.1]
        show alGet (alPut tk.sites_by_slot si.slot tk.sites.length) si.slot = _
        exact alGet_alPut_self _ _ _
      have hsiteA : tkX.sites[tk.sites.length]? =
          some ⟨si.slot, si.skind, buildPins si.pins⟩ := by
        rw [hsX, hpres.2 _ (by
          show alGet (alPut tk.sites_by_slot si.slot tk.sites.length) si.slot = _
          exact alGet_alPut_self _ _ _)]
        show (tk.sites ++ [⟨si.slot, si.skind, buildPins si.pins⟩])[tk.sites.length]? = _
        rw [List.getElem?_append_right (Nat.le_refl _)]
        simp
      have hmerge2 : mergeSitePins (buildPins si.pins) si.pins =
          some (buildPins si.pins) :=
        mergeSitePins_fresh _ (hpnd si (List.mem_cons_self _ _))
      have hrec := ih tkX hwf2 hnd.2
        (fun q hq => hpnd q (List.mem_cons_of_mem _ hq)) h hsX hbX
      have hset : tkX.sites.set tk.sites.length
          ⟨si.slot, si.skind, buildPins si.pins⟩ = tkX.sites :=
        listSetSelf _ _ _ hsiteA
      simp only [mergeSites, hb, hsiteA, hmerge2]
      show mergeSites
        { tkX with sites := (tkX.sites.set tk.sites.length
                              ⟨si.slot, si.skind, buildPins si.pins⟩) }
        (setAt ls tk.sites.length none (some si.sname)) rest = some (tkX, ls1)
      rw [hset]
      exact hrec

theorem mergeWires_sim :
    ∀ (l : List (WireIdx × SpeedIdx)) {tk tkB : TileKind} {lc lc1 : List NodeIdx}
      {tiles0 tiles1 : AList Coord Tile} (tkX : TileKind) (tiles2 : AList Coord Tile),
      (l.map Prod.fst).Nodup →
      mergeWires tk lc tiles0 l = some (tkB, lc1, tiles1) →
      tkX.wires = tkB.wires →
      mergeWires tkX lc tiles2 l = some (tkX, lc1, tiles2) := by
  intro l
  induction l with
  | nil =>
    intro tk tkB lc lc1 tiles0 tiles1 tkX tiles2 _ h _
    simp only [mergeWires] at h
    cases h
    simp only [mergeWires]
  | cons e rest ih =>
    intro tk tkB lc lc1 tiles0 tiles1 tkX tiles2 hnd h hwX
    obtain ⟨n, s⟩ := e
    simp only [List.map_cons, List.nodup_cons] at hnd
    simp only [mergeWires] at h
    split at h
    next hget =>
      have hbB : alGet tkX.wires n = some (.Connected tk.conn_wires.length) := by
        rw [hwX, mergeWires_key_frame rest hnd.1 h]
        exact alGet_alPut_self _ _ _
      have hrec := ih tkX tiles2 hnd.2 h hwX
      simp only [mergeWires, hbB]
      exact hrec
    next cs hget =>
      split at h
      next heq =>
        have hbB : alGet tkX.wires n = some (.Internal cs) := by
          rw [hwX, mergeWires_key_frame rest hnd.1 h]
          exact hget
        have hrec := ih tkX tiles2 hnd.2 h hwX
        simp only [mergeWires, hbB]
        rw [if_pos heq]
        exact hrec
      next heq =>
        split at h
        next => cases h
        next tiles0b hbf =>
          have hbB : alGet tkX.wires n = some (.Connected tk.conn_wires.length) := by
            rw [hwX, mergeWires_key_frame rest hnd.1 h]
            exact alGet_alPut_self _ _ _
          have hrec := ih tkX tiles2 hnd.2 h hwX
          simp only [mergeWires, hbB]
          exact hrec
    next i hget =>
      have hbB : alGet tkX.wires n = some (.Connected i) := by
        rw [hwX, mergeWires_key_frame rest hnd.1 h]
        exact hget
      have hrec := ih tkX tiles2 hnd.2 h hwX
      simp only [mergeWires, hbB]
      exact hrec

theorem mergeWires_fresh_self :
    ∀ (l : List (WireIdx × SpeedIdx)) (tk : TileKind) (lc : List NodeIdx)
      (tiles : AList Coord Tile),
      (∀ e ∈ l, alGet tk.wires e.1 = some (.Internal e.2)) →
      mergeWires tk lc tiles l = some (tk, lc, tiles) := by
  intro l
  induction l with
  | nil => intro tk lc tiles _; simp only [mergeWires]
  | cons e rest ih =>
    intro tk lc tiles habs
    obtain ⟨n, s⟩ := e
    have hget : alGet tk.wires n = some (.Internal s) :=
      habs (n, s) (List.mem_cons_self _ _)
    simp only [mergeWires, hget]
    rw [if_pos trivial]
    exact ih tk lc tiles (fun q hq => habs q (List.mem_cons_of_mem _ hq))

theorem mergePips_key_frame :
    ∀ (l : List PipI) {tk tkC : TileKind} {lv lv1 : List SpeedIdx}
      {tiles tiles1 : AList Coord Tile} {key : WireIdx × WireIdx},
      key ∉ l.map (fun p => (p.wf, p.wt)) →
      mergePips tk lv tiles l = some (tkC, lv1, tiles1) →
      alGet tkC.pips key = alGet tk.pips key := by
  intro l
  induction l with
  | nil =>
    intro tk tkC lv lv1 tiles tiles1 key _ h
    simp only [mergePips] at h
    cases h
    rfl
  | cons pa rest ih =>
    intro tk tkC lv lv1 tiles tiles1 key hmem h
    simp only [List.map_cons, List.mem_cons] at hmem
    push_neg at hmem
    simp only [mergePips] at h
    split at h
    next hget =>
      rw [ih hmem.2 h]
      exact alGet_alPut_ne _ _ hmem.1
    next pip hget =>
      split at h
      next => cases h
      next hflags =>
        split at h
        next cs hmode =>
          split at h
          next heqs => exact ih hmem.2 h
          next heqs =>
            split at h
            next => cases h
            next tiles0b hrv =>
              rw [ih hmem.2 h]
              exact alGet_alPut_ne _ _ hmem.1
        next i hmode =>
          exact ih hmem.2 h

theorem mergePips_sim :
    ∀ (l : List PipI) {tk tkC : TileKind} {lv lv1 : List SpeedIdx}
      {tiles0 tiles1 : AList Coord Tile} (tkX : TileKind) (tiles2 : AList Coord Tile),
      (l.map (fun p => (p.wf, p.wt))).Nodup →
      mergePips tk lv tiles0 l = some (tkC, lv1, tiles1) →
      tkX.pips = tkC.pips →
      mergePips tkX lv tiles2 l = some (tkX, lv1, tiles2) := by
  intro l
  induction l with
  | nil =>
    intro tk tkC lv lv1 tiles0 tiles1 tkX tiles2 _ h _
    simp only [mergePips] at h
    cases h
    simp only [mergePips]
  | cons pa rest ih =>
    intro tk tkC lv lv1 tiles0 tiles1 tkX tiles2 hnd h hpX
    simp only [List.map_cons, List.nodup_cons] at hnd
    simp only [mergePips] at h
    split at h
    next hget =>
      have hbB : alGet tkX.pips (pa.wf, pa.wt) = some ⟨pa.is_buf, pa.is_excluded,
          pa.is_test, pa.inversion, pa.direction, .Const pa.speed⟩ := by
        rw [hpX, mergePips_key_frame rest hnd.1 h]
        exact alGet_alPut_self _ _ _
      have hrec := ih tkX tiles2 hnd.2 h hpX
      simp only [mergePips, hbB]
      rw [if_neg (by simp), if_pos trivial]
      exact hrec
    next pip hget =>
      split at h
      next => cases h
      next hflags =>
        split at h
        next cs hmode =>
          split at h
          next heqs =>
            have hbB : alGet tkX.pips (pa.wf, pa.wt) = some pip := by
              rw [hpX, mergePips_key_frame rest hnd.1 h]
              exact hget
            have hrec := ih tkX tiles2 hnd.2 h hpX
            simp only [mergePips, hbB]
            rw [if_neg hflags]
            simp only [hmode]
            rw [if_pos heqs]
            exact hrec
          next heqs =>
            split at h
            next => cases h
            next tiles0b hrv =>
              have hbB : alGet tkX.pips (pa.wf, pa.wt) =
                  some { pip with mode := .Variable tk.var_pips.length } := by
                rw [hpX, mergePips_key_frame rest hnd.1 h]
                exact alGet_alPut_self _ _ _
              have hrec := ih tkX tiles2 hnd.2 h hpX
              simp only [mergePips, hbB]
              rw [if_neg hflags]
              show mergePips tkX (setAt lv tk.var_pips.length SpeedIdx.NONE pa.speed)
                tiles2 rest = some (tkX, lv1, tiles2)
              exact hrec
        next i hmode =>
          have hbB : alGet tkX.pips (pa.wf, pa.wt) = some pip := by
            rw [hpX, mergePips_key_frame rest hnd.1 h]
            exact hget
          have hrec := ih tkX tiles2 hnd.2 h hpX
          simp only [mergePips, hbB]
          rw [if_neg hflags]
          simp only [hmode]
          exact hrec

theorem mergeWires_frame :
    ∀ (l : List (WireIdx × SpeedIdx)) {tk : TileKind} {lc : List NodeIdx}
      {tiles : AList Coord Tile} {tk' : TileKind} {lc' : List NodeIdx}
      {tiles' : AList Coord Tile},
      mergeWires tk lc tiles l = some (tk', lc', tiles') →
      tk'.sites = tk.sites ∧ tk'.sites_by_slot = tk.sites_by_slot ∧
      tk'.pips = tk.pips ∧ tk'.var_pips = tk.var_pips ∧ tk'.tiles = tk.tiles := by
  intro l
  induction l with
  | nil =>
    intro tk lc tiles tk' lc' tiles' h
    simp only [mergeWires] at h
    cases h
    exact ⟨rfl, rfl, rfl, rfl, rfl⟩
  | cons e rest ih =>
    intro tk lc tiles tk' lc' tiles' h
    obtain ⟨n, s⟩ := e
    simp only [mergeWires] at h
    split at h
    next hget =>
      exact (let hx := ih h; hx)
    next cs hget =>
      split at h
      next heq => exact (let hx := ih h; hx)
      next heq =>
        split at h
        next => cases h
        next tiles1 h1 =>
          exact (let hx := ih h; hx)
    next i hget =>
      exact (let hx := ih h; hx)

theorem alGet_foldl_pips_map_not_mem :
    ∀ (l : List PipI) (m : AList (WireIdx × WireIdx) TkPip)
      {key : WireIdx × WireIdx}, key ∉ l.map (fun p => (p.wf, p.wt)) →
      alGet (l.foldl (fun m pa => alPut m (pa.wf, pa.wt)
        ⟨pa.is_buf, pa.is_excluded, pa.is_test, pa.inversion, pa.direction,
          .Const pa.speed⟩) m) key = alGet m key := by
  intro l
  induction l with
  | nil => intro m key _; rfl
  | cons pa rest ih =>
    intro m key h
    simp only [List.map_cons, List.mem_cons] at h
    push_neg at h
    simp only [List.foldl_cons]
    rw [ih _ h.2, alGet_alPut_ne _ _ h.1]

theorem alGet_buildPipsMap_mem :
    ∀ (l : List PipI) (m : AList (WireIdx × WireIdx) TkPip) {pa : PipI},
      (l.map (fun p => (p.wf, p.wt))).Nodup → pa ∈ l →
      alGet (l.foldl (fun m pa => alPut m (pa.wf, pa.wt)
        ⟨pa.is_buf, pa.is_excluded, pa.is_test, pa.inversion, pa.direction,
          .Const pa.speed⟩) m) (pa.wf, pa.wt) =
        some ⟨pa.is_buf, pa.is_excluded, pa.is_test, pa.inversion, pa.direction,
          .Const pa.speed⟩ := by
  intro l
  induction l with
  | nil => intro m pa _ hm; cases hm
  | cons pa0 rest ih =>
    intro m pa hnd hm
    simp only [List.map_cons, List.nodup_cons] at hnd
    simp only [List.foldl_cons]
    cases hm with
    | head =>
      rw [alGet_foldl_pips_map_not_mem rest _ hnd.1, alGet_alPut_self]
    | tail _ hm2 => exact ih _ hnd.2 hm2

theorem alGet_foldl_slots_not_mem :
    ∀ (l : List SiteI) (j : Nat) (m : AList TkSiteSlot Nat) {sl : TkSiteSlot},
      sl ∉ l.map SiteI.slot →
      alGet ((List.enumFrom j l).foldl (fun m e => alPut m e.2.slot e.1) m) sl =
        alGet m sl := by
  intro l
  induction l with
  | nil => intro j m sl _; rfl
  | cons si rest ih =>
    intro j m sl h
    simp only [List.map_cons, List.mem_cons] at h
    push_neg at h
    show alGet ((List.enumFrom (j + 1) rest).foldl
      (fun m e => alPut m e.2.slot e.1) (alPut m si.slot j)) sl = alGet m sl
    rw [ih _ _ h.2, alGet_alPut_ne _ _ h.1]

theorem alGet_buildSlots_mem :
    ∀ (l : List SiteI) (j : Nat) (m : AList TkSiteSlot Nat) {k : Nat} {si : SiteI},
      (l.map SiteI.slot).Nodup → l[k]? = some si →
      alGet ((List.enumFrom j l).foldl (fun m e => alPut m e.2.slot e.1) m) si.slot =
        some (j + k) := by
  intro l
  induction l with
  | nil => intro j m k si _ hk; simp at hk
  | cons si0 rest ih =>
    intro j m k si hnd hk
    simp only [List.map_cons, List.nodup_cons] at hnd
    show alGet ((List.enumFrom (j + 1) rest).foldl
      (fun m e => alPut m e.2.slot e.1) (alPut m si0.slot j)) si.slot = some (j + k)
    cases k with
    | zero =>
      simp only [List.getElem?_cons_zero, Option.some.injEq] at hk
      subst hk
      rw [alGet_foldl_slots_not_mem rest _ _ hnd.1, alGet_alPut_self]
      rfl
    | succ k0 =>
      simp only [List.getElem?_cons_succ] at hk
      rw [show j + (k0 + 1) = (j + 1) + k0 by omega]
      exact ih _ _ hnd.2 hk

theorem buildSlots_bounded :
    ∀ (l : List SiteI) (j : Nat) (m : AList TkSiteSlot Nat),
      (∀ s i0, alGet m s = some i0 → i0 < j) →
      ∀ s i, alGet ((List.enumFrom j l).foldl (fun m e => alPut m e.2.slot e.1) m) s =
        some i → i < j + l.length := by
  intro l
  induction l with
  | nil =>
    intro j m hm s i hg
    have := hm s i hg
    simp only [List.length_nil]
    omega
  | cons si0 rest ih =>
    intro j m hm s i hg
    have hm2 : ∀ s i0, alGet (alPut m si0.slot j) s = some i0 → i0 < j + 1 := by
      intro s0 i0 hg0
      rw [alGet_alPut] at hg0
      by_cases e : s0 = si0.slot
      · rw [if_pos e] at hg0
        cases hg0
        omega
      · rw [if_neg e] at hg0
        have := hm _ _ hg0
        omega
    have hx := ih (j + 1) _ hm2 s i hg
    simp only [List.length_cons]
    omega

theorem buildSlots_inj :
    ∀ (l : List SiteI) (j : Nat) (m : AList TkSiteSlot Nat),
      (∀ s i0, alGet m s = some i0 → i0 < j) →
      (∀ s1 s2 i0, alGet m s1 = some i0 → alGet m s2 = some i0 → s1 = s2) →
      ∀ s1 s2 i,
        alGet ((List.enumFrom j l).foldl (fun m e => alPut m e.2.slot e.1) m) s1 =
          some i →
        alGet ((List.enumFrom j l).foldl (fun m e => alPut m e.2.slot e.1) m) s2 =
          some i →
        s1 = s2 := by
  intro l
  induction l with
  | nil => intro j m _ hinj s1 s2 i hg1 hg2; exact hinj s1 s2 i hg1 hg2
  | cons si0 rest ih =>
    intro j m hm hinj s1 s2 i hg1 hg2
    have hm2 : ∀ s i0, alGet (alPut m si0.slot j) s = some i0 → i0 < j + 1 := by
      intro s0 i0 hg0
      rw [alGet_alPut] at hg0
      by_cases e : s0 = si0.slot
      · rw [if_pos e] at hg0
        cases hg0
        omega
      · rw [if_neg e] at hg0
        have := hm _ _ hg0
        omega
    have hinj2 : ∀ s1 s2 i0, alGet (alPut m si0.slot j) s1 = some i0 →
        alGet (alPut m si0.slot j) s2 = some i0 → s1 = s2 := by
      intro t1 t2 i0 hh1 hh2
      rw [alGet_alPut] at hh1 hh2
      by_cases e1 : t1 = si0.slot
      · rw [if_pos e1] at hh1
        by_cases e2 : t2 = si0.slot
        · rw [e1, e2]
        · rw [if_neg e2] at hh2
          cases hh1
          exact absurd (hm _ _ hh2) (lt_irrefl _)
      · rw [if_neg e1] at hh1
        by_cases e2 : t2 = si0.slot
        · rw [if_pos e2] at hh2
          cases hh2
          exact absurd (hm _ _ hh1) (lt_irrefl _)
        · rw [if_neg e2] at hh2
          exact hinj t1 t2 i0 hh1 hh2
    exact ih (j + 1) _ hm2 hinj2 s1 s2 i hg1 hg2

theorem sitesWF_fresh (sitesI : List SiteI) (wmap : AList WireIdx TkWire)
    (pmap : AList (WireIdx × WireIdx) TkPip) (crd : List Coord) :
    sitesWF ⟨buildSites sitesI, buildSitesBySlot sitesI, wmap, [], pmap, [], crd⟩ := by
  constructor
  · intro s1 s2 i hg1 hg2
    exact buildSlots_inj sitesI 0 [] (fun s i0 hg => by cases hg)
      (fun s1 s2 i0 hg _ => by cases hg) s1 s2 i hg1 hg2
  · intro s i hg
    have hx := buildSlots_bounded sitesI 0 [] (fun s i0 hg => by cases hg) s i hg
    show i < (buildSites sitesI).length
    unfold buildSites
    rw [List.length_map]
    omega

theorem buildSites_getElem (l : List SiteI) (k : Nat) (si : SiteI)
    (hk : l[k]? = some si) :
    (buildSites l)[k]? = some ⟨si.slot, si.skind, buildPins si.pins⟩ := by
  unfold buildSites
  rw [List.getElem?_map, hk]
  rfl

theorem mergeSites_build :
    ∀ (l : List SiteI) (tk : TileKind) (ls : List (Option Str)) (j : Nat),
      (∀ (k : Nat) (si : SiteI), l[k]? = some si →
        alGet tk.sites_by_slot si.slot = some (j + k) ∧
        tk.sites[j + k]? = some ⟨si.slot, si.skind, buildPins si.pins⟩ ∧
        (si.pins.map (fun e => e.1)).Nodup) →
      ls.length = j →
      mergeSites tk ls l = some (tk, ls ++ l.map (fun si => some si.sname)) := by
  intro l
  induction l with
  | nil =>
    intro tk ls j _ _
    simp only [mergeSites, List.map_nil, List.append_nil]
  | cons si rest ih =>
    intro tk ls j hfacts hlen
    obtain ⟨hb, hsite, hpnd⟩ := hfacts 0 si (by simp)
    rw [Nat.add_zero] at hb hsite
    have hmp : mergeSitePins (buildPins si.pins) si.pins = some (buildPins si.pins) :=
      mergeSitePins_fresh _ hpnd
    have hset : tk.sites.set j ⟨si.slot, si.skind, buildPins si.pins⟩ = tk.sites :=
      listSetSelf _ _ _ hsite
    have hls : setAt ls j none (some si.sname) = ls ++ [some si.sname] := by
      rw [← hlen]
      exact setAt_eq_append ls none (some si.sname)
    have hrec := ih tk (ls ++ [some si.sname]) (j + 1)
      (fun k si2 hk => by
        have h3 := hfacts (k + 1) si2 (by
          rw [List.getElem?_cons_succ]
          exact hk)
        refine ⟨?_, ?_, h3.2.2⟩
        · rw [show j + 1 + k = j + (k + 1) by omega]
          exact h3.1
        · rw [show j + 1 + k = j + (k + 1) by omega]
          exact h3.2.1)
      (by rw [List.length_append, hlen]; rfl)
    simp only [mergeSites, hb, hsite, hmp]
    show mergeSites
      { tk with sites := (tk.sites.set j ⟨si.slot, si.skind, buildPins si.pins⟩) }
      (setAt ls j none (some si.sname)) rest =
      some (tk, ls ++ (si :: rest).map (fun si => some si.sname))
    rw [hset, hls, List.map_cons]
    rw [show ls ++ (some si.sname :: rest.map (fun si => some si.sname)) =
      (ls ++ [some si.sname]) ++ rest.map (fun si => some si.sname) by simp]
    exact hrec

theorem mergePips_fresh_self :
    ∀ (l : List PipI) (tk : TileKind) (lv : List SpeedIdx) (tiles : AList Coord Tile),
      (∀ pa ∈ l, alGet tk.pips (pa.wf, pa.wt) = some ⟨pa.is_buf, pa.is_excluded,
        pa.is_test, pa.inversion, pa.direction, .Const pa.speed⟩) →
      mergePips tk lv tiles l = some (tk, lv, tiles) := by
  intro l
  induction l with
  | nil => intro tk lv tiles _; simp only [mergePips]
  | cons pa rest ih =>
    intro tk lv tiles habs
    have hget := habs pa (List.mem_cons_self _ _)
    simp only [mergePips, hget]
    rw [if_neg (by simp), if_pos trivial]
    exact ih tk lv tiles (fun q hq => habs q (List.mem_cons_of_mem _ hq))

/-- Every component of the builder state except the `tile_kinds` table
agrees between two states (used to isolate the one field a repeated
`add_tile` call actually changes). -/
def sameButKinds (a b : PartBuilder) : Prop :=
  a.part.part = b.part.part ∧ a.part.family = b.part.family ∧
  a.part.source = b.part.source ∧ a.part.width = b.part.width ∧
  a.part.height = b.part.height ∧ a.part.tiles = b.part.tiles ∧
  a.part.speeds = b.part.speeds ∧ a.part.nodes = b.part.nodes ∧
  a.part.templates = b.part.templates ∧ a.part.wires = b.part.wires ∧
  a.part.slot_kinds = b.part.slot_kinds ∧ a.part.packages = b.part.packages ∧
  a.part.combos = b.part.combos ∧ a.tiles_by_name = b.tiles_by_name ∧
  a.speeds_by_name = b.speeds_by_name ∧ a.templates_idx = b.templates_idx ∧
  a.wires_by_name = b.wires_by_name ∧ a.slot_kinds_by_name = b.slot_kinds_by_name

/-- C2 (amended).  Repeating an `add_tile` call with identical arguments
(assuming, as in real dumps, no duplicate wire names, pip endpoint pairs,
site slots or per-site pin names, and a well-formed slot table) leaves
every component of the builder unchanged — same `Tile` record, no
duplicate sites, wires or pips in the `TileKind` — EXCEPT the kind's
recorded tile-coordinate list, which unconditionally gains a second copy
of the coordinate (`tk.tiles.push(coord)` runs on every merge). -/
theorem add_tile_repeat_effect :
    ∀ (st st1 st2 : PartBuilder) (coord : Coord) (name kind : Str)
      (sites : List SiteArg) (wires : List (Str × Option Str)) (pips : List PipArg)
      (wiresI : List (WireIdx × SpeedIdx)) (pipsI : List PipI) (sitesI : List SiteI)
      (st4 : PartBuilder),
      add_tile st coord name kind sites wires pips = some st1 →
      add_tile st1 coord name kind sites wires pips = some st2 →
      addTilePrefix st sites wires pips = some (wiresI, pipsI, sitesI, st4) →
      (wiresI.map Prod.fst).Nodup →
      (pipsI.map (fun p => (p.wf, p.wt))).Nodup →
      (sitesI.map SiteI.slot).Nodup →
      (∀ si ∈ sitesI, (si.pins.map (fun e => e.1)).Nodup) →
      (∀ tk0, alGet st.part.tile_kinds kind = some tk0 → sitesWF tk0) →
      ∃ tk1, alGet st1.part.tile_kinds kind = some tk1 ∧
        st2.part.tile_kinds = alPut st1.part.tile_kinds kind
          { tk1 with tiles := tk1.tiles ++ [coord] } ∧
        sameButKinds st2 st1 := by
  intro st st1 st2 coord name kind sites wires pips wiresI pipsI sitesI st4
    h1 h2 hpre hndW hndP hndS hndPins hwf0
  unfold add_tile at h1 h2
  split at h1
  case isFalse => cases h1
  case isTrue hguard =>
    split at h1
    next => cases h1
    next w1 p1 s1 stD heq =>
      rw [hpre] at heq
      cases heq
      have hfr := addTilePrefix_internsOnly hpre
      split at h1
      next tkPre hk0 =>
        split at h1
        next => cases h1
        next tkA ls hms =>
          split at h1
          next => cases h1
          next tkB lc tilesB hmw =>
            split at h1
            next => cases h1
            next tkC lv tilesC hmp =>
              have hst1 : st1 = { st4 with
                  part := { st4.part with
                    tile_kinds := alPut st4.part.tile_kinds kind
                      { tkC with tiles := tkC.tiles ++ [coord] }
                    tiles := alPut tilesC coord ⟨name, kind, ls, lc, lv⟩ }
                  tiles_by_name := alPut st4.tiles_by_name name coord } :=
                (Option.some.inj h1).symm
              have hkinds1 : st1.part.tile_kinds = alPut st4.part.tile_kinds kind
                  ({ tkC with tiles := tkC.tiles ++ [coord] }) := by rw [hst1]
              have htiles1 : st1.part.tiles =
                  alPut tilesC coord ⟨name, kind, ls, lc, lv⟩ := by rw [hst1]
              have htbn1 : st1.tiles_by_name = alPut st4.tiles_by_name name coord := by
                rw [hst1]
              have hwfPre : sitesWF tkPre := by
                apply hwf0
                rw [← hfr.2.2.2.2.2.1]
                exact hk0
              have hsA : ({ tkC with tiles := tkC.tiles ++ [coord] } : TileKind).sites
                  = tkA.sites := by
                show tkC.sites = tkA.sites
                rw [(mergePips_frame _ hmp).2.2.1, (mergeWires_frame _ hmw).1]
              have hbA : ({ tkC with tiles := tkC.tiles ++ [coord] } :
                  TileKind).sites_by_slot = tkA.sites_by_slot := by
                show tkC.sites_by_slot = tkA.sites_by_slot
                rw [(mergePips_frame _ hmp).2.2.2.1, (mergeWires_frame _ hmw).2.1]
              have hwB : ({ tkC with tiles := tkC.tiles ++ [coord] } : TileKind).wires
                  = tkB.wires := by
                show tkC.wires = tkB.wires
                exact (mergePips_frame _ hmp).1
              have hms2 := mergeSites_sim sitesI
                ({ tkC with tiles := tkC.tiles ++ [coord] }) hwfPre hndS hndPins hms
                hsA hbA
              have hmw2 := mergeWires_sim wiresI
                ({ tkC with tiles := tkC.tiles ++ [coord] }) st1.part.tiles hndW hmw hwB
              have hmp2 := mergePips_sim pipsI
                ({ tkC with tiles := tkC.tiles ++ [coord] }) st1.part.tiles hndP hmp rfl
              have hLE : tablesLE st4 st1 :=
                ⟨fun k v h => by rw [hst1]; exact h,
                 fun k v h => by rw [hst1]; exact h,
                 fun k v h => by rw [hst1]; exact h⟩
              have hfam1 : st1.part.family = st4.part.family := by rw [hst1]
              have hpre2 := addTilePrefix_replay hpre hLE hfam1
              have hlook : alGet st1.part.tile_kinds kind =
                  some ({ tkC with tiles := tkC.tiles ++ [coord] }) := by
                rw [hkinds1]
                exact alGet_alPut_self _ _ _
              split at h2
              case isFalse => cases h2
              case isTrue hguard2 =>
                split at h2
                next => cases h2
                next w2 p2 s2 stP2 hpre20 =>
                  rw [hpre2] at hpre20
                  cases hpre20
                  split at h2
                  next tk2x hk20 =>
                    rw [hlook] at hk20
                    cases hk20
                    split at h2
                    next hms20 =>
                      rw [hms2] at hms20
                      cases hms20
                    next tkA2 ls2 hms20 =>
                      rw [hms2] at hms20
                      cases hms20
                      split at h2
                      next hmw20 =>
                        rw [hmw2] at hmw20
                        cases hmw20
                      next tkB2 lc2 tilesB2 hmw20 =>
                        rw [hmw2] at hmw20
                        cases hmw20
                        split at h2
                        next hmp20 =>
                          rw [hmp2] at hmp20
                          cases hmp20
                        next tkC2 lv2 tilesC2 hmp20 =>
                          rw [hmp2] at hmp20
                          cases hmp20
                          have hst2 : st2 = { st1 with
                              part := { st1.part with
                                tile_kinds := alPut st1.part.tile_kinds kind
                                  { { tkC with tiles := tkC.tiles ++ [coord] } with
                                    tiles := ({ tkC with
                                      tiles := tkC.tiles ++ [coord] } :
                                        TileKind).tiles ++ [coord] }
                                tiles := alPut st1.part.tiles coord
                                  ⟨name, kind, ls, lc, lv⟩ }
                              tiles_by_name := alPut st1.tiles_by_name name coord } :=
                            (Option.some.inj h2).symm
                          refine ⟨{ tkC with tiles := tkC.tiles ++ [coord] }, hlook,
                            by rw [hst2], ?_⟩
                          refine ⟨by rw [hst2], by rw [hst2], by rw [hst2],
                            by rw [hst2], by rw [hst2], ?_, by rw [hst2],
                            by rw [hst2], by rw [hst2], by rw [hst2], by rw [hst2],
                            by rw [hst2], by rw [hst2], ?_, by rw [hst2],
                            by rw [hst2], by rw [hst2], by rw [hst2]⟩
                          · rw [hst2]
                            show alPut st1.part.tiles coord _ = st1.part.tiles
                            apply alPut_self
                            rw [htiles1]
                            exact alGet_alPut_self _ _ _
                          · rw [hst2]
                            show alPut st1.tiles_by_name name coord = st1.tiles_by_name
                            apply alPut_self
                            rw [htbn1]
                            exact alGet_alPut_self _ _ _
                  next hk20 =>
                    rw [hlook] at hk20
                    cases hk20
      next hk0 =>
        have hst1 : st1 = { st4 with
            part := { st4.part with
              tile_kinds := alPut st4.part.tile_kinds kind
                ⟨buildSites sitesI, buildSitesBySlot sitesI, buildWiresMap wiresI,
                  [], buildPipsMap pipsI, [], [coord]⟩
              tiles := alPut st4.part.tiles coord
                ⟨name, kind, sitesI.map (fun si => some si.sname), [], []⟩ }
            tiles_by_name := alPut st4.tiles_by_name name coord } :=
          (Option.some.inj h1).symm
        have hkinds1 : st1.part.tile_kinds = alPut st4.part.tile_kinds kind
            (⟨buildSites sitesI, buildSitesBySlot sitesI, buildWiresMap wiresI,
              [], buildPipsMap pipsI, [], [coord]⟩ : TileKind) := by rw [hst1]
        have htiles1 : st1.part.tiles = alPut st4.part.tiles coord
            ⟨name, kind, sitesI.map (fun si => some si.sname), [], []⟩ := by rw [hst1]
        have htbn1 : st1.tiles_by_name = alPut st4.tiles_by_name name coord := by
          rw [hst1]
        have hms2 : mergeSites
            (⟨buildSites sitesI, buildSitesBySlot sitesI, buildWiresMap wiresI,
              [], buildPipsMap pipsI, [], [coord]⟩ : TileKind) [] sitesI =
            some (⟨buildSites sitesI, buildSitesBySlot sitesI, buildWiresMap wiresI,
              [], buildPipsMap pipsI, [], [coord]⟩,
              sitesI.map (fun si => some si.sname)) := by
          have hx := mergeSites_build sitesI
            (⟨buildSites sitesI, buildSitesBySlot sitesI, buildWiresMap wiresI,
              [], buildPipsMap pipsI, [], [coord]⟩ : TileKind) [] 0
            (fun k si hk => by
              refine ⟨?_, ?_, hndPins si (List.getElem?_mem hk)⟩
              · show alGet (buildSitesBySlot sitesI) si.slot = some (0 + k)
                exact alGet_buildSlots_mem sitesI 0 [] hndS hk
              · show (buildSites sitesI)[0 + k]? = _
                rw [Nat.zero_add]
                exact buildSites_getElem sitesI k si hk) rfl
          simpa using hx
        have hmw2 := mergeWires_fresh_self wiresI
          (⟨buildSites sitesI, buildSitesBySlot sitesI, buildWiresMap wiresI,
            [], buildPipsMap pipsI, [], [coord]⟩ : TileKind) [] st1.part.tiles
          (fun e he => by
            show alGet (buildWiresMap wiresI) e.1 = some (.Internal e.2)
            exact alGet_buildWiresMap_mem wiresI [] hndW he)
        have hmp2 := mergePips_fresh_self pipsI
          (⟨buildSites sitesI, buildSitesBySlot sitesI, buildWiresMap wiresI,
            [], buildPipsMap pipsI, [], [coord]⟩ : TileKind) [] st1.part.tiles
          (fun pa hpa => by
            show alGet (buildPipsMap pipsI) (pa.wf, pa.wt) = _
            exact alGet_buildPipsMap_mem pipsI [] hndP hpa)
        have hLE : tablesLE st4 st1 :=
          ⟨fun k v h => by rw [hst1]; exact h,
           fun k v h => by rw [hst1]; exact h,
           fun k v h => by rw [hst1]; exact h⟩
        have hfam1 : st1.part.family = st4.part.family := by rw [hst1]
        have hpre2 := addTilePrefix_replay hpre hLE hfam1
        have hlook : alGet st1.part.tile_kinds kind =
            some (⟨buildSites sitesI, buildSitesBySlot sitesI, buildWiresMap wiresI,
              [], buildPipsMap pipsI, [], [coord]⟩ : TileKind) := by
          rw [hkinds1]
          exact alGet_alPut_self _ _ _
        split at h2
        case isFalse => cases h2
        case isTrue hguard2 =>
          split at h2
          next => cases h2
          next w2 p2 s2 stP2 hpre20 =>
            rw [hpre2] at hpre20
            cases hpre20
            split at h2
            next tk2x hk20 =>
              rw [hlook] at hk20
              cases hk20
              split at h2
              next hms20 =>
                rw [hms2] at hms20
                cases hms20
              next tkA2 ls2 hms20 =>
                rw [hms2] at hms20
                cases hms20
                split at h2
                next hmw20 =>
                  rw [hmw2] at hmw20
                  cases hmw20
                next tkB2 lc2 tilesB2 hmw20 =>
                  rw [hmw2] at hmw20
                  cases hmw20
                  split at h2
                  next hmp20 =>
                    rw [hmp2] at hmp20
                    cases hmp20
                  next tkC2 lv2 tilesC2 hmp20 =>
                    rw [hmp2] at hmp20
                    cases hmp20
                    have hst2 : st2 = { st1 with
                        part := { st1.part with
                          tile_kinds := alPut st1.part.tile_kinds kind
                            { (⟨buildSites sitesI, buildSitesBySlot sitesI,
                                buildWiresMap wiresI, [], buildPipsMap pipsI, [],
                                [coord]⟩ : TileKind) with tiles := [coord] ++ [coord] }
                          tiles := alPut st1.part.tiles coord
                            ⟨name, kind, sitesI.map (fun si => some si.sname), [], []⟩ }
                        tiles_by_name := alPut st1.tiles_by_name name coord } :=
                      (Option.some.inj h2).symm
                    refine ⟨⟨buildSites sitesI, buildSitesBySlot sitesI,
                      buildWiresMap wiresI, [], buildPipsMap pipsI, [], [coord]⟩,
                      hlook, by rw [hst2], ?_⟩
                    refine ⟨by rw [hst2], by rw [hst2], by rw [hst2],
                      by rw [hst2], by rw [hst2], ?_, by rw [hst2],
                      by rw [hst2], by rw [hst2], by rw [hst2], by rw [hst2],
                      by rw [hst2], by rw [hst2], ?_, by rw [hst2],
                      by rw [hst2], by rw [hst2], by rw [hst2]⟩
                    · rw [hst2]
                      show alPut st1.part.tiles coord _ = st1.part.tiles
                      apply alPut_self
                      rw [htiles1]
                      exact alGet_alPut_self _ _ _
                    · rw [hst2]
                      show alPut st1.tiles_by_name name coord = st1.tiles_by_name
                      apply alPut_self
                      rw [htbn1]
                      exact alGet_alPut_self _ _ _
            next hk20 =>
              rw [hlook] at hk20
              cases hk20

/-- One tile `t0` of kind `T` with wire `A`. -/
def cx2B1 : PartBuilder :=
  (add_tile (PartBuilder.new ['p'] ['f'] Source.ISE 2 1) ⟨0, 0⟩ ['t', '0'] ['T']
    [] [(['A'], none)] []).getD cxFallback

/-- `cx2B1` after a second, argument-identical `add_tile` call. -/
def cx2B2 : PartBuilder :=
  (add_tile cx2B1 ⟨0, 0⟩ ['t', '0'] ['T'] [] [(['A'], none)] []).getD cxFallback

/-- `cx2B2` after a third identical call (used by the amended witness). -/
def cx2B3 : PartBuilder :=
  (add_tile cx2B2 ⟨0, 0⟩ ['t', '0'] ['T'] [] [(['A'], none)] []).getD cxFallback

/-- C2 counterexample: a second `add_tile` call with arguments identical
to the first does NOT leave the `TileKind` unchanged — its recorded
tile-coordinate list gains a duplicate entry for the coordinate. -/
theorem add_tile_repeat_cx :
    add_tile cx2B1 ⟨0, 0⟩ ['t', '0'] ['T'] [] [(['A'], none)] [] = some cx2B2 ∧
    (alGet cx2B1.part.tile_kinds ['T']).map TileKind.tiles = some [⟨0, 0⟩] ∧
    (alGet cx2B2.part.tile_kinds ['T']).map TileKind.tiles =
      some [⟨0, 0⟩, ⟨0, 0⟩] := by
  decide

/-- Witness for C2 (amended) at concrete inputs: the third identical call
repeats the second's effect, duplicating the coordinate once more and
changing nothing else. -/
theorem add_tile_repeat_effect_witness :
    ∃ tk1, alGet cx2B2.part.tile_kinds ['T'] = some tk1 ∧
      cx2B3.part.tile_kinds = alPut cx2B2.part.tile_kinds ['T']
        { tk1 with tiles := tk1.tiles ++ [⟨0, 0⟩] } ∧
      sameButKinds cx2B3 cx2B2 :=
  add_tile_repeat_effect cx2B1 cx2B2 cx2B3 ⟨0, 0⟩ ['t', '0'] ['T'] []
    [(['A'], none)] [] [(⟨0⟩, SpeedIdx.UNKNOWN)] [] [] cx2B1
    (by decide) (by decide) (by decide) (by decide) (by decide) (by decide)
    (by decide)
    (fun tk0 htk => by
      rw [show alGet cx2B1.part.tile_kinds ['T'] = some
        (⟨[], [], [(⟨0⟩, TkWire.Internal SpeedIdx.UNKNOWN)], [], [], [], [⟨0, 0⟩]⟩ :
          TileKind) from by decide] at htk
      cases htk
      exact ⟨fun s1 s2 i hg1 _ => by simp [alGet] at hg1,
        fun s i hg => by simp [alGet] at hg⟩)

/-! ### C1: the serialization round trip -/

/-- Modelled from the spec: how a `(tile, wire)` pair "resolves to a
NodeIdx" — the wire's per-kind state selects the tile's resolved
`conn_wires` slot, absent entries defaulting to `NONE`; an `Internal`
wire (or a missing tile/kind/wire) has no node resolution.  The source
has no single function for this; it is the read path the spec's round
trip statement quantifies over. -/
def resolve_conn_wire (p : Part) (coord : Coord) (w : WireIdx) : Option NodeIdx :=
  match alGet p.tiles coord with
  | none => none
  | some tile =>
    match alGet p.tile_kinds tile.kind with
    | none => none
    | some tk =>
      match alGet tk.wires w with
      | some (.Connected i) => some (tile.conn_wires.getD i NodeIdx.NONE)
      | _ => none

/-- Modelled from the spec: the "effective speed" of a `(tile, pip)`
pair — a `Const` pip's shared speed, or the tile's resolved `var_pips`
slot for a `Variable` pip (absent entries defaulting to `NONE`). -/
def resolve_pip_speed (p : Part) (coord : Coord) (key : WireIdx × WireIdx) :
    Option SpeedIdx :=
  match alGet p.tiles coord with
  | none => none
  | some tile =>
    match alGet p.tile_kinds tile.kind with
    | none => none
    | some tk =>
      match alGet tk.pips key with
      | none => none
      | some pip =>
        match pip.mode with
        | .Const s => some s
        | .Variable i => some (tile.var_pips.getD i SpeedIdx.NONE)

/-- Builder states produced by the public API: `PartBuilder::new` followed
by successful `add_tile` / `add_node` / `add_package` / `add_combo` calls.
The `add_tile` step carries the protocol fact that each grid coordinate is
registered once (the dump readers call `add_tile` exactly once per tile). -/
inductive Reached : PartBuilder → Prop where
  | new (pname family : Str) (source : Source) (w h : Nat) :
      Reached (PartBuilder.new pname family source w h)
  | tile {st st' : PartBuilder} {coord : Coord} {name kind : Str}
      {sites : List SiteArg} {wires : List (Str × Option Str)} {pips : List PipArg} :
      Reached st → alGet st.part.tiles coord = none →
      add_tile st coord name kind sites wires pips = some st' → Reached st'
  | node {st st' : PartBuilder} {ws : List (Str × Str × Option Str)} :
      Reached st → add_node st ws = some st' → Reached st'
  | pkg {st : PartBuilder} (name : Str) (pins : List PkgPin) :
      Reached st → Reached (add_package st name pins)
  | combo {st : PartBuilder} (n d p s t : Str) :
      Reached st → Reached (add_combo st n d p s t)

/-- The structural invariant of builder-produced parts that makes the
`post_deserialize` rebuild faithful: node walks land on registered tiles
whose cache slots hold the node's own index, concrete cache entries come
only from node walks, `Connected` slots are injective and in bounds per
kind, per-tile caches never outgrow their kind, a kind's registered
coordinates carry tiles of that kind, and templates list no duplicate
`(delta, wire)` endpoint. -/
structure Wf (p : Part) : Prop where
  nodesBound : p.nodes.length ≤ 4294967294
  tmplBound : ∀ (i : Nat) (node : TkNode), p.nodes[i]? = some node →
    node.template < p.templates.length
  walk : ∀ (i : Nat) (node : TkNode) (tmpl : TkNodeTemplate)
    (tw : TkNodeTemplateWire), p.nodes[i]? = some node →
    p.templates[node.template]? = some tmpl → tw ∈ tmpl.wires →
    ∃ tile tk idx,
      alGet p.tiles ⟨node.base.x + tw.delta.x, node.base.y + tw.delta.y⟩ = some tile ∧
      alGet p.tile_kinds tile.kind = some tk ∧
      alGet tk.wires tw.wire = some (.Connected idx) ∧
      tile.conn_wires[idx]? = some ⟨i⟩
  conc : ∀ (coord : Coord) (tile : Tile) (idx : Nat) (n : NodeIdx),
    alGet p.tiles coord = some tile →
    tile.conn_wires[idx]? = some n → n ≠ NodeIdx.PENDING → n ≠ NodeIdx.NONE →
    ∃ node tmpl tw tk, p.nodes[n.idx]? = some node ∧
      p.templates[node.template]? = some tmpl ∧ tw ∈ tmpl.wires ∧
      coord = ⟨node.base.x + tw.delta.x, node.base.y + tw.delta.y⟩ ∧
      alGet p.tile_kinds tile.kind = some tk ∧
      alGet tk.wires tw.wire = some (.Connected idx)
  slotInj : ∀ (kind : Str) (tk : TileKind) (w1 w2 : WireIdx) (i : Nat),
    alGet p.tile_kinds kind = some tk →
    alGet tk.wires w1 = some (.Connected i) → alGet tk.wires w2 = some (.Connected i) →
    w1 = w2
  slotBound : ∀ (kind : Str) (tk : TileKind) (w : WireIdx) (i : Nat),
    alGet p.tile_kinds kind = some tk →
    alGet tk.wires w = some (.Connected i) → i < tk.conn_wires.length
  kindOf : ∀ (coord : Coord) (tile : Tile), alGet p.tiles coord = some tile →
    ∃ tk, alGet p.tile_kinds tile.kind = some tk ∧
      tile.conn_wires.length ≤ tk.conn_wires.length
  kindTiles : ∀ (kind : Str) (tk : TileKind) (coord : Coord),
    alGet p.tile_kinds kind = some tk → coord ∈ tk.tiles →
    ∃ tile, alGet p.tiles coord = some tile ∧ tile.kind = kind
  tmplNodup : ∀ (t : Nat) (tmpl : TkNodeTemplate), p.templates[t]? = some tmpl →
    (tmpl.wires.map (fun tw => (tw.delta.x, tw.delta.y, tw.wire))).Nodup

/-- Node `n` claims the cache slot `idx` of the tile at `coord` (one step
of the node/template walk `post_deserialize` replays). -/
def Claims (p : Part) (n : Nat) (coord : Coord) (idx : Nat) : Prop :=
  ∃ (node : TkNode) (tmpl : TkNodeTemplate) (tw : TkNodeTemplateWire)
    (tile : Tile) (tk : TileKind), p.nodes[n]? = some node ∧
    p.templates[node.template]? = some tmpl ∧ tw ∈ tmpl.wires ∧
    coord = ⟨node.base.x + tw.delta.x, node.base.y + tw.delta.y⟩ ∧
    alGet p.tiles coord = some tile ∧ alGet p.tile_kinds tile.kind = some tk ∧
    alGet tk.wires tw.wire = some (.Connected idx)

/-- Some node with index below `i` claims the slot. -/
def ClaimedBelow (p : Part) (i : Nat) (coord : Coord) (idx : Nat) : Prop :=
  ∃ n, n < i ∧ Claims p n coord idx

/-- The slot is claimed by an entry of `ws` walked from `node.base`. -/
def ClaimsVia (p : Part) (node : TkNode) (ws : List TkNodeTemplateWire)
    (coord : Coord) (idx : Nat) : Prop :=
  ∃ tw ∈ ws, coord = ⟨node.base.x + tw.delta.x, node.base.y + tw.delta.y⟩ ∧
    ∃ (tile : Tile) (tk : TileKind), alGet p.tiles coord = some tile ∧
      alGet p.tile_kinds tile.kind = some tk ∧
      alGet tk.wires tw.wire = some (.Connected idx)

theorem claims_entry {p : Part} (hwf : Wf p) {n : Nat} {coord : Coord} {idx : Nat}
    (h : Claims p n coord idx) :
    ∃ tile, alGet p.tiles coord = some tile ∧ tile.conn_wires[idx]? = some ⟨n⟩ := by
  obtain ⟨node, tmpl, tw, tile, tk, hnode, htm, htw, hcoord, htile, htk, hwire⟩ := h
  obtain ⟨tile2, tk2, idx2, htile2, htk2, hwire2, hentry2⟩ :=
    hwf.walk n node tmpl tw hnode htm htw
  rw [← hcoord] at htile2
  rw [htile2] at htile
  cases htile
  rw [htk2] at htk
  cases htk
  rw [hwire2] at hwire
  cases hwire
  exact ⟨tile, htile2, hentry2⟩

theorem claims_unique {p : Part} (hwf : Wf p) {n m : Nat} {coord : Coord} {idx : Nat}
    (h1 : Claims p n coord idx) (h2 : Claims p m coord idx) : n = m := by
  obtain ⟨t1, ht1, he1⟩ := claims_entry hwf h1
  obtain ⟨t2, ht2, he2⟩ := claims_entry hwf h2
  rw [ht1] at ht2
  cases ht2
  rw [he1] at he2
  cases he2
  rfl

theorem claims_lt {p : Part} {n : Nat} {coord : Coord} {idx : Nat}
    (h : Claims p n coord idx) : n < p.nodes.length := by
  obtain ⟨node, _, _, _, _, hnode, _⟩ := h
  by_contra hc
  rw [List.getElem?_eq_none (by omega)] at hnode
  cases hnode

theorem conc_claims {p : Part} (hwf : Wf p) {coord : Coord} {tile : Tile} {idx : Nat}
    {n : NodeIdx} (htile : alGet p.tiles coord = some tile)
    (hentry : tile.conn_wires[idx]? = some n) (hp : n ≠ NodeIdx.PENDING)
    (hn : n ≠ NodeIdx.NONE) : Claims p n.idx coord idx := by
  obtain ⟨node, tmpl, tw, tk, hnode, htm, htw, hcoord, htk, hwire⟩ :=
    hwf.conc coord tile idx n htile hentry hp hn
  exact ⟨node, tmpl, tw, tile, tk, hnode, htm, htw, hcoord, htile, htk, hwire⟩

/-- Everything but the tile map survives `post_deserialize` unchanged. -/
def pdFrame (q p : Part) : Prop :=
  q.part = p.part ∧ q.family = p.family ∧ q.source = p.source ∧
  q.width = p.width ∧ q.height = p.height ∧ q.tile_kinds = p.tile_kinds ∧
  q.speeds = p.speeds ∧ q.nodes = p.nodes ∧ q.templates = p.templates ∧
  q.wires = p.wires ∧ q.slot_kinds = p.slot_kinds ∧ q.packages = p.packages ∧
  q.combos = p.combos

/-- The rebuilt tile map mid-rebuild: registered coordinates survive with
identical metadata, and a cache slot holds the original value where the
claim predicate `C` holds and the `NONE` default elsewhere. -/
def RelTiles (p q : Part) (C : Coord → Nat → Prop) : Prop :=
  ∀ (coord : Coord),
    (alGet p.tiles coord = none → alGet q.tiles coord = none) ∧
    ∀ (tileP : Tile), alGet p.tiles coord = some tileP →
      ∃ tileQ, alGet q.tiles coord = some tileQ ∧
        tileQ.name = tileP.name ∧ tileQ.kind = tileP.kind ∧
        tileQ.sites = tileP.sites ∧ tileQ.var_pips = tileP.var_pips ∧
        ∀ (idx : Nat),
          (C coord idx → tileQ.conn_wires.getD idx NodeIdx.NONE =
            tileP.conn_wires.getD idx NodeIdx.NONE) ∧
          (¬ C coord idx → tileQ.conn_wires.getD idx NodeIdx.NONE = NodeIdx.NONE)

theorem relTiles_congr {p q : Part} {C C2 : Coord → Nat → Prop}
    (h : RelTiles p q C) (he : ∀ c j, C c j ↔ C2 c j) : RelTiles p q C2 := by
  intro coord
  refine ⟨(h coord).1, ?_⟩
  intro tileP htileP
  obtain ⟨tileQ, hq, h1, h2, h3, h4, h5⟩ := (h coord).2 tileP htileP
  refine ⟨tileQ, hq, h1, h2, h3, h4, ?_⟩
  intro idx
  exact ⟨fun hc => (h5 idx).1 ((he coord idx).mpr hc),
    fun hc => (h5 idx).2 (fun hx => hc ((he coord idx).mp hx))⟩

theorem setAt_getD {α : Type} (l : List α) (i j : Nat) (d v : α) :
    (setAt l i d v).getD j d = if j = i then v else l.getD j d := by
  by_cases h : j = i
  · subst h
    rw [if_pos rfl, List.getD_eq_getElem?_getD, setAt_getElem?_self]
    rfl
  · rw [if_neg h, List.getD_eq_getElem?_getD, setAt_getElem?_ne _ _ _ h,
      List.getD_eq_getElem?_getD]
    by_cases hl : j < l.length
    · rw [if_pos hl]
    · rw [if_neg hl, List.getElem?_eq_none (by omega)]
      by_cases hi : j < i + 1
      · rw [if_pos hi]
        rfl
      · rw [if_neg hi]

theorem relTiles_update {p q : Part} {C : Coord → Nat → Prop} {c0 : Coord}
    {tileP tileQ : Tile} {idx0 : Nat} {v : NodeIdx}
    (h : RelTiles p q C) (hp : alGet p.tiles c0 = some tileP)
    (hv : tileP.conn_wires[idx0]? = some v)
    (hq : alGet q.tiles c0 = some tileQ) :
    RelTiles p
      { q with tiles := (alPut q.tiles c0 { tileQ with conn_wires := setAt tileQ.conn_wires idx0 NodeIdx.NONE v }) }
      (fun c j => C c j ∨ (c = c0 ∧ j = idx0)) := by
  intro coord
  by_cases hco : coord = c0
  · subst hco
    constructor
    · intro hnone
      rw [hnone] at hp
      cases hp
    · intro tileP2 htileP2
      rw [hp] at htileP2
      cases htileP2
      obtain ⟨tileQ2, hq2, h1, h2, h3, h4, h5⟩ := (h coord).2 tileP hp
      rw [hq] at hq2
      cases hq2
      refine ⟨{ tileQ with conn_wires := setAt tileQ.conn_wires idx0 NodeIdx.NONE v },
        ?_, h1, h2, h3, h4, ?_⟩
      · exact alGet_alPut_self _ _ _
      · intro idx
        by_cases hidx : idx = idx0
        · subst hidx
          constructor
          · intro _
            show (setAt tileQ.conn_wires idx NodeIdx.NONE v).getD idx NodeIdx.NONE = _
            rw [setAt_getD, if_pos rfl, List.getD_eq_getElem?_getD, hv]
            rfl
          · intro hc
            exact absurd (Or.inr ⟨rfl, rfl⟩) hc
        · constructor
          · intro hc
            have hc2 : C coord idx := by
              cases hc with
              | inl hx => exact hx
              | inr hx => exact absurd hx.2 hidx
            show (setAt tileQ.conn_wires idx0 NodeIdx.NONE v).getD idx NodeIdx.NONE = _
            rw [setAt_getD, if_neg hidx]
            exact (h5 idx).1 hc2
          · intro hc
            have hc2 : ¬ C coord idx := fun hx => hc (Or.inl hx)
            show (setAt tileQ.conn_wires idx0 NodeIdx.NONE v).getD idx NodeIdx.NONE = _
            rw [setAt_getD, if_neg hidx]
            exact (h5 idx).2 hc2
  · constructor
    · intro hnone
      show alGet (alPut q.tiles c0 _) coord = none
      rw [alGet_alPut_ne _ _ hco]
      exact (h coord).1 hnone
    · intro tileP2 htileP2
      obtain ⟨tileQ2, hq2, h1, h2, h3, h4, h5⟩ := (h coord).2 tileP2 htileP2
      refine ⟨tileQ2, ?_, h1, h2, h3, h4, ?_⟩
      · show alGet (alPut q.tiles c0 _) coord = _
        rw [alGet_alPut_ne _ _ hco]
        exact hq2
      · intro idx
        constructor
        · intro hc
          have hc2 : C coord idx := by
            cases hc with
            | inl hx => exact hx
            | inr hx => exact absurd hx.1 hco
          exact (h5 idx).1 hc2
        · intro hc
          exact (h5 idx).2 (fun hx => hc (Or.inl hx))

theorem alGet_map_val {K V W : Type} [DecidableEq K] (f : V → W) :
    ∀ (m : AList K V) (k : K),
      alGet (m.map (fun e => (e.1, f e.2))) k = (alGet m k).map f := by
  intro m
  induction m with
  | nil => intro k; rfl
  | cons e rest ih =>
    intro k
    obtain ⟨k0, v0⟩ := e
    show (if k0 = k then some (f v0) else alGet (rest.map _) k) = _
    by_cases h : k0 = k
    · rw [if_pos h]
      show _ = (if k0 = k then some v0 else alGet rest k).map f
      rw [if_pos h]
      rfl
    · rw [if_neg h]
      show _ = (if k0 = k then some v0 else alGet rest k).map f
      rw [if_neg h]
      exact ih k

theorem set_conn_wire_none_eq (t : Tile) (idx : Nat) (val : NodeIdx)
    (h : t.conn_wires.getD idx NodeIdx.NONE = NodeIdx.NONE) :
    t.set_conn_wire idx val =
      some { t with conn_wires := setAt t.conn_wires idx NodeIdx.NONE val } := by
  unfold Tile.set_conn_wire
  rw [if_neg]
  · rfl
  · rw [padTo_getD, h]
    intro hc
    exact hc.2.1 rfl

theorem pdWires_spec (p : Part) (hwf : Wf p) (i : Nat) (node : TkNode)
    (tmpl : TkNodeTemplate) (hnode : p.nodes[i]? = some node)
    (htm : p.templates[node.template]? = some tmpl) :
    ∀ (ws done : List TkNodeTemplateWire), tmpl.wires = done ++ ws →
      ∀ (q : Part), pdFrame q p →
        RelTiles p q (fun c j => ClaimedBelow p i c j ∨ ClaimsVia p node done c j) →
        ∃ q1, pdWires q node.base ws i = some q1 ∧ pdFrame q1 p ∧
          RelTiles p q1 (fun c j => ClaimedBelow p i c j ∨
            ClaimsVia p node (done ++ ws) c j) := by
  intro ws
  induction ws with
  | nil =>
    intro done happ q hfr hrel
    refine ⟨q, rfl, hfr, relTiles_congr hrel ?_⟩
    intro c j
    rw [List.append_nil]
  | cons tw ws2 ih =>
    intro done happ q hfr hrel
    have htw : tw ∈ tmpl.wires := by
      rw [happ]
      exact List.mem_append_right _ (List.mem_cons_self _ _)
    obtain ⟨tileP, tkP, idx, htileP, htkP, hwire, hentry⟩ :=
      hwf.walk i node tmpl tw hnode htm htw
    have hclaims : Claims p i ⟨node.base.x + tw.delta.x, node.base.y + tw.delta.y⟩
        idx := ⟨node, tmpl, tw, tileP, tkP, hnode, htm, htw, rfl, htileP, htkP, hwire⟩
    obtain ⟨tileQ, hq, hname, hkind, hsites, hvp, hconn⟩ := (hrel _).2 tileP htileP
    have hnot : ¬ (ClaimedBelow p i
        ⟨node.base.x + tw.delta.x, node.base.y + tw.delta.y⟩ idx ∨
        ClaimsVia p node done
          ⟨node.base.x + tw.delta.x, node.base.y + tw.delta.y⟩ idx) := by
      intro hc
      cases hc with
      | inl hx =>
        obtain ⟨n, hn, hcl⟩ := hx
        have := claims_unique hwf hcl hclaims
        omega
      | inr hx =>
        obtain ⟨tw2, htw2, hcoord2, tile2, tk2, htile2, htk2, hwire2⟩ := hx
        rw [htileP] at htile2
        cases htile2
        rw [htkP] at htk2
        cases htk2
        have hweq : tw2.wire = tw.wire :=
          hwf.slotInj tileP.kind tkP tw2.wire tw.wire idx htkP hwire2 hwire
        rw [Coord.mk.injEq] at hcoord2
        have hdx : tw2.delta.x = tw.delta.x := by omega
        have hdy : tw2.delta.y = tw.delta.y := by omega
        have hnd := hwf.tmplNodup node.template tmpl htm
        rw [happ, List.map_append, List.map_cons] at hnd
        have hdisj := (List.nodup_append.mp hnd).2.2
        have hmem1 : (tw2.delta.x, tw2.delta.y, tw2.wire) ∈
            done.map (fun tw => (tw.delta.x, tw.delta.y, tw.wire)) :=
          List.mem_map.mpr ⟨tw2, htw2, rfl⟩
        rw [hdx, hdy, hweq] at hmem1
        exact hdisj hmem1 (List.mem_cons_self _ _)
    have hcur : tileQ.conn_wires.getD idx NodeIdx.NONE = NodeIdx.NONE :=
      (hconn idx).2 hnot
    have hilen : i < p.nodes.length := by
      by_contra hc
      rw [List.getElem?_eq_none (by omega)] at hnode
      cases hnode
    have hfrw : NodeIdx.from_raw i = some ⟨i⟩ := by
      unfold NodeIdx.from_raw
      rw [if_pos (by have := hwf.nodesBound; omega)]
    have hscw := set_conn_wire_none_eq tileQ idx ⟨i⟩ hcur
    have hrel2 := relTiles_update hrel htileP hentry hq
    have hrel3 : RelTiles p
        { q with tiles := (alPut q.tiles
            ⟨node.base.x + tw.delta.x, node.base.y + tw.delta.y⟩
            { tileQ with conn_wires := setAt tileQ.conn_wires idx NodeIdx.NONE ⟨i⟩ }) }
        (fun c j => ClaimedBelow p i c j ∨
          ClaimsVia p node (done ++ [tw]) c j) := by
      apply relTiles_congr hrel2
      intro c j
      constructor
      · intro hx
        cases hx with
        | inl hy =>
          cases hy with
          | inl hz => exact Or.inl hz
          | inr hz =>
            obtain ⟨tw2, htw2, hrest⟩ := hz
            exact Or.inr ⟨tw2, List.mem_append_left _ htw2, hrest⟩
        | inr hy =>
          obtain ⟨hc1, hc2⟩ := hy
          subst hc1
          subst hc2
          exact Or.inr ⟨tw, List.mem_append_right _ (List.mem_cons_self _ _),
            rfl, tileP, tkP, htileP, htkP, hwire⟩
      · intro hx
        cases hx with
        | inl hy => exact Or.inl (Or.inl hy)
        | inr hy =>
          obtain ⟨tw2, htw2, hcoord2, tile2, tk2, htile2, htk2, hwire2⟩ := hy
          rw [List.mem_append] at htw2
          cases htw2 with
          | inl hz => exact Or.inl (Or.inr ⟨tw2, hz, hcoord2, tile2, tk2,
              htile2, htk2, hwire2⟩)
          | inr hz =>
            have htweq : tw2 = tw := by
              cases hz with
              | head => rfl
              | tail _ hz2 => cases hz2
            subst htweq
            subst hcoord2
            rw [htileP] at htile2
            cases htile2
            rw [htkP] at htk2
            cases htk2
            rw [hwire] at hwire2
            cases hwire2
            exact Or.inr ⟨rfl, rfl⟩
    obtain ⟨q1, hrun, hfr1, hrel4⟩ := ih (done ++ [tw])
      (by rw [happ, List.append_assoc, List.singleton_append])
      ({ q with tiles := (alPut q.tiles
          ⟨node.base.x + tw.delta.x, node.base.y + tw.delta.y⟩
          { tileQ with conn_wires := setAt tileQ.conn_wires idx NodeIdx.NONE ⟨i⟩ }) })
      hfr hrel3
    refine ⟨q1, ?_, hfr1, relTiles_congr hrel4 (fun c j => by
      rw [List.append_assoc, List.singleton_append])⟩
    have htkQ : alGet q.tile_kinds tileQ.kind = some tkP := by
      rw [hfr.2.2.2.2.2.1, hkind]
      exact htkP
    simp only [pdWires, hq, htkQ, hwire, hfrw, hscw]
    exact hrun

theorem pdNodes_spec (p : Part) (hwf : Wf p) :
    ∀ (rest : List TkNode) (i : Nat) (q : Part), p.nodes.drop i = rest →
      pdFrame q p → RelTiles p q (fun c j => ClaimedBelow p i c j) →
      ∃ q1, pdNodes q rest i = some q1 ∧ pdFrame q1 p ∧
        RelTiles p q1 (fun c j => ClaimedBelow p p.nodes.length c j) := by
  intro rest
  induction rest with
  | nil =>
    intro i q hdrop hfr hrel
    have hlen : p.nodes.length ≤ i := by
      have hx := congrArg List.length hdrop
      simp only [List.length_drop, List.length_nil] at hx
      omega
    refine ⟨q, rfl, hfr, relTiles_congr hrel ?_⟩
    intro c j
    constructor
    · rintro ⟨n, hn, hcl⟩
      exact ⟨n, claims_lt hcl, hcl⟩
    · rintro ⟨n, hn, hcl⟩
      refine ⟨n, ?_, hcl⟩
      have := claims_lt hcl
      omega
  | cons node rest2 ih =>
    intro i q hdrop hfr hrel
    have hnode : p.nodes[i]? = some node := by
      have h0 : (p.nodes.drop i)[0]? = some node := by
        rw [hdrop]
        exact List.getElem?_cons_zero
      rw [List.getElem?_drop, Nat.add_zero] at h0
      exact h0
    have hdrop2 : p.nodes.drop (i + 1) = rest2 := by
      have hdd : p.nodes.drop (i + 1) = (p.nodes.drop i).drop 1 := by
        rw [List.drop_drop, Nat.add_comm]
      rw [hdd, hdrop]
      rfl
    have htmplt := hwf.tmplBound i node hnode
    obtain ⟨tmpl, htm⟩ : ∃ tmpl, p.templates[node.template]? = some tmpl :=
      ⟨_, List.getElem?_eq_getElem htmplt⟩
    obtain ⟨q1, hrun, hfr1, hrelw⟩ := pdWires_spec p hwf i node tmpl hnode htm
      tmpl.wires [] (by rw [List.nil_append]) q hfr
      (relTiles_congr hrel (fun c j => by
        constructor
        · intro hx
          exact Or.inl hx
        · intro hx
          cases hx with
          | inl h => exact h
          | inr h =>
            obtain ⟨tw, htw, _⟩ := h
            cases htw))
    have hrel2 : RelTiles p q1 (fun c j => ClaimedBelow p (i + 1) c j) := by
      apply relTiles_congr hrelw
      intro c j
      constructor
      · intro hx
        cases hx with
        | inl h =>
          obtain ⟨n, hn, hcl⟩ := h
          exact ⟨n, by omega, hcl⟩
        | inr h =>
          obtain ⟨tw, htw, hcoord, tile, tk, htile, htk, hwire⟩ := h
          refine ⟨i, by omega, node, tmpl, tw, tile, tk, hnode, htm, ?_,
            hcoord, htile, htk, hwire⟩
          simpa using htw
      · rintro ⟨n, hn, hcl⟩
        by_cases hni : n < i
        · exact Or.inl ⟨n, hni, hcl⟩
        · have hn2 : n = i := by omega
          subst hn2
          obtain ⟨node2, tmpl2, tw, tile, tk, hnode2, htm2, htw, hcoord,
            htile, htk, hwire⟩ := hcl
          rw [hnode] at hnode2
          cases hnode2
          rw [htm] at htm2
          cases htm2
          exact Or.inr ⟨tw, by simpa using htw, hcoord, tile, tk,
            htile, htk, hwire⟩
    obtain ⟨qF, hrunF, hfrF, hrelF⟩ := ih (i + 1) q1 hdrop2 hfr1 hrel2
    refine ⟨qF, ?_, hfrF, hrelF⟩
    have htmq : q.templates[node.template]? = some tmpl := by
      rw [hfr.2.2.2.2.2.2.2.2.1]
      exact htm
    simp only [pdNodes, htmq, hrun, hrunF]

theorem from_file_model_spec (p : Part) (hwf : Wf p) :
    ∃ p1, from_file_model p = some p1 ∧ pdFrame p1 p ∧
      RelTiles p p1 (fun c j => ClaimedBelow p p.nodes.length c j) := by
  have hfr0 : pdFrame (stripPart p) p :=
    ⟨rfl, rfl, rfl, rfl, rfl, rfl, rfl, rfl, rfl, rfl, rfl, rfl, rfl⟩
  have hrel0 : RelTiles p (stripPart p) (fun c j => ClaimedBelow p 0 c j) := by
    intro coord
    constructor
    · intro hnone
      show alGet (p.tiles.map (fun e => (e.1, stripTile e.2))) coord = none
      rw [alGet_map_val, hnone]
      rfl
    · intro tileP htileP
      refine ⟨stripTile tileP, ?_, rfl, rfl, rfl, rfl, ?_⟩
      · show alGet (p.tiles.map (fun e => (e.1, stripTile e.2))) coord = _
        rw [alGet_map_val, htileP]
        rfl
      · intro idx
        constructor
        · rintro ⟨n, hn, _⟩
          omega
        · intro _
          rfl
  obtain ⟨p1, hrun, hfr1, hrel1⟩ := pdNodes_spec p hwf p.nodes 0 (stripPart p)
    (by rw [List.drop_zero]) hfr0 hrel0
  exact ⟨p1, hrun, hfr1, hrel1⟩

theorem Wf_transport {p q : Part} (hw : Wf p) (h1 : q.nodes = p.nodes)
    (h2 : q.templates = p.templates) (h3 : q.tiles = p.tiles)
    (h4 : q.tile_kinds = p.tile_kinds) : Wf q := by
  constructor
  · rw [h1]; exact hw.nodesBound
  · intro i node hn
    rw [h1] at hn
    rw [h2]
    exact hw.tmplBound i node hn
  · intro i node tmpl tw hn htm htw
    rw [h1] at hn
    rw [h2] at htm
    rw [h3, h4]
    exact hw.walk i node tmpl tw hn htm htw
  · intro coord tile idx n htile hentry hp hn
    rw [h3] at htile
    rw [h1, h2, h4]
    exact hw.conc coord tile idx n htile hentry hp hn
  · intro kind tk w1 w2 i htk
    rw [h4] at htk
    exact hw.slotInj kind tk w1 w2 i htk
  · intro kind tk w i htk
    rw [h4] at htk
    exact hw.slotBound kind tk w i htk
  · intro coord tile htile
    rw [h3] at htile
    rw [h4]
    exact hw.kindOf coord tile htile
  · intro kind tk coord htk hmem
    rw [h4] at htk
    rw [h3]
    exact hw.kindTiles kind tk coord htk hmem
  · intro t tmpl htm
    rw [h2] at htm
    exact hw.tmplNodup t tmpl htm

/-- The kind-level pieces of `Wf` that the endpoint-assignment machinery
threads through intermediate states. -/
structure KindsWF (p : Part) : Prop where
  slotInj : ∀ (kind : Str) (tk : TileKind) (w1 w2 : WireIdx) (i : Nat),
    alGet p.tile_kinds kind = some tk →
    alGet tk.wires w1 = some (.Connected i) → alGet tk.wires w2 = some (.Connected i) →
    w1 = w2
  slotBound : ∀ (kind : Str) (tk : TileKind) (w : WireIdx) (i : Nat),
    alGet p.tile_kinds kind = some tk →
    alGet tk.wires w = some (.Connected i) → i < tk.conn_wires.length
  kindOf : ∀ (coord : Coord) (tile : Tile), alGet p.tiles coord = some tile →
    ∃ tk, alGet p.tile_kinds tile.kind = some tk ∧
      tile.conn_wires.length ≤ tk.conn_wires.length
  kindTiles : ∀ (kind : Str) (tk : TileKind) (coord : Coord),
    alGet p.tile_kinds kind = some tk → coord ∈ tk.tiles →
    ∃ tile, alGet p.tiles coord = some tile ∧ tile.kind = kind

theorem Wf.kindsWF {p : Part} (hw : Wf p) : KindsWF p :=
  ⟨hw.slotInj, hw.slotBound, hw.kindOf, hw.kindTiles⟩

/-- Allocating a fresh `Connected` slot for a wire that was not `Connected`
preserves slot injectivity and bounds. -/
theorem slots_extend {tk : TileKind} {w : WireIdx}
    (hinj : ∀ (w1 w2 : WireIdx) (i : Nat), alGet tk.wires w1 = some (.Connected i) →
      alGet tk.wires w2 = some (.Connected i) → w1 = w2)
    (hbound : ∀ (w0 : WireIdx) (i : Nat), alGet tk.wires w0 = some (.Connected i) →
      i < tk.conn_wires.length) :
    (∀ (w1 w2 : WireIdx) (i : Nat),
      alGet (alPut tk.wires w (.Connected tk.conn_wires.length)) w1 =
        some (.Connected i) →
      alGet (alPut tk.wires w (.Connected tk.conn_wires.length)) w2 =
        some (.Connected i) → w1 = w2) ∧
    (∀ (w0 : WireIdx) (i : Nat),
      alGet (alPut tk.wires w (.Connected tk.conn_wires.length)) w0 =
        some (.Connected i) → i < (tk.conn_wires ++ [w]).length) := by
  constructor
  · intro w1 w2 i h1 h2
    rw [alGet_alPut] at h1 h2
    by_cases e1 : w1 = w
    · rw [if_pos e1] at h1
      by_cases e2 : w2 = w
      · rw [e1, e2]
      · rw [if_neg e2] at h2
        cases h1
        have := hbound w2 _ h2
        omega
    · rw [if_neg e1] at h1
      by_cases e2 : w2 = w
      · rw [if_pos e2] at h2
        cases h2
        have := hbound w1 _ h1
        omega
      · rw [if_neg e2] at h2
        exact hinj w1 w2 i h1 h2
  · intro w0 i h
    rw [alGet_alPut] at h
    rw [List.length_append, List.length_singleton]
    by_cases e : w0 = w
    · rw [if_pos e] at h
      cases h
      omega
    · rw [if_neg e] at h
      have := hbound w0 _ h
      omega

theorem buildWiresMap_internal :
    ∀ (l : List (WireIdx × SpeedIdx)) (m : AList WireIdx TkWire),
      (∀ (w : WireIdx) (v : TkWire), alGet m w = some v → ∃ s, v = .Internal s) →
      ∀ (w : WireIdx) (v : TkWire),
        alGet (l.foldl (fun m e => alPut m e.1 (.Internal e.2)) m) w = some v →
        ∃ s, v = .Internal s := by
  intro l
  induction l with
  | nil => intro m hm w v h; exact hm w v h
  | cons e rest ih =>
    intro m hm w v h
    simp only [List.foldl_cons] at h
    refine ih _ ?_ w v h
    intro w0 v0 h0
    rw [alGet_alPut] at h0
    by_cases he : w0 = e.1
    · rw [if_pos he] at h0
      cases h0
      exact ⟨e.2, rfl⟩
    · rw [if_neg he] at h0
      exact hm w0 v0 h0

theorem set_conn_wire_pending (t : Tile) (idx : Nat) :
    t.set_conn_wire idx NodeIdx.PENDING =
      some { t with conn_wires := setAt t.conn_wires idx NodeIdx.NONE NodeIdx.PENDING } := by
  simp only [Tile.set_conn_wire]
  rw [if_neg]
  · rfl
  · intro hc
    exact hc.2.2 rfl

theorem setAt_fwd {α : Type} (l : List α) {i j : Nat} (d v : α) (h : j ≠ i)
    {w : α} (hw : l[j]? = some w) : (setAt l i d v)[j]? = some w := by
  have hlt : j < l.length := by
    by_contra hc
    rw [List.getElem?_eq_none (by omega)] at hw
    cases hw
  rw [setAt_getElem?_ne _ _ _ h, if_pos hlt]
  exact hw

theorem setAt_bwd {α : Type} (l : List α) {i j : Nat} (d v : α) {w : α}
    (hw : (setAt l i d v)[j]? = some w) : l[j]? = some w ∨ w = v ∨ w = d := by
  by_cases hj : j = i
  · subst hj
    rw [setAt_getElem?_self] at hw
    cases hw
    exact Or.inr (Or.inl rfl)
  · rw [setAt_getElem?_ne _ _ _ hj] at hw
    by_cases hl : j < l.length
    · rw [if_pos hl] at hw
      exact Or.inl hw
    · rw [if_neg hl] at hw
      by_cases hi2 : j < i + 1
      · rw [if_pos hi2] at hw
        cases hw
        exact Or.inr (Or.inr rfl)
      · rw [if_neg hi2] at hw
        cases hw

/-- Pointwise effect of `backfillPending`: entries at slots other than `i`
are preserved, and every new entry is `PENDING` (the written value) or `NONE`
(padding); metadata and absence are preserved. -/
theorem backfill_char :
    ∀ (crds : List Coord) {tiles : AList Coord Tile} {i : Nat}
      {tiles1 : AList Coord Tile},
      backfillPending tiles crds i = some tiles1 →
      (∀ crd, crd ∉ crds → alGet tiles1 crd = alGet tiles crd) ∧
      (∀ crd, alGet tiles crd = none → alGet tiles1 crd = none) ∧
      (∀ crd t, alGet tiles crd = some t → ∃ t1, alGet tiles1 crd = some t1 ∧
        t1.name = t.name ∧ t1.kind = t.kind ∧ t1.sites = t.sites ∧
        t1.var_pips = t.var_pips ∧
        (∀ (j : Nat) (v : NodeIdx), j ≠ i → t.conn_wires[j]? = some v →
          t1.conn_wires[j]? = some v) ∧
        (∀ (j : Nat) (v : NodeIdx), t1.conn_wires[j]? = some v →
          t.conn_wires[j]? = some v ∨
          v = NodeIdx.PENDING ∨ v = NodeIdx.NONE) ∧
        t1.conn_wires.length ≤ max t.conn_wires.length (i + 1)) := by
  intro crds
  induction crds with
  | nil =>
    intro tiles i tiles1 h
    simp only [backfillPending] at h
    cases h
    refine ⟨fun _ _ => rfl, fun _ h => h, ?_⟩
    intro crd t ht
    exact ⟨t, ht, rfl, rfl, rfl, rfl, fun _ _ _ hv => hv,
      fun j v hv => Or.inl hv, by omega⟩
  | cons crd0 rest ih =>
    intro tiles i tiles1 h
    simp only [backfillPending] at h
    split at h
    next => cases h
    next t0 ht0 =>
      split at h
      next => cases h
      next t0b hset =>
        rw [set_conn_wire_pending] at hset
        cases hset
        obtain ⟨ihA, ihB, ihC⟩ := ih h
        have hstep : ∀ crd t, alGet tiles crd = some t →
            ∃ t1, alGet (alPut tiles crd0
              { t0 with conn_wires := setAt t0.conn_wires i NodeIdx.NONE NodeIdx.PENDING }) crd = some t1 ∧
              t1.name = t.name ∧ t1.kind = t.kind ∧ t1.sites = t.sites ∧
              t1.var_pips = t.var_pips ∧
              (∀ (j : Nat) (v : NodeIdx), j ≠ i → t.conn_wires[j]? = some v →
                t1.conn_wires[j]? = some v) ∧
              (∀ (j : Nat) (v : NodeIdx), t1.conn_wires[j]? = some v →
                t.conn_wires[j]? = some v ∨
                v = NodeIdx.PENDING ∨ v = NodeIdx.NONE) ∧
              t1.conn_wires.length ≤ max t.conn_wires.length (i + 1) := by
          intro crd t ht
          by_cases he : crd = crd0
          · subst he
            rw [ht0] at ht
            cases ht
            refine ⟨_, alGet_alPut_self _ _ _, rfl, rfl, rfl, rfl, ?_, ?_, ?_⟩
            · intro j v hj hv
              exact setAt_fwd _ _ _ hj hv
            · intro j v hv
              exact setAt_bwd _ _ _ hv
            · show (setAt t0.conn_wires i NodeIdx.NONE NodeIdx.PENDING).length ≤ _
              rw [setAt_length]
          · refine ⟨t, ?_, rfl, rfl, rfl, rfl, fun _ _ _ hv => hv,
              fun j v hv => Or.inl hv, by omega⟩
            rw [alGet_alPut_ne _ _ he]
            exact ht
        refine ⟨?_, ?_, ?_⟩
        · intro crd hmem
          simp only [List.mem_cons, not_or] at hmem
          rw [ihA crd hmem.2, alGet_alPut_ne _ _ hmem.1]
        · intro crd hnone
          by_cases he : crd = crd0
          · subst he
            rw [hnone] at ht0
            cases ht0
          · apply ihB
            rw [alGet_alPut_ne _ _ he]
            exact hnone
        · intro crd t ht
          obtain ⟨t1, ht1, f1, f2, f3, f4, f5, f6, f7⟩ := hstep crd t ht
          obtain ⟨t2, ht2, g1, g2, g3, g4, g5, g6, g7⟩ := ihC crd t1 ht1
          refine ⟨t2, ht2, g1.trans f1, g2.trans f2, g3.trans f3, g4.trans f4,
            ?_, ?_, ?_⟩
          · intro j v hj hv
            exact g5 j v hj (f5 j v hj hv)
          · intro j v hv
            cases g6 j v hv with
            | inl hx => exact f6 j v hx
            | inr hx => exact Or.inr hx
          · calc t2.conn_wires.length ≤ max t1.conn_wires.length (i + 1) := g7
              _ ≤ max t.conn_wires.length (i + 1) := by omega

theorem mergeWires_conn_mono :
    ∀ (l : List (WireIdx × SpeedIdx)) {tk : TileKind} {lc : List NodeIdx}
      {tiles : AList Coord Tile} {tk' : TileKind} {lc' : List NodeIdx}
      {tiles' : AList Coord Tile},
      mergeWires tk lc tiles l = some (tk', lc', tiles') →
      tk.conn_wires.length ≤ tk'.conn_wires.length := by
  intro l
  induction l with
  | nil =>
    intro tk lc tiles tk' lc' tiles' h
    simp only [mergeWires] at h
    cases h
    exact Nat.le_refl _
  | cons e rest ih =>
    intro tk lc tiles tk' lc' tiles' h
    obtain ⟨n, s⟩ := e
    simp only [mergeWires] at h
    split at h
    next hget =>
      have hx : (tk.conn_wires ++ [n]).length ≤ tk'.conn_wires.length := ih h
      rw [List.length_append, List.length_singleton] at hx
      omega
    next cs hget =>
      split at h
      next heq => exact (let hx := ih h; hx)
      next heq =>
        split at h
        next => cases h
        next tiles1 h1 =>
          have hx : (tk.conn_wires ++ [n]).length ≤ tk'.conn_wires.length := ih h
          rw [List.length_append, List.length_singleton] at hx
          omega
    next i hget =>
      exact (let hx := ih h; hx)

theorem mergeWires_connected_preserve :
    ∀ (l : List (WireIdx × SpeedIdx)) {tk : TileKind} {lc : List NodeIdx}
      {tiles : AList Coord Tile} {tk' : TileKind} {lc' : List NodeIdx}
      {tiles' : AList Coord Tile},
      mergeWires tk lc tiles l = some (tk', lc', tiles') →
      ∀ (w : WireIdx) (i : Nat), alGet tk.wires w = some (.Connected i) →
        alGet tk'.wires w = some (.Connected i) := by
  intro l
  induction l with
  | nil =>
    intro tk lc tiles tk' lc' tiles' h w i hw
    simp only [mergeWires] at h
    cases h
    exact hw
  | cons e rest ih =>
    intro tk lc tiles tk' lc' tiles' h w i hw
    obtain ⟨n, s⟩ := e
    simp only [mergeWires] at h
    split at h
    next hget =>
      refine ih h w i ?_
      show alGet (alPut tk.wires n (.Connected tk.conn_wires.length)) w = _
      rw [alGet_alPut_ne]
      · exact hw
      · intro he
        rw [he, hget] at hw
        cases hw
    next cs hget =>
      split at h
      next heq => exact ih h w i hw
      next heq =>
        split at h
        next => cases h
        next tiles1 h1 =>
          refine ih h w i ?_
          show alGet (alPut tk.wires n (.Connected tk.conn_wires.length)) w = _
          rw [alGet_alPut_ne]
          · exact hw
          · intro he
            rw [he, hget] at hw
            simp at hw
    next j hget =>
      exact ih h w i hw

/-- Pointwise effect of the wire-merge loop on the tile map: tiles of other
kinds (not registered for this kind) are untouched; registered tiles keep
their metadata and their entries at slots the kind already had, and gain
only `PENDING`/`NONE` entries at fresh slots. -/
theorem mergeWires_tiles_char :
    ∀ (l : List (WireIdx × SpeedIdx)) {tk : TileKind} {lc : List NodeIdx}
      {tiles : AList Coord Tile} {tk' : TileKind} {lc' : List NodeIdx}
      {tiles' : AList Coord Tile},
      mergeWires tk lc tiles l = some (tk', lc', tiles') →
      (∀ (crd : Coord), crd ∉ tk.tiles → alGet tiles' crd = alGet tiles crd) ∧
      (∀ (crd : Coord), alGet tiles crd = none → alGet tiles' crd = none) ∧
      (∀ (crd : Coord) (t : Tile), alGet tiles crd = some t →
        ∃ t1, alGet tiles' crd = some t1 ∧
          t1.name = t.name ∧ t1.kind = t.kind ∧ t1.sites = t.sites ∧
          t1.var_pips = t.var_pips ∧
          (∀ (j : Nat) (v : NodeIdx), j < tk.conn_wires.length →
            t.conn_wires[j]? = some v → t1.conn_wires[j]? = some v) ∧
          (∀ (j : Nat) (v : NodeIdx), t1.conn_wires[j]? = some v →
            t.conn_wires[j]? = some v ∨ v = NodeIdx.PENDING ∨ v = NodeIdx.NONE) ∧
          t1.conn_wires.length ≤ max t.conn_wires.length tk'.conn_wires.length) := by
  intro l
  induction l with
  | nil =>
    intro tk lc tiles tk' lc' tiles' h
    simp only [mergeWires] at h
    cases h
    refine ⟨fun _ _ => rfl, fun _ hx => hx, ?_⟩
    intro crd t ht
    exact ⟨t, ht, rfl, rfl, rfl, rfl, fun _ _ _ hv => hv,
      fun _ _ hv => Or.inl hv, by omega⟩
  | cons e rest ih =>
    intro tk lc tiles tk' lc' tiles' h
    obtain ⟨n, s⟩ := e
    simp only [mergeWires] at h
    split at h
    next hget =>
      obtain ⟨a, b, c⟩ := ih h
      refine ⟨a, b, ?_⟩
      intro crd t ht
      obtain ⟨t1, ht1, f1, f2, f3, f4, f5, f6, f7⟩ := c crd t ht
      refine ⟨t1, ht1, f1, f2, f3, f4, ?_, f6, f7⟩
      intro j v hj hv
      refine f5 j v ?_ hv
      show j < (tk.conn_wires ++ [n]).length
      rw [List.length_append, List.length_singleton]
      omega
    next cs hget =>
      split at h
      next heq => exact (let hx := ih h; hx)
      next heq =>
        split at h
        next => cases h
        next tiles1 h1 =>
          obtain ⟨ba, bb, bc⟩ := backfill_char tk.tiles h1
          obtain ⟨a, b, c⟩ := ih h
          have hmono : (tk.conn_wires ++ [n]).length ≤ tk'.conn_wires.length :=
            mergeWires_conn_mono rest h
          rw [List.length_append, List.length_singleton] at hmono
          refine ⟨?_, ?_, ?_⟩
          · intro crd hcrd
            rw [a crd hcrd, ba crd hcrd]
          · intro crd hnone
            exact b crd (bb crd hnone)
          · intro crd t ht
            obtain ⟨tb, htb, e1, e2, e3, e4, e5, e6, e7⟩ := bc crd t ht
            obtain ⟨t1, ht1, f1, f2, f3, f4, f5, f6, f7⟩ := c crd tb htb
            refine ⟨t1, ht1, f1.trans e1, f2.trans e2, f3.trans e3, f4.trans e4,
              ?_, ?_, ?_⟩
            · intro j v hj hv
              refine f5 j v ?_ (e5 j v (by omega) hv)
              show j < (tk.conn_wires ++ [n]).length
              rw [List.length_append, List.length_singleton]
              omega
            · intro j v hv
              cases f6 j v hv with
              | inl hx => exact e6 j v hx
              | inr hx => exact Or.inr hx
            · have h7 : t1.conn_wires.length ≤
                  max tb.conn_wires.length tk'.conn_wires.length := f7
              have h8 : tb.conn_wires.length ≤
                  max t.conn_wires.length (tk.conn_wires.length + 1) := e7
              omega
    next j0 hget =>
      exact (let hx := ih h; hx)

theorem mergeWires_slots :
    ∀ (l : List (WireIdx × SpeedIdx)) {tk : TileKind} {lc : List NodeIdx}
      {tiles : AList Coord Tile} {tk' : TileKind} {lc' : List NodeIdx}
      {tiles' : AList Coord Tile},
      mergeWires tk lc tiles l = some (tk', lc', tiles') →
      (∀ (w1 w2 : WireIdx) (i : Nat), alGet tk.wires w1 = some (.Connected i) →
        alGet tk.wires w2 = some (.Connected i) → w1 = w2) →
      (∀ (w : WireIdx) (i : Nat), alGet tk.wires w = some (.Connected i) →
        i < tk.conn_wires.length) →
      (∀ (w1 w2 : WireIdx) (i : Nat), alGet tk'.wires w1 = some (.Connected i) →
        alGet tk'.wires w2 = some (.Connected i) → w1 = w2) ∧
      (∀ (w : WireIdx) (i : Nat), alGet tk'.wires w = some (.Connected i) →
        i < tk'.conn_wires.length) ∧
      lc'.length ≤ max lc.length tk'.conn_wires.length := by
  intro l
  induction l with
  | nil =>
    intro tk lc tiles tk' lc' tiles' h hinj hbound
    simp only [mergeWires] at h
    cases h
    exact ⟨hinj, hbound, by omega⟩
  | cons e rest ih =>
    intro tk lc tiles tk' lc' tiles' h hinj hbound
    obtain ⟨n, s⟩ := e
    simp only [mergeWires] at h
    split at h
    next hget =>
      obtain ⟨hx1, hx2⟩ := @slots_extend tk n hinj hbound
      obtain ⟨g1, g2, g3⟩ := ih h hx1 hx2
      have hmono : (tk.conn_wires ++ [n]).length ≤ tk'.conn_wires.length :=
        mergeWires_conn_mono rest h
      rw [List.length_append, List.length_singleton] at hmono
      refine ⟨g1, g2, ?_⟩
      rw [setAt_length] at g3
      omega
    next cs hget =>
      split at h
      next heq => exact (let hx := ih h hinj hbound; hx)
      next heq =>
        split at h
        next => cases h
        next tiles1 h1 =>
          obtain ⟨hx1, hx2⟩ := @slots_extend tk n hinj hbound
          obtain ⟨g1, g2, g3⟩ := ih h hx1 hx2
          have hmono : (tk.conn_wires ++ [n]).length ≤ tk'.conn_wires.length :=
            mergeWires_conn_mono rest h
          rw [List.length_append, List.length_singleton] at hmono
          refine ⟨g1, g2, ?_⟩
          rw [setAt_length] at g3
          omega
    next j hget =>
      obtain ⟨g1, g2, g3⟩ := ih h hinj hbound
      have hmono : tk.conn_wires.length ≤ tk'.conn_wires.length :=
        mergeWires_conn_mono rest h
      have hj : j < tk.conn_wires.length := hbound n j hget
      refine ⟨g1, g2, ?_⟩
      rw [setAt_length] at g3
      omega

theorem mergeWires_lc_entries :
    ∀ (l : List (WireIdx × SpeedIdx)) {tk : TileKind} {lc : List NodeIdx}
      {tiles : AList Coord Tile} {tk' : TileKind} {lc' : List NodeIdx}
      {tiles' : AList Coord Tile},
      mergeWires tk lc tiles l = some (tk', lc', tiles') →
      (∀ (j : Nat) (v : NodeIdx), lc[j]? = some v →
        v = NodeIdx.PENDING ∨ v = NodeIdx.NONE) →
      ∀ (j : Nat) (v : NodeIdx), lc'[j]? = some v →
        v = NodeIdx.PENDING ∨ v = NodeIdx.NONE := by
  intro l
  induction l with
  | nil =>
    intro tk lc tiles tk' lc' tiles' h hl
    simp only [mergeWires] at h
    cases h
    exact hl
  | cons e rest ih =>
    intro tk lc tiles tk' lc' tiles' h hl
    obtain ⟨n, s⟩ := e
    have hstep : ∀ (i0 : Nat) (j : Nat) (v : NodeIdx),
        (setAt lc i0 NodeIdx.NONE NodeIdx.PENDING)[j]? = some v →
        v = NodeIdx.PENDING ∨ v = NodeIdx.NONE := by
      intro i0 j v hv
      rcases setAt_bwd _ _ _ hv with hx | hx | hx
      · exact hl j v hx
      · exact Or.inl hx
      · exact Or.inr hx
    simp only [mergeWires] at h
    split at h
    next hget =>
      exact ih h (hstep _)
    next cs hget =>
      split at h
      next heq => exact ih h hl
      next heq =>
        split at h
        next => cases h
        next tiles1 h1 =>
          exact ih h (hstep _)
    next j0 hget =>
      exact ih h (hstep _)

theorem retroVarPip_char :
    ∀ (crds : List Coord) {tiles : AList Coord Tile} {tk : TileKind}
      {wf wt : WireIdx} {cs : SpeedIdx} {i : Nat} {tiles1 : AList Coord Tile},
      retroVarPip tiles crds tk wf wt cs i = some tiles1 →
      (∀ (crd : Coord), crd ∉ crds → alGet tiles1 crd = alGet tiles crd) ∧
      (∀ (crd : Coord), alGet tiles crd = none → alGet tiles1 crd = none) ∧
      (∀ (crd : Coord) (t : Tile), alGet tiles crd = some t →
        ∃ t1, alGet tiles1 crd = some t1 ∧ t1.name = t.name ∧ t1.kind = t.kind ∧
          t1.sites = t.sites ∧ t1.conn_wires = t.conn_wires) := by
  intro crds
  induction crds with
  | nil =>
    intro tiles tk wf wt cs i tiles1 h
    simp only [retroVarPip] at h
    cases h
    exact ⟨fun _ _ => rfl, fun _ hx => hx, fun crd t ht => ⟨t, ht, rfl, rfl, rfl, rfl⟩⟩
  | cons crd0 rest ih =>
    intro tiles tk wf wt cs i tiles1 h
    simp only [retroVarPip] at h
    split at h
    next => cases h
    next t0 ht0 =>
      obtain ⟨a, b, c⟩ := ih h
      have hstep : ∀ (crd : Coord) (t : Tile), alGet tiles crd = some t →
          ∃ t1, alGet (alPut tiles crd0 (t0.set_var_pip i
            (if t0.has_wire tk wf && t0.has_wire tk wt then cs else SpeedIdx.NONE)))
            crd = some t1 ∧
            t1.name = t.name ∧ t1.kind = t.kind ∧ t1.sites = t.sites ∧
            t1.conn_wires = t.conn_wires := by
        intro crd t ht
        by_cases he : crd = crd0
        · subst he
          rw [ht0] at ht
          cases ht
          exact ⟨_, alGet_alPut_self _ _ _, rfl, rfl, rfl, rfl⟩
        · refine ⟨t, ?_, rfl, rfl, rfl, rfl⟩
          rw [alGet_alPut_ne _ _ he]
          exact ht
      refine ⟨?_, ?_, ?_⟩
      · intro crd hmem
        simp only [List.mem_cons, not_or] at hmem
        rw [a crd hmem.2, alGet_alPut_ne _ _ hmem.1]
      · intro crd hnone
        by_cases he : crd = crd0
        · subst he
          rw [hnone] at ht0
          cases ht0
        · apply b
          rw [alGet_alPut_ne _ _ he]
          exact hnone
      · intro crd t ht
        obtain ⟨tb, htb, e1, e2, e3, e4⟩ := hstep crd t ht
        obtain ⟨t1, ht1, f1, f2, f3, f4⟩ := c crd tb htb
        exact ⟨t1, ht1, f1.trans e1, f2.trans e2, f3.trans e3, f4.trans e4⟩

/-- Pointwise effect of the pip-merge loop on the tile map: tiles outside
this kind's registration list are untouched; registered tiles keep their
metadata and resolved `conn_wires` (only `var_pips` can change). -/
theorem mergePips_tiles_char :
    ∀ (l : List PipI) {tk : TileKind} {lv : List SpeedIdx}
      {tiles : AList Coord Tile} {tk' : TileKind} {lv' : List SpeedIdx}
      {tiles' : AList Coord Tile},
      mergePips tk lv tiles l = some (tk', lv', tiles') →
      (∀ (crd : Coord), crd ∉ tk.tiles → alGet tiles' crd = alGet tiles crd) ∧
      (∀ (crd : Coord), alGet tiles crd = none → alGet tiles' crd = none) ∧
      (∀ (crd : Coord) (t : Tile), alGet tiles crd = some t →
        ∃ t1, alGet tiles' crd = some t1 ∧ t1.name = t.name ∧ t1.kind = t.kind ∧
          t1.sites = t.sites ∧ t1.conn_wires = t.conn_wires) := by
  intro l
  induction l with
  | nil =>
    intro tk lv tiles tk' lv' tiles' h
    simp only [mergePips] at h
    cases h
    exact ⟨fun _ _ => rfl, fun _ hx => hx, fun crd t ht => ⟨t, ht, rfl, rfl, rfl, rfl⟩⟩
  | cons pa rest ih =>
    intro tk lv tiles tk' lv' tiles' h
    simp only [mergePips] at h
    split at h
    next h0 =>
      exact (let hx := ih h; hx)
    next pip h0 =>
      split at h
      next => cases h
      next hflags =>
        split at h
        next cs hmode =>
          split at h
          next heqs => exact (let hx := ih h; hx)
          next heqs =>
            split at h
            next => cases h
            next tiles1 h1 =>
              obtain ⟨ra, rb, rc⟩ := retroVarPip_char tk.tiles h1
              obtain ⟨a, b, c⟩ := ih h
              refine ⟨?_, ?_, ?_⟩
              · intro crd hcrd
                rw [a crd hcrd, ra crd hcrd]
              · intro crd hnone
                exact b crd (rb crd hnone)
              · intro crd t ht
                obtain ⟨tb, htb, e1, e2, e3, e4⟩ := rc crd t ht
                obtain ⟨t1, ht1, f1, f2, f3, f4⟩ := c crd tb htb
                exact ⟨t1, ht1, f1.trans e1, f2.trans e2, f3.trans e3, f4.trans e4⟩
        next i hmode =>
          exact (let hx := ih h; hx)

theorem KindsWF_transport {p q : Part} (hw : KindsWF p) (h3 : q.tiles = p.tiles)
    (h4 : q.tile_kinds = p.tile_kinds) : KindsWF q := by
  constructor
  · intro kind tk w1 w2 i htk
    rw [h4] at htk
    exact hw.slotInj kind tk w1 w2 i htk
  · intro kind tk w i htk
    rw [h4] at htk
    exact hw.slotBound kind tk w i htk
  · intro coord tile htile
    rw [h3] at htile
    rw [h4]
    exact hw.kindOf coord tile htile
  · intro kind tk coord htk hmem
    rw [h4] at htk
    rw [h3]
    exact hw.kindTiles kind tk coord htk hmem

theorem not_mem_kind_tiles_k {p : Part} (hwf : KindsWF p) {kind : Str}
    {tk : TileKind} {crd : Coord} {tile : Tile}
    (htk : alGet p.tile_kinds kind = some tk)
    (htile : alGet p.tiles crd = some tile) (hne : tile.kind ≠ kind) :
    crd ∉ tk.tiles := by
  intro hmem
  obtain ⟨tile2, htile2, hk2⟩ := hwf.kindTiles kind tk crd htk hmem
  rw [htile] at htile2
  cases htile2
  exact hne hk2

theorem getElem?_some_lt {α : Type} {l : List α} {i : Nat} {a : α}
    (h : l[i]? = some a) : i < l.length := by
  by_contra hc
  rw [List.getElem?_eq_none (by omega)] at h
  cases h

/-- Successful `set_conn_wire`: the result is the `setAt` write, and when the
written value is not `PENDING` the previous entry was `PENDING` or `NONE`. -/
theorem set_conn_wire_some {t : Tile} {idx : Nat} {val : NodeIdx} {t2 : Tile}
    (h : t.set_conn_wire idx val = some t2) :
    t2 = { t with conn_wires := setAt t.conn_wires idx NodeIdx.NONE val } ∧
    (val ≠ NodeIdx.PENDING →
      t.conn_wires.getD idx NodeIdx.NONE = NodeIdx.PENDING ∨
      t.conn_wires.getD idx NodeIdx.NONE = NodeIdx.NONE) := by
  simp only [Tile.set_conn_wire] at h
  split at h
  next hc => cases h
  next hc =>
    cases h
    refine ⟨rfl, ?_⟩
    intro hvP
    rw [padTo_getD] at hc
    by_cases h1 : t.conn_wires.getD idx NodeIdx.NONE = NodeIdx.PENDING
    · exact Or.inl h1
    · by_cases h2 : t.conn_wires.getD idx NodeIdx.NONE = NodeIdx.NONE
      · exact Or.inr h2
      · exact absurd ⟨h1, h2, hvP⟩ hc

/-- Monotone evolution of the kind table under the `add_node` endpoint loop:
`Connected` bindings are preserved, `conn_wires` only grows, and the other
kind fields are untouched. -/
def kindsLE (A B : AList Str TileKind) : Prop :=
  (∀ (kind : Str), alGet A kind = none → alGet B kind = none) ∧
  (∀ (kind : Str) (tk : TileKind), alGet A kind = some tk →
    ∃ tk1, alGet B kind = some tk1 ∧
      tk1.sites = tk.sites ∧ tk1.sites_by_slot = tk.sites_by_slot ∧
      tk1.pips = tk.pips ∧ tk1.var_pips = tk.var_pips ∧ tk1.tiles = tk.tiles ∧
      tk.conn_wires.length ≤ tk1.conn_wires.length ∧
      (∀ (w : WireIdx) (i : Nat), alGet tk.wires w = some (.Connected i) →
        alGet tk1.wires w = some (.Connected i)))

theorem kindsLE_refl (A : AList Str TileKind) : kindsLE A A :=
  ⟨fun _ hx => hx, fun _ tk htk =>
    ⟨tk, htk, rfl, rfl, rfl, rfl, rfl, Nat.le_refl _, fun _ _ hw => hw⟩⟩

theorem kindsLE_trans {A B C : AList Str TileKind} (h1 : kindsLE A B)
    (h2 : kindsLE B C) : kindsLE A C := by
  refine ⟨fun k hx => h2.1 k (h1.1 k hx), ?_⟩
  intro k tk htk
  obtain ⟨tk1, ht1, a1, a2, a3, a4, a5, a6, a7⟩ := h1.2 k tk htk
  obtain ⟨tk2, ht2, b1, b2, b3, b4, b5, b6, b7⟩ := h2.2 k tk1 ht1
  exact ⟨tk2, ht2, b1.trans a1, b2.trans a2, b3.trans a3, b4.trans a4,
    b5.trans a5, a6.trans b6, fun w i hw => b7 w i (a7 w i hw)⟩

/-- Pointwise evolution of the tile map under the endpoint loop assigning
`node` over the endpoints `l`, measured against the final kind table `KB`:
tiles keep their metadata, resolved entries are never overwritten, and
every new entry is `PENDING`, `NONE` (padding), or `node` written at the
`Connected` slot of one of the endpoints. -/
def tilesRel (node : NodeIdx) (l : List (Coord × WireIdx × SpeedIdx))
    (A B : AList Coord Tile) (KB : AList Str TileKind) : Prop :=
  (∀ (crd : Coord), alGet A crd = none → alGet B crd = none) ∧
  (∀ (crd : Coord) (t : Tile), alGet A crd = some t →
    ∃ t1, alGet B crd = some t1 ∧
      t1.name = t.name ∧ t1.kind = t.kind ∧ t1.sites = t.sites ∧
      t1.var_pips = t.var_pips ∧
      (∀ (j : Nat) (v : NodeIdx), t.conn_wires[j]? = some v →
        v ≠ NodeIdx.PENDING → v ≠ NodeIdx.NONE → t1.conn_wires[j]? = some v) ∧
      (∀ (j : Nat) (v : NodeIdx), t1.conn_wires[j]? = some v →
        t.conn_wires[j]? = some v ∨ v = NodeIdx.PENDING ∨ v = NodeIdx.NONE ∨
        (v = node ∧ ∃ e ∈ l, e.1 = crd ∧ ∃ tk1, alGet KB t.kind = some tk1 ∧
          alGet tk1.wires e.2.1 = some (.Connected j))))

theorem tilesRel_refl (node : NodeIdx) (l : List (Coord × WireIdx × SpeedIdx))
    (A : AList Coord Tile) (K : AList Str TileKind) : tilesRel node l A A K :=
  ⟨fun _ hx => hx, fun _ t ht =>
    ⟨t, ht, rfl, rfl, rfl, rfl, fun _ _ hv _ _ => hv, fun _ _ hv => Or.inl hv⟩⟩

theorem tilesRel_mono {node : NodeIdx} {l l' : List (Coord × WireIdx × SpeedIdx)}
    {A B : AList Coord Tile} {K : AList Str TileKind}
    (hsub : ∀ e ∈ l, e ∈ l') (h : tilesRel node l A B K) :
    tilesRel node l' A B K := by
  refine ⟨h.1, ?_⟩
  intro crd t ht
  obtain ⟨t1, ht1, a1, a2, a3, a4, a5, a6⟩ := h.2 crd t ht
  refine ⟨t1, ht1, a1, a2, a3, a4, a5, ?_⟩
  intro j v hv
  rcases a6 j v hv with hx | hx | hx | ⟨hx, e, he, h1, h2⟩
  · exact Or.inl hx
  · exact Or.inr (Or.inl hx)
  · exact Or.inr (Or.inr (Or.inl hx))
  · exact Or.inr (Or.inr (Or.inr ⟨hx, e, hsub e he, h1, h2⟩))

theorem tilesRel_comp {node : NodeIdx} {l : List (Coord × WireIdx × SpeedIdx)}
    {A B C : AList Coord Tile} {K1 K2 : AList Str TileKind}
    (h12 : tilesRel node l A B K1) (h23 : tilesRel node l B C K2)
    (hK : kindsLE K1 K2) : tilesRel node l A C K2 := by
  refine ⟨fun crd hx => h23.1 crd (h12.1 crd hx), ?_⟩
  intro crd t ht
  obtain ⟨t1, ht1, a1, a2, a3, a4, a5, a6⟩ := h12.2 crd t ht
  obtain ⟨t2, ht2, b1, b2, b3, b4, b5, b6⟩ := h23.2 crd t1 ht1
  refine ⟨t2, ht2, b1.trans a1, b2.trans a2, b3.trans a3, b4.trans a4, ?_, ?_⟩
  · intro j v hv hp hn
    exact b5 j v (a5 j v hv hp hn) hp hn
  · intro j v hv
    rcases b6 j v hv with hx | hx | hx | ⟨hx, e, he, hec, tk1, h1, h2⟩
    · rcases a6 j v hx with hy | hy | hy | ⟨hy, e, he, hec, tkA, hA1, hA2⟩
      · exact Or.inl hy
      · exact Or.inr (Or.inl hy)
      · exact Or.inr (Or.inr (Or.inl hy))
      · obtain ⟨tkB, hB1, _, _, _, _, _, _, hB7⟩ := hK.2 t.kind tkA hA1
        exact Or.inr (Or.inr (Or.inr ⟨hy, e, he, hec, tkB, hB1, hB7 _ _ hA2⟩))
    · exact Or.inr (Or.inl hx)
    · exact Or.inr (Or.inr (Or.inl hx))
    · rw [a2] at h1
      exact Or.inr (Or.inr (Or.inr ⟨hx, e, he, hec, tk1, h1, h2⟩))

/-- One iteration of the endpoint-assignment loop of `add_node`, factored
out of `nodeAssign` for the inductive proofs. -/
def stepNA (node : NodeIdx) (st : PartBuilder) (e : Coord × WireIdx × SpeedIdx) :
    Option PartBuilder :=
  match alGet st.part.tiles e.1 with
  | none => none
  | some tile =>
    match alGet st.part.tile_kinds tile.kind with
    | none => none
    | some tk =>
      match alGet tk.wires e.2.1 with
      | none => none
      | some tw =>
        match (match tw with
          | .Internal _ => promoteWire st tile.kind tk e.2.1
          | .Connected i => some (i, st)) with
        | none => none
        | some (idx, stB) =>
          match alGet stB.part.tiles e.1 with
          | none => none
          | some tile1 =>
            match tile1.set_conn_wire idx node with
            | none => none
            | some tile2 =>
              some { stB with part := { stB.part with
                tiles := alPut stB.part.tiles e.1 tile2 } }

theorem nodeAssign_cons (node : NodeIdx) (st : PartBuilder)
    (e : Coord × WireIdx × SpeedIdx) (rest : List (Coord × WireIdx × SpeedIdx)) :
    nodeAssign node st (e :: rest) =
      match stepNA node st e with
      | none => none
      | some stM => nodeAssign node stM rest := by
  obtain ⟨c, w, s⟩ := e
  cases h1 : alGet st.part.tiles c with
  | none => simp only [nodeAssign, stepNA, h1]
  | some tile =>
    cases h2 : alGet st.part.tile_kinds tile.kind with
    | none => simp only [nodeAssign, stepNA, h1, h2]
    | some tk =>
      cases h3 : alGet tk.wires w with
      | none => simp only [nodeAssign, stepNA, h1, h2, h3]
      | some tw =>
        cases tw with
        | Internal s0 =>
          cases h4 : promoteWire st tile.kind tk w with
          | none => simp only [nodeAssign, stepNA, h1, h2, h3, h4]
          | some pr =>
            obtain ⟨idx, stB⟩ := pr
            cases h5 : alGet stB.part.tiles c with
            | none => simp only [nodeAssign, stepNA, h1, h2, h3, h4, h5]
            | some tile1 =>
              cases h6 : tile1.set_conn_wire idx node with
              | none => simp only [nodeAssign, stepNA, h1, h2, h3, h4, h5, h6]
              | some tile2 => simp only [nodeAssign, stepNA, h1, h2, h3, h4, h5, h6]
        | Connected i =>
          cases h6 : tile.set_conn_wire i node with
          | none => simp only [nodeAssign, stepNA, h1, h2, h3, h6]
          | some tile2 => simp only [nodeAssign, stepNA, h1, h2, h3, h6]

theorem not_mem_kind_tiles {p : Part} (hwf : Wf p) {kind : Str} {tk : TileKind}
    {crd : Coord} {tile : Tile} (htk : alGet p.tile_kinds kind = some tk)
    (htile : alGet p.tiles crd = some tile) (hne : tile.kind ≠ kind) :
    crd ∉ tk.tiles := by
  intro hmem
  obtain ⟨tile2, htile2, hk2⟩ := hwf.kindTiles kind tk crd htk hmem
  rw [htile] at htile2
  cases htile2
  exact hne hk2

/-- A successful `add_tile` at a coordinate not yet registered preserves
the structural invariant. -/
theorem add_tile_wf {st st' : PartBuilder} {coord : Coord} {name kind : Str}
    {sites : List SiteArg} {wires : List (Str × Option Str)} {pips : List PipArg}
    (hwf : Wf st.part) (hfresh : alGet st.part.tiles coord = none)
    (h : add_tile st coord name kind sites wires pips = some st') :
    Wf st'.part := by
  simp only [add_tile] at h
  split at h
  next hcond =>
    split at h
    next => cases h
    next wiresI pipsI sitesI st4 hpre =>
      have hio := addTilePrefix_internsOnly hpre
      have hwf4 : Wf st4.part := Wf_transport hwf hio.2.2.2.2.2.2.2.1
        hio.2.2.2.2.2.2.2.2.1 hio.2.2.2.2.2.2.1 hio.2.2.2.2.2.1
      have hfresh4 : alGet st4.part.tiles coord = none := by
        rw [hio.2.2.2.2.2.2.1]
        exact hfresh
      split at h
      next tk htk =>
        split at h
        next => cases h
        next tkA ls hms =>
          split at h
          next => cases h
          next tkB lc tilesB hmw =>
            split at h
            next => cases h
            next tkC lv tilesC hmp =>
              cases h
              have hS := mergeSites_frame sitesI hms
              have hWfr := mergeWires_frame wiresI hmw
              have hPfr := mergePips_frame pipsI hmp
              have hmono : tkA.conn_wires.length ≤ tkB.conn_wires.length :=
                mergeWires_conn_mono wiresI hmw
              have hpres := mergeWires_connected_preserve wiresI hmw
              obtain ⟨hc1, hc2, hc3⟩ := mergeWires_tiles_char wiresI hmw
              have inj0 : ∀ (w1 w2 : WireIdx) (i : Nat),
                  alGet tkA.wires w1 = some (.Connected i) →
                  alGet tkA.wires w2 = some (.Connected i) → w1 = w2 := by
                intro w1 w2 i h1 h2
                rw [hS.1] at h1 h2
                exact hwf4.slotInj kind tk w1 w2 i htk h1 h2
              have bound0 : ∀ (w : WireIdx) (i : Nat),
                  alGet tkA.wires w = some (.Connected i) →
                  i < tkA.conn_wires.length := by
                intro w i h1
                rw [hS.1] at h1
                rw [hS.2.1]
                exact hwf4.slotBound kind tk w i htk h1
              obtain ⟨hinjB, hboundB, hlcB⟩ := mergeWires_slots wiresI hmw inj0 bound0
              have hlc : ∀ (j : Nat) (v : NodeIdx), lc[j]? = some v →
                  v = NodeIdx.PENDING ∨ v = NodeIdx.NONE :=
                mergeWires_lc_entries wiresI hmw (fun j v hv => by simp at hv)
              obtain ⟨hp1, hp2, hp3⟩ := mergePips_tiles_char pipsI hmp
              have htilesA : tkA.tiles = tk.tiles := hS.2.2.2.2
              have htilesB : tkB.tiles = tk.tiles := hWfr.2.2.2.2.trans htilesA
              have htilesC : tkC.tiles = tk.tiles := hPfr.2.2.2.2.trans htilesB
              have hwiresC : tkC.wires = tkB.wires := hPfr.1
              have hconnC : tkC.conn_wires = tkB.conn_wires := hPfr.2.1
              have hconnA : tkA.conn_wires = tk.conn_wires := hS.2.1
              have hC0 : ∀ (crd : Coord), crd ∉ tk.tiles →
                  alGet tilesC crd = alGet st4.part.tiles crd := by
                intro crd hcrd
                rw [hp1 crd (by rw [htilesB]; exact hcrd),
                  hc1 crd (by rw [htilesA]; exact hcrd)]
              have hCnone : ∀ (crd : Coord), alGet st4.part.tiles crd = none →
                  alGet tilesC crd = none := fun crd hx => hp2 crd (hc2 crd hx)
              have hCsome : ∀ (crd : Coord) (t : Tile),
                  alGet st4.part.tiles crd = some t →
                  ∃ t1, alGet tilesC crd = some t1 ∧ t1.name = t.name ∧
                    t1.kind = t.kind ∧ t1.sites = t.sites ∧
                    (∀ (j : Nat) (v : NodeIdx), j < tk.conn_wires.length →
                      t.conn_wires[j]? = some v → t1.conn_wires[j]? = some v) ∧
                    (∀ (j : Nat) (v : NodeIdx), t1.conn_wires[j]? = some v →
                      t.conn_wires[j]? = some v ∨ v = NodeIdx.PENDING ∨
                      v = NodeIdx.NONE) ∧
                    t1.conn_wires.length ≤
                      max t.conn_wires.length tkB.conn_wires.length := by
                intro crd t ht
                obtain ⟨t1, ht1, f1, f2, f3, f4, f5, f6, f7⟩ := hc3 crd t ht
                obtain ⟨t2, ht2, g1, g2, g3, g4⟩ := hp3 crd t1 ht1
                refine ⟨t2, ht2, g1.trans f1, g2.trans f2, g3.trans f3, ?_, ?_, ?_⟩
                · intro j v hj hv
                  rw [g4]
                  exact f5 j v (by rw [hconnA]; exact hj) hv
                · intro j v hv
                  rw [g4] at hv
                  exact f6 j v hv
                · rw [g4]
                  exact f7
              have hwirePres : ∀ (w : WireIdx) (i : Nat),
                  alGet tk.wires w = some (.Connected i) →
                  alGet tkC.wires w = some (.Connected i) := by
                intro w i hx
                rw [hwiresC]
                exact hpres w i (by rw [hS.1]; exact hx)
              constructor
              · exact hwf4.nodesBound
              · exact hwf4.tmplBound
              · intro i node tmpl tw hn htm htw
                obtain ⟨tile, tkO, idx, htile, htkO, hwire, hentry⟩ :=
                  hwf4.walk i node tmpl tw hn htm htw
                have hne : (⟨node.base.x + tw.delta.x, node.base.y + tw.delta.y⟩ :
                    Coord) ≠ coord := by
                  intro he
                  rw [he, hfresh4] at htile
                  cases htile
                by_cases hkind : tile.kind = kind
                · rw [hkind, htk] at htkO
                  cases htkO
                  obtain ⟨t2, ht2, g1, g2, g3, g5, g6, g7⟩ := hCsome _ tile htile
                  refine ⟨t2, { tkC with tiles := tkC.tiles ++ [coord] }, idx,
                    ?_, ?_, ?_, ?_⟩
                  · show alGet (alPut tilesC coord (⟨name, kind, ls, lc, lv⟩ : Tile))
                      _ = some t2
                    rw [alGet_alPut_ne _ _ hne]
                    exact ht2
                  · show alGet (alPut st4.part.tile_kinds kind _) t2.kind = _
                    rw [g2, hkind, alGet_alPut_self]
                  · show alGet tkC.wires tw.wire = _
                    exact hwirePres tw.wire idx hwire
                  · exact g5 idx ⟨i⟩ (hwf4.slotBound kind tk tw.wire idx htk hwire)
                      hentry
                · have hnotin := not_mem_kind_tiles hwf4 htk htile hkind
                  refine ⟨tile, tkO, idx, ?_, ?_, hwire, hentry⟩
                  · show alGet (alPut tilesC coord (⟨name, kind, ls, lc, lv⟩ : Tile))
                      _ = some tile
                    rw [alGet_alPut_ne _ _ hne, hC0 _ hnotin]
                    exact htile
                  · show alGet (alPut st4.part.tile_kinds kind _) tile.kind = _
                    rw [alGet_alPut_ne _ _ hkind]
                    exact htkO
              · intro coord' tile' idx n htile' hentry' hpn hnn
                have htile'' : alGet (alPut tilesC coord
                    (⟨name, kind, ls, lc, lv⟩ : Tile)) coord' = some tile' := htile'
                by_cases hcc : coord' = coord
                · rw [hcc, alGet_alPut_self] at htile''
                  cases htile''
                  rcases hlc idx n hentry' with hx | hx
                  · exact absurd hx hpn
                  · exact absurd hx hnn
                · rw [alGet_alPut_ne _ _ hcc] at htile''
                  cases hold : alGet st4.part.tiles coord' with
                  | none =>
                    rw [hCnone coord' hold] at htile''
                    cases htile''
                  | some t =>
                    obtain ⟨t2, ht2, g1, g2, g3, g5, g6, g7⟩ := hCsome coord' t hold
                    rw [ht2] at htile''
                    cases htile''
                    have hE : t.conn_wires[idx]? = some n := by
                      rcases g6 idx n hentry' with hx | hx | hx
                      · exact hx
                      · exact absurd hx hpn
                      · exact absurd hx hnn
                    obtain ⟨nodeO, tmplO, twO, tkO, c1, c2, c3, c4, c5, c6⟩ :=
                      hwf4.conc coord' t idx n hold hE hpn hnn
                    by_cases hkind : t.kind = kind
                    · rw [hkind, htk] at c5
                      cases c5
                      refine ⟨nodeO, tmplO, twO,
                        { tkC with tiles := tkC.tiles ++ [coord] },
                        c1, c2, c3, c4, ?_, ?_⟩
                      · show alGet (alPut st4.part.tile_kinds kind _) tile'.kind = _
                        rw [g2, hkind, alGet_alPut_self]
                      · show alGet tkC.wires twO.wire = _
                        exact hwirePres twO.wire idx c6
                    · refine ⟨nodeO, tmplO, twO, tkO, c1, c2, c3, c4, ?_, c6⟩
                      show alGet (alPut st4.part.tile_kinds kind _) tile'.kind = _
                      rw [g2, alGet_alPut_ne _ _ hkind]
                      exact c5
              · intro kind' tk2 w1 w2 i htk2 h1 h2
                have htk2' : alGet (alPut st4.part.tile_kinds kind
                    ({ tkC with tiles := tkC.tiles ++ [coord] } : TileKind)) kind' =
                    some tk2 := htk2
                by_cases hk : kind' = kind
                · subst hk
                  rw [alGet_alPut_self] at htk2'
                  cases htk2'
                  have h1' : alGet tkB.wires w1 = some (.Connected i) := by
                    rw [← hwiresC]
                    exact h1
                  have h2' : alGet tkB.wires w2 = some (.Connected i) := by
                    rw [← hwiresC]
                    exact h2
                  exact hinjB w1 w2 i h1' h2'
                · rw [alGet_alPut_ne _ _ hk] at htk2'
                  exact hwf4.slotInj kind' tk2 w1 w2 i htk2' h1 h2
              · intro kind' tk2 w i htk2 h1
                have htk2' : alGet (alPut st4.part.tile_kinds kind
                    ({ tkC with tiles := tkC.tiles ++ [coord] } : TileKind)) kind' =
                    some tk2 := htk2
                by_cases hk : kind' = kind
                · subst hk
                  rw [alGet_alPut_self] at htk2'
                  cases htk2'
                  have h1' : alGet tkB.wires w = some (.Connected i) := by
                    rw [← hwiresC]
                    exact h1
                  show i < tkC.conn_wires.length
                  rw [hconnC]
                  exact hboundB w i h1'
                · rw [alGet_alPut_ne _ _ hk] at htk2'
                  exact hwf4.slotBound kind' tk2 w i htk2' h1
              · intro coord' tile' htile'
                have htile'' : alGet (alPut tilesC coord
                    (⟨name, kind, ls, lc, lv⟩ : Tile)) coord' = some tile' := htile'
                by_cases hcc : coord' = coord
                · rw [hcc, alGet_alPut_self] at htile''
                  cases htile''
                  refine ⟨{ tkC with tiles := tkC.tiles ++ [coord] }, ?_, ?_⟩
                  · show alGet (alPut st4.part.tile_kinds kind _)
                      (⟨name, kind, ls, lc, lv⟩ : Tile).kind = _
                    exact alGet_alPut_self _ _ _
                  · show lc.length ≤ tkC.conn_wires.length
                    rw [hconnC]
                    simp only [List.length_nil] at hlcB
                    omega
                · rw [alGet_alPut_ne _ _ hcc] at htile''
                  cases hold : alGet st4.part.tiles coord' with
                  | none =>
                    rw [hCnone coord' hold] at htile''
                    cases htile''
                  | some t =>
                    obtain ⟨tkO, hbind, hlen⟩ := hwf4.kindOf coord' t hold
                    by_cases hkind : t.kind = kind
                    · obtain ⟨t2, ht2, g1, g2, g3, g5, g6, g7⟩ := hCsome coord' t hold
                      rw [ht2] at htile''
                      cases htile''
                      rw [hkind, htk] at hbind
                      cases hbind
                      refine ⟨{ tkC with tiles := tkC.tiles ++ [coord] }, ?_, ?_⟩
                      · show alGet (alPut st4.part.tile_kinds kind _) tile'.kind = _
                        rw [g2, hkind, alGet_alPut_self]
                      · show tile'.conn_wires.length ≤ tkC.conn_wires.length
                        rw [hconnC]
                        have hAle : tk.conn_wires.length ≤ tkB.conn_wires.length := by
                          rw [← hconnA]
                          exact hmono
                        omega
                    · have hnotin := not_mem_kind_tiles hwf4 htk hold hkind
                      rw [hC0 coord' hnotin, hold] at htile''
                      cases htile''
                      refine ⟨tkO, ?_, hlen⟩
                      show alGet (alPut st4.part.tile_kinds kind _) tile'.kind = _
                      rw [alGet_alPut_ne _ _ hkind]
                      exact hbind
              · intro kind' tk2 coord' htk2 hmem
                have htk2' : alGet (alPut st4.part.tile_kinds kind
                    ({ tkC with tiles := tkC.tiles ++ [coord] } : TileKind)) kind' =
                    some tk2 := htk2
                by_cases hk : kind' = kind
                · rw [hk, alGet_alPut_self] at htk2'
                  cases htk2'
                  have hmem' : coord' ∈ tkC.tiles ++ [coord] := hmem
                  rw [htilesC] at hmem'
                  rcases List.mem_append.1 hmem' with hmem2 | hmem2
                  · obtain ⟨t, hold, hkind⟩ := hwf4.kindTiles kind tk coord' htk hmem2
                    have hne : coord' ≠ coord := by
                      intro he
                      rw [he, hfresh4] at hold
                      cases hold
                    obtain ⟨t2, ht2, g1, g2, g3, g5, g6, g7⟩ := hCsome coord' t hold
                    refine ⟨t2, ?_, ?_⟩
                    · show alGet (alPut tilesC coord (⟨name, kind, ls, lc, lv⟩ : Tile))
                        coord' = some t2
                      rw [alGet_alPut_ne _ _ hne]
                      exact ht2
                    · rw [g2, hkind]
                      exact hk.symm
                  · have hcc : coord' = coord := by
                      cases hmem2 with
                      | head => rfl
                      | tail _ hx => cases hx
                    refine ⟨⟨name, kind, ls, lc, lv⟩, ?_, hk.symm⟩
                    rw [hcc]
                    show alGet (alPut tilesC coord (⟨name, kind, ls, lc, lv⟩ : Tile))
                      coord = _
                    exact alGet_alPut_self _ _ _
                · rw [alGet_alPut_ne _ _ hk] at htk2'
                  obtain ⟨t, hold, hkind⟩ := hwf4.kindTiles kind' tk2 coord' htk2' hmem
                  have hne : coord' ≠ coord := by
                    intro he
                    rw [he, hfresh4] at hold
                    cases hold
                  have hnotin : coord' ∉ tk.tiles := by
                    apply not_mem_kind_tiles hwf4 htk hold
                    rw [hkind]
                    exact hk
                  refine ⟨t, ?_, hkind⟩
                  show alGet (alPut tilesC coord (⟨name, kind, ls, lc, lv⟩ : Tile))
                    coord' = some t
                  rw [alGet_alPut_ne _ _ hne, hC0 coord' hnotin]
                  exact hold
              · exact hwf4.tmplNodup
      next htk =>
        cases h
        constructor
        · exact hwf4.nodesBound
        · exact hwf4.tmplBound
        · intro i node tmpl tw hn htm htw
          obtain ⟨tile, tkO, idx, htile, htkO, hwire, hentry⟩ :=
            hwf4.walk i node tmpl tw hn htm htw
          have hne : (⟨node.base.x + tw.delta.x, node.base.y + tw.delta.y⟩ :
              Coord) ≠ coord := by
            intro he
            rw [he, hfresh4] at htile
            cases htile
          have hkind : tile.kind ≠ kind := by
            intro he
            rw [he, htk] at htkO
            cases htkO
          refine ⟨tile, tkO, idx, ?_, ?_, hwire, hentry⟩
          · show alGet (alPut st4.part.tiles coord
              (⟨name, kind, sitesI.map (fun si => some si.sname), [], []⟩ : Tile))
              _ = some tile
            rw [alGet_alPut_ne _ _ hne]
            exact htile
          · show alGet (alPut st4.part.tile_kinds kind _) tile.kind = _
            rw [alGet_alPut_ne _ _ hkind]
            exact htkO
        · intro coord' tile' idx n htile' hentry' hpn hnn
          have htile'' : alGet (alPut st4.part.tiles coord
              (⟨name, kind, sitesI.map (fun si => some si.sname), [], []⟩ : Tile))
              coord' = some tile' := htile'
          by_cases hcc : coord' = coord
          · subst hcc
            rw [alGet_alPut_self] at htile''
            cases htile''
            simp at hentry'
          · rw [alGet_alPut_ne _ _ hcc] at htile''
            obtain ⟨nodeO, tmplO, twO, tkO, c1, c2, c3, c4, c5, c6⟩ :=
              hwf4.conc coord' tile' idx n htile'' hentry' hpn hnn
            have hkind : tile'.kind ≠ kind := by
              intro he
              rw [he, htk] at c5
              cases c5
            refine ⟨nodeO, tmplO, twO, tkO, c1, c2, c3, c4, ?_, c6⟩
            show alGet (alPut st4.part.tile_kinds kind _) tile'.kind = _
            rw [alGet_alPut_ne _ _ hkind]
            exact c5
        · intro kind' tk2 w1 w2 i htk2 h1 h2
          have htk2' : alGet (alPut st4.part.tile_kinds kind
              (⟨buildSites sitesI, buildSitesBySlot sitesI, buildWiresMap wiresI, [],
                buildPipsMap pipsI, [], [coord]⟩ : TileKind)) kind' = some tk2 := htk2
          by_cases hk : kind' = kind
          · subst hk
            rw [alGet_alPut_self] at htk2'
            cases htk2'
            exfalso
            obtain ⟨s0, hs0⟩ := buildWiresMap_internal wiresI []
              (fun w v hv => by simp [alGet] at hv) w1 _ h1
            cases hs0
          · rw [alGet_alPut_ne _ _ hk] at htk2'
            exact hwf4.slotInj kind' tk2 w1 w2 i htk2' h1 h2
        · intro kind' tk2 w i htk2 h1
          have htk2' : alGet (alPut st4.part.tile_kinds kind
              (⟨buildSites sitesI, buildSitesBySlot sitesI, buildWiresMap wiresI, [],
                buildPipsMap pipsI, [], [coord]⟩ : TileKind)) kind' = some tk2 := htk2
          by_cases hk : kind' = kind
          · subst hk
            rw [alGet_alPut_self] at htk2'
            cases htk2'
            exfalso
            obtain ⟨s0, hs0⟩ := buildWiresMap_internal wiresI []
              (fun w0 v hv => by simp [alGet] at hv) w _ h1
            cases hs0
          · rw [alGet_alPut_ne _ _ hk] at htk2'
            exact hwf4.slotBound kind' tk2 w i htk2' h1
        · intro coord' tile' htile'
          have htile'' : alGet (alPut st4.part.tiles coord
              (⟨name, kind, sitesI.map (fun si => some si.sname), [], []⟩ : Tile))
              coord' = some tile' := htile'
          by_cases hcc : coord' = coord
          · rw [hcc, alGet_alPut_self] at htile''
            cases htile''
            refine ⟨⟨buildSites sitesI, buildSitesBySlot sitesI, buildWiresMap wiresI,
              [], buildPipsMap pipsI, [], [coord]⟩, ?_, ?_⟩
            · exact alGet_alPut_self _ _ _
            · exact Nat.le_refl 0
          · rw [alGet_alPut_ne _ _ hcc] at htile''
            obtain ⟨tkO, hbind, hlen⟩ := hwf4.kindOf coord' tile' htile''
            have hkind : tile'.kind ≠ kind := by
              intro he
              rw [he, htk] at hbind
              cases hbind
            refine ⟨tkO, ?_, hlen⟩
            show alGet (alPut st4.part.tile_kinds kind _) tile'.kind = _
            rw [alGet_alPut_ne _ _ hkind]
            exact hbind
        · intro kind' tk2 coord' htk2 hmem
          have htk2' : alGet (alPut st4.part.tile_kinds kind
              (⟨buildSites sitesI, buildSitesBySlot sitesI, buildWiresMap wiresI, [],
                buildPipsMap pipsI, [], [coord]⟩ : TileKind)) kind' = some tk2 := htk2
          by_cases hk : kind' = kind
          · rw [hk, alGet_alPut_self] at htk2'
            cases htk2'
            have hmem' : coord' ∈ [coord] := hmem
            have hcc : coord' = coord := by
              cases hmem' with
              | head => rfl
              | tail _ hx => cases hx
            refine ⟨⟨name, kind, sitesI.map (fun si => some si.sname), [], []⟩, ?_,
              hk.symm⟩
            rw [hcc]
            show alGet (alPut st4.part.tiles coord
              (⟨name, kind, sitesI.map (fun si => some si.sname), [], []⟩ : Tile))
              coord = _
            exact alGet_alPut_self _ _ _
          · rw [alGet_alPut_ne _ _ hk] at htk2'
            obtain ⟨t, hold, hkind⟩ := hwf4.kindTiles kind' tk2 coord' htk2' hmem
            have hne : coord' ≠ coord := by
              intro he
              rw [he, hfresh4] at hold
              cases hold
            refine ⟨t, ?_, hkind⟩
            show alGet (alPut st4.part.tiles coord
              (⟨name, kind, sitesI.map (fun si => some si.sname), [], []⟩ : Tile))
              coord' = some t
            rw [alGet_alPut_ne _ _ hne]
            exact hold
        · exact hwf4.tmplNodup
  next hcond => cases h

theorem setAt_bwd' {α : Type} (l : List α) {i j : Nat} (d v : α) {w : α}
    (hw : (setAt l i d v)[j]? = some w) :
    l[j]? = some w ∨ (j = i ∧ w = v) ∨ w = d := by
  by_cases hj : j = i
  · subst hj
    rw [setAt_getElem?_self] at hw
    cases hw
    exact Or.inr (Or.inl ⟨rfl, rfl⟩)
  · rw [setAt_getElem?_ne _ _ _ hj] at hw
    by_cases hl : j < l.length
    · rw [if_pos hl] at hw
      exact Or.inl hw
    · rw [if_neg hl] at hw
      by_cases hi2 : j < i + 1
      · rw [if_pos hi2] at hw
        cases hw
        exact Or.inr (Or.inr rfl)
      · rw [if_neg hi2] at hw
        cases hw

/-- Effect of the `add_node` promotion step: the kind gains a fresh
`Connected` slot for the wire, every registered tile is back-filled with
`PENDING` at that slot, and everything else is untouched. -/
theorem promoteWire_char {st : PartBuilder} {kindName : Str} {tk : TileKind}
    {wire : WireIdx} {i : Nat} {stB : PartBuilder}
    (hwf : KindsWF st.part)
    (htk : alGet st.part.tile_kinds kindName = some tk)
    (hInt : ∃ s0, alGet tk.wires wire = some (.Internal s0))
    (h : promoteWire st kindName tk wire = some (i, stB)) :
    KindsWF stB.part ∧
    stB.part.nodes = st.part.nodes ∧ stB.part.templates = st.part.templates ∧
    i = tk.conn_wires.length ∧
    kindsLE st.part.tile_kinds stB.part.tile_kinds ∧
    (∀ (crd : Coord), crd ∉ tk.tiles →
      alGet stB.part.tiles crd = alGet st.part.tiles crd) ∧
    (∀ (crd : Coord), alGet st.part.tiles crd = none →
      alGet stB.part.tiles crd = none) ∧
    (∀ (crd : Coord) (t : Tile), alGet st.part.tiles crd = some t →
      ∃ t1, alGet stB.part.tiles crd = some t1 ∧
        t1.name = t.name ∧ t1.kind = t.kind ∧ t1.sites = t.sites ∧
        t1.var_pips = t.var_pips ∧
        (∀ (j : Nat) (v : NodeIdx), j ≠ tk.conn_wires.length →
          t.conn_wires[j]? = some v → t1.conn_wires[j]? = some v) ∧
        (∀ (j : Nat) (v : NodeIdx), t1.conn_wires[j]? = some v →
          t.conn_wires[j]? = some v ∨ v = NodeIdx.PENDING ∨ v = NodeIdx.NONE)) ∧
    alGet stB.part.tile_kinds kindName = some { tk with
      wires := alPut tk.wires wire (.Connected tk.conn_wires.length),
      conn_wires := tk.conn_wires ++ [wire] } := by
  obtain ⟨s0, hInt0⟩ := hInt
  simp only [promoteWire] at h
  split at h
  next => cases h
  next tiles1 hbf =>
    cases h
    obtain ⟨ba0, bb0, bc0⟩ := backfill_char tk.tiles hbf
    have ba : ∀ (crd : Coord), crd ∉ tk.tiles →
        alGet tiles1 crd = alGet st.part.tiles crd := ba0
    have bb : ∀ (crd : Coord), alGet st.part.tiles crd = none →
        alGet tiles1 crd = none := bb0
    have bc : ∀ (crd : Coord) (t : Tile), alGet st.part.tiles crd = some t →
        ∃ t1, alGet tiles1 crd = some t1 ∧ t1.name = t.name ∧ t1.kind = t.kind ∧
          t1.sites = t.sites ∧ t1.var_pips = t.var_pips ∧
          (∀ (j : Nat) (v : NodeIdx), j ≠ tk.conn_wires.length →
            t.conn_wires[j]? = some v → t1.conn_wires[j]? = some v) ∧
          (∀ (j : Nat) (v : NodeIdx), t1.conn_wires[j]? = some v →
            t.conn_wires[j]? = some v ∨ v = NodeIdx.PENDING ∨ v = NodeIdx.NONE) ∧
          t1.conn_wires.length ≤
            max t.conn_wires.length (tk.conn_wires.length + 1) := bc0
    obtain ⟨hinj1, hbound1⟩ := @slots_extend tk wire
      (fun w1 w2 i0 => hwf.slotInj kindName tk w1 w2 i0 htk)
      (fun w0 i0 => hwf.slotBound kindName tk w0 i0 htk)
    refine ⟨?_, rfl, rfl, rfl, ?_, ba, bb, ?_, ?_⟩
    · constructor
      · intro k tk2 w1 w2 i0 htk2 hh1 hh2
        have htk2' : alGet (alPut st.part.tile_kinds kindName
            ({ tk with wires := alPut tk.wires wire (.Connected tk.conn_wires.length), conn_wires := tk.conn_wires ++ [wire] } : TileKind)) k = some tk2 := htk2
        by_cases hk : k = kindName
        · rw [hk, alGet_alPut_self] at htk2'
          cases htk2'
          exact hinj1 w1 w2 i0 hh1 hh2
        · rw [alGet_alPut_ne _ _ hk] at htk2'
          exact hwf.slotInj k tk2 w1 w2 i0 htk2' hh1 hh2
      · intro k tk2 w0 i0 htk2 hh1
        have htk2' : alGet (alPut st.part.tile_kinds kindName
            ({ tk with wires := alPut tk.wires wire (.Connected tk.conn_wires.length), conn_wires := tk.conn_wires ++ [wire] } : TileKind)) k = some tk2 := htk2
        by_cases hk : k = kindName
        · rw [hk, alGet_alPut_self] at htk2'
          cases htk2'
          exact hbound1 w0 i0 hh1
        · rw [alGet_alPut_ne _ _ hk] at htk2'
          exact hwf.slotBound k tk2 w0 i0 htk2' hh1
      · intro crd t ht
        have ht' : alGet tiles1 crd = some t := ht
        cases hold : alGet st.part.tiles crd with
        | none =>
          rw [bb crd hold] at ht'
          cases ht'
        | some t0 =>
          obtain ⟨tkO, hbind, hlen⟩ := hwf.kindOf crd t0 hold
          by_cases hk0 : t0.kind = kindName
          · obtain ⟨t1, ht1, e1, e2, e3, e4, e5, e6, e7⟩ := bc crd t0 hold
            rw [ht1] at ht'
            cases ht'
            rw [hk0, htk] at hbind
            cases hbind
            refine ⟨{ tk with wires := alPut tk.wires wire (.Connected tk.conn_wires.length), conn_wires := tk.conn_wires ++ [wire] }, ?_, ?_⟩
            · show alGet (alPut st.part.tile_kinds kindName _) t.kind = _
              rw [e2, hk0, alGet_alPut_self]
            · show t.conn_wires.length ≤ (tk.conn_wires ++ [wire]).length
              rw [List.length_append, List.length_singleton]
              omega
          · have hnotin := not_mem_kind_tiles_k hwf htk hold hk0
            rw [ba crd hnotin, hold] at ht'
            cases ht'
            refine ⟨tkO, ?_, hlen⟩
            show alGet (alPut st.part.tile_kinds kindName _) t.kind = _
            rw [alGet_alPut_ne _ _ hk0]
            exact hbind
      · intro k tk2 crd htk2 hmem
        have htk2' : alGet (alPut st.part.tile_kinds kindName
            ({ tk with wires := alPut tk.wires wire (.Connected tk.conn_wires.length), conn_wires := tk.conn_wires ++ [wire] } : TileKind)) k = some tk2 := htk2
        by_cases hk : k = kindName
        · rw [hk, alGet_alPut_self] at htk2'
          cases htk2'
          obtain ⟨t0, hold, hkind0⟩ := hwf.kindTiles kindName tk crd htk hmem
          obtain ⟨t1, ht1, e1, e2, e3, e4, e5, e6, e7⟩ := bc crd t0 hold
          refine ⟨t1, ht1, ?_⟩
          rw [e2, hkind0, hk]
        · rw [alGet_alPut_ne _ _ hk] at htk2'
          obtain ⟨t0, hold, hkind0⟩ := hwf.kindTiles k tk2 crd htk2' hmem
          obtain ⟨t1, ht1, e1, e2, e3, e4, e5, e6, e7⟩ := bc crd t0 hold
          refine ⟨t1, ht1, ?_⟩
          rw [e2, hkind0]
    · refine ⟨?_, ?_⟩
      · intro k hnone
        show alGet (alPut st.part.tile_kinds kindName _) k = none
        rw [alGet_alPut_ne]
        · exact hnone
        · intro he
          rw [he, htk] at hnone
          cases hnone
      · intro k tk0 htk0
        by_cases hk : k = kindName
        · rw [hk, htk] at htk0
          cases htk0
          refine ⟨{ tk with wires := alPut tk.wires wire (.Connected tk.conn_wires.length), conn_wires := tk.conn_wires ++ [wire] }, ?_, rfl, rfl, rfl, rfl, rfl, ?_, ?_⟩
          · show alGet (alPut st.part.tile_kinds kindName _) k = _
            rw [hk, alGet_alPut_self]
          · show tk.conn_wires.length ≤ (tk.conn_wires ++ [wire]).length
            rw [List.length_append, List.length_singleton]
            omega
          · intro w0 i0 hw0
            show alGet (alPut tk.wires wire _) w0 = _
            rw [alGet_alPut_ne]
            · exact hw0
            · intro he
              rw [he, hInt0] at hw0
              simp at hw0
        · refine ⟨tk0, ?_, rfl, rfl, rfl, rfl, rfl, Nat.le_refl _,
            fun _ _ hw => hw⟩
          show alGet (alPut st.part.tile_kinds kindName _) k = _
          rw [alGet_alPut_ne _ _ hk]
          exact htk0
    · intro crd t ht
      obtain ⟨t1, ht1, e1, e2, e3, e4, e5, e6, e7⟩ := bc crd t ht
      exact ⟨t1, ht1, e1, e2, e3, e4, e5, e6⟩
    · show alGet (alPut st.part.tile_kinds kindName _) kindName = _
      exact alGet_alPut_self _ _ _

/-- Writing `node` at the `Connected` slot of one endpoint realises
`tilesRel` for the singleton endpoint list. -/
theorem tilesRel_put {node : NodeIdx} {e : Coord × WireIdx × SpeedIdx}
    {B : AList Coord Tile} {KB : AList Str TileKind} {tile1 : Tile} {idx : Nat}
    {tkB : TileKind}
    (htile1 : alGet B e.1 = some tile1)
    (hbind : alGet KB tile1.kind = some tkB)
    (hconn : alGet tkB.wires e.2.1 = some (.Connected idx))
    (hcur : tile1.conn_wires.getD idx NodeIdx.NONE = NodeIdx.PENDING ∨
      tile1.conn_wires.getD idx NodeIdx.NONE = NodeIdx.NONE) :
    tilesRel node [e] B
      (alPut B e.1 { tile1 with
        conn_wires := setAt tile1.conn_wires idx NodeIdx.NONE node }) KB := by
  constructor
  · intro crd hnone
    rw [alGet_alPut_ne]
    · exact hnone
    · intro heq
      rw [heq, htile1] at hnone
      cases hnone
  · intro crd t ht
    by_cases hc : crd = e.1
    · rw [hc] at ht
      rw [ht] at htile1
      cases htile1
      rw [hc]
      refine ⟨_, alGet_alPut_self _ _ _, rfl, rfl, rfl, rfl, ?_, ?_⟩
      · intro j v hv hp hn
        by_cases hj : j = idx
        · exfalso
          have hgd : tile1.conn_wires.getD idx NodeIdx.NONE = v := by
            rw [List.getD_eq_getElem?_getD, ← hj, hv]
            rfl
          rcases hcur with hx | hx
          · rw [hgd] at hx
            exact hp hx
          · rw [hgd] at hx
            exact hn hx
        · exact setAt_fwd _ _ _ hj hv
      · intro j v hv
        rcases setAt_bwd' _ _ _ hv with hx | ⟨hji, hwv⟩ | hx
        · exact Or.inl hx
        · refine Or.inr (Or.inr (Or.inr ⟨hwv, e, List.mem_cons_self e [], rfl,
            tkB, hbind, ?_⟩))
          rw [hji]
          exact hconn
        · exact Or.inr (Or.inr (Or.inl hx))
    · rw [alGet_alPut_ne _ _ hc]
      exact ⟨t, ht, rfl, rfl, rfl, rfl, fun _ _ hv _ _ => hv,
        fun _ _ hv => Or.inl hv⟩

/-- Assembling the post-state facts of one endpoint-assignment step from
the facts of the (possibly promoted) intermediate state. -/
theorem stepNA_post {node : NodeIdx} {st stB : PartBuilder}
    {e : Coord × WireIdx × SpeedIdx} {tile1 : Tile} {idx : Nat} {tkB1 : TileKind}
    (hKB : KindsWF stB.part)
    (hTR1 : tilesRel node [e] st.part.tiles stB.part.tiles stB.part.tile_kinds)
    (htile1 : alGet stB.part.tiles e.1 = some tile1)
    (hbind1 : alGet stB.part.tile_kinds tile1.kind = some tkB1)
    (hconn1 : alGet tkB1.wires e.2.1 = some (.Connected idx))
    (hidxlt : idx < tkB1.conn_wires.length)
    (hcur : tile1.conn_wires.getD idx NodeIdx.NONE = NodeIdx.PENDING ∨
      tile1.conn_wires.getD idx NodeIdx.NONE = NodeIdx.NONE) :
    KindsWF { stB.part with
      tiles := alPut stB.part.tiles e.1
        { tile1 with conn_wires := setAt tile1.conn_wires idx NodeIdx.NONE node } } ∧
    tilesRel node [e] st.part.tiles
      (alPut stB.part.tiles e.1
        { tile1 with conn_wires := setAt tile1.conn_wires idx NodeIdx.NONE node })
      stB.part.tile_kinds ∧
    (∃ tile tk i2, alGet (alPut stB.part.tiles e.1
        { tile1 with conn_wires := setAt tile1.conn_wires idx NodeIdx.NONE node })
        e.1 = some tile ∧
      alGet stB.part.tile_kinds tile.kind = some tk ∧
      alGet tk.wires e.2.1 = some (.Connected i2) ∧
      tile.conn_wires[i2]? = some node) := by
  refine ⟨?_, ?_, ?_⟩
  · constructor
    · intro k tk2 w1 w2 i0 htk2 hh1 hh2
      exact hKB.slotInj k tk2 w1 w2 i0 htk2 hh1 hh2
    · intro k tk2 w0 i0 htk2 hh1
      exact hKB.slotBound k tk2 w0 i0 htk2 hh1
    · intro crd t ht
      have ht' : alGet (alPut stB.part.tiles e.1
          { tile1 with conn_wires := setAt tile1.conn_wires idx NodeIdx.NONE node })
          crd = some t := ht
      by_cases hc : crd = e.1
      · rw [hc, alGet_alPut_self] at ht'
        cases ht'
        obtain ⟨tkO, hbindO, hlenO⟩ := hKB.kindOf e.1 tile1 htile1
        rw [hbind1] at hbindO
        cases hbindO
        refine ⟨tkB1, hbind1, ?_⟩
        show (setAt tile1.conn_wires idx NodeIdx.NONE node).length ≤ _
        rw [setAt_length]
        omega
      · rw [alGet_alPut_ne _ _ hc] at ht'
        exact hKB.kindOf crd t ht'
    · intro k tk0 crd htk0 hmem
      obtain ⟨t0, hold, hkind0⟩ := hKB.kindTiles k tk0 crd htk0 hmem
      by_cases hc : crd = e.1
      · refine ⟨{ tile1 with
          conn_wires := setAt tile1.conn_wires idx NodeIdx.NONE node }, ?_, ?_⟩
        · show alGet (alPut stB.part.tiles e.1 _) crd = _
          rw [hc, alGet_alPut_self]
        · rw [hc, htile1] at hold
          cases hold
          exact hkind0
      · refine ⟨t0, ?_, hkind0⟩
        show alGet (alPut stB.part.tiles e.1 _) crd = _
        rw [alGet_alPut_ne _ _ hc]
        exact hold
  · exact tilesRel_comp hTR1 (tilesRel_put htile1 hbind1 hconn1 hcur)
      (kindsLE_refl _)
  · refine ⟨{ tile1 with
      conn_wires := setAt tile1.conn_wires idx NodeIdx.NONE node }, tkB1, idx,
      alGet_alPut_self _ _ _, hbind1, hconn1, ?_⟩
    show (setAt tile1.conn_wires idx NodeIdx.NONE node)[idx]? = _
    exact setAt_getElem?_self _ _ _ _

/-- Characterisation of one endpoint-assignment step. -/
theorem stepNA_char {node : NodeIdx} {st : PartBuilder}
    {e : Coord × WireIdx × SpeedIdx} {stM : PartBuilder}
    (hwf : KindsWF st.part) (hnP : node ≠ NodeIdx.PENDING)
    (h : stepNA node st e = some stM) :
    KindsWF stM.part ∧
    stM.part.nodes = st.part.nodes ∧ stM.part.templates = st.part.templates ∧
    kindsLE st.part.tile_kinds stM.part.tile_kinds ∧
    tilesRel node [e] st.part.tiles stM.part.tiles stM.part.tile_kinds ∧
    (∃ tile tk idx, alGet stM.part.tiles e.1 = some tile ∧
      alGet stM.part.tile_kinds tile.kind = some tk ∧
      alGet tk.wires e.2.1 = some (.Connected idx) ∧
      tile.conn_wires[idx]? = some node) := by
  simp only [stepNA] at h
  split at h
  next => cases h
  next tile htile =>
    split at h
    next => cases h
    next tk htk =>
      split at h
      next => cases h
      next tw hwv =>
        split at h
        next => cases h
        next idx stB hdis =>
          split at h
          next => cases h
          next tile1 htile1 =>
            split at h
            next => cases h
            next tile2 hset =>
              cases h
              obtain ⟨hrec, hcur0⟩ := set_conn_wire_some hset
              subst hrec
              cases tw with
              | Internal s0 =>
                have hpw : promoteWire st tile.kind tk e.2.1 =
                    some (idx, stB) := hdis
                obtain ⟨hKB, hfrn, hfrt, hieq, hLE, pnotin, pnone, pchar, pbind⟩ :=
                  promoteWire_char hwf htk ⟨s0, hwv⟩ hpw
                have hTR1 : tilesRel node [e] st.part.tiles stB.part.tiles
                    stB.part.tile_kinds := by
                  refine ⟨pnone, ?_⟩
                  intro crd t ht
                  by_cases hk0 : t.kind = tile.kind
                  · obtain ⟨t1, ht1, e1, e2, e3, e4, e5, e6⟩ := pchar crd t ht
                    refine ⟨t1, ht1, e1, e2, e3, e4, ?_, ?_⟩
                    · intro j v hv hp hn
                      by_cases hj : j = tk.conn_wires.length
                      · exfalso
                        obtain ⟨tkO, hbindO, hlenO⟩ := hwf.kindOf crd t ht
                        rw [hk0, htk] at hbindO
                        cases hbindO
                        have := getElem?_some_lt hv
                        omega
                      · exact e5 j v hj hv
                    · intro j v hv
                      rcases e6 j v hv with hx | hx | hx
                      · exact Or.inl hx
                      · exact Or.inr (Or.inl hx)
                      · exact Or.inr (Or.inr (Or.inl hx))
                  · have hnotin := not_mem_kind_tiles_k hwf htk ht hk0
                    refine ⟨t, ?_, rfl, rfl, rfl, rfl, fun _ _ hv _ _ => hv,
                      fun _ _ hv => Or.inl hv⟩
                    rw [pnotin crd hnotin]
                    exact ht
                have htile1' : alGet stB.part.tiles e.1 = some tile1 := htile1
                obtain ⟨t1, ht1, e1, e2, e3, e4, e5, e6⟩ := pchar e.1 tile htile
                rw [ht1] at htile1'
                cases htile1'
                have hbind1 : alGet stB.part.tile_kinds tile1.kind = some { tk with wires := alPut tk.wires e.2.1 (.Connected tk.conn_wires.length), conn_wires := tk.conn_wires ++ [e.2.1] } := by
                  rw [e2]
                  exact pbind
                have hconn1 : alGet ({ tk with wires := alPut tk.wires e.2.1 (.Connected tk.conn_wires.length), conn_wires := tk.conn_wires ++ [e.2.1] } : TileKind).wires e.2.1 = some (.Connected idx) := by
                  show alGet (alPut tk.wires e.2.1
                    (.Connected tk.conn_wires.length)) e.2.1 = _
                  rw [alGet_alPut_self, hieq]
                have hidxlt : idx < ({ tk with wires := alPut tk.wires e.2.1 (.Connected tk.conn_wires.length), conn_wires := tk.conn_wires ++ [e.2.1] } : TileKind).conn_wires.length := by
                  show idx < (tk.conn_wires ++ [e.2.1]).length
                  rw [List.length_append, List.length_singleton, hieq]
                  omega
                have hcur1 := hcur0 hnP
                obtain ⟨hKM, hTRM, hpost⟩ := stepNA_post hKB hTR1 ht1 hbind1
                  hconn1 hidxlt hcur1
                exact ⟨hKM, hfrn, hfrt, hLE, hTRM, hpost⟩
              | Connected i0 =>
                have hdis' : (some (i0, st) : Option (Nat × PartBuilder)) =
                    some (idx, stB) := hdis
                have hpair := Option.some.inj hdis'
                have hidx : idx = i0 := (congrArg Prod.fst hpair).symm
                have hstB : st = stB := congrArg Prod.snd hpair
                subst hstB
                rw [htile] at htile1
                cases htile1
                have hconn1 : alGet tk.wires e.2.1 = some (.Connected idx) := by
                  rw [hidx]
                  exact hwv
                have hidxlt : idx < tk.conn_wires.length :=
                  hwf.slotBound tile.kind tk e.2.1 idx htk hconn1
                have hcur1 := hcur0 hnP
                obtain ⟨hKM, hTRM, hpost⟩ := stepNA_post hwf
                  (tilesRel_refl node [e] st.part.tiles st.part.tile_kinds)
                  htile htk hconn1 hidxlt hcur1
                exact ⟨hKM, rfl, rfl, kindsLE_refl _, hTRM, hpost⟩

/-- The endpoint-assignment loop: it preserves the kind-level invariants,
changes only tile caches (as described by `tilesRel`), grows the kind table
monotonically, and leaves every endpoint's cache slot holding the node. -/
theorem nodeAssign_wf :
    ∀ (l : List (Coord × WireIdx × SpeedIdx)) {st st' : PartBuilder}
      {node : NodeIdx},
      nodeAssign node st l = some st' → KindsWF st.part →
      node ≠ NodeIdx.PENDING → node ≠ NodeIdx.NONE →
      KindsWF st'.part ∧
      st'.part.nodes = st.part.nodes ∧ st'.part.templates = st.part.templates ∧
      kindsLE st.part.tile_kinds st'.part.tile_kinds ∧
      tilesRel node l st.part.tiles st'.part.tiles st'.part.tile_kinds ∧
      (∀ e ∈ l, ∃ tile tk idx, alGet st'.part.tiles e.1 = some tile ∧
        alGet st'.part.tile_kinds tile.kind = some tk ∧
        alGet tk.wires e.2.1 = some (.Connected idx) ∧
        tile.conn_wires[idx]? = some node) := by
  intro l
  induction l with
  | nil =>
    intro st st' node h hwf hnP hnN
    simp only [nodeAssign] at h
    cases h
    exact ⟨hwf, rfl, rfl, kindsLE_refl _, tilesRel_refl _ _ _ _,
      fun e he => absurd he (List.not_mem_nil e)⟩
  | cons e rest ih =>
    intro st st' node h hwf hnP hnN
    rw [nodeAssign_cons] at h
    split at h
    next => cases h
    next stM hstep =>
      obtain ⟨hKM, hn1, ht1, hLE1, hTR1, hpost1⟩ := stepNA_char hwf hnP hstep
      obtain ⟨hK2, hn2, ht2, hLE2, hTR2, hpost2⟩ := ih h hKM hnP hnN
      refine ⟨hK2, hn2.trans hn1, ht2.trans ht1, kindsLE_trans hLE1 hLE2, ?_, ?_⟩
      · refine tilesRel_comp (tilesRel_mono ?_ hTR1) (tilesRel_mono ?_ hTR2) hLE2
        · intro x hx
          rw [List.mem_singleton.1 hx]
          exact List.mem_cons_self e rest
        · intro x hx
          exact List.mem_cons_of_mem e hx
      · intro e0 he0
        rcases List.mem_cons.1 he0 with he0e | hmem
        · rw [he0e]
          obtain ⟨tile, tk, idx, p1, p2, p3, p4⟩ := hpost1
          obtain ⟨t1, ht1', f1, f2, f3, f4, f5, f6⟩ := hTR2.2 e.1 tile p1
          obtain ⟨tk1, htk1, g1, g2, g3, g4, g5, g6, g7⟩ := hLE2.2 tile.kind tk p2
          exact ⟨t1, tk1, idx, ht1', by rw [f2]; exact htk1, g7 _ _ p3,
            f5 idx node p4 hnP hnN⟩
        · exact hpost2 e0 hmem

/-- Once a tile's cache slot holds `node` at the `Connected` slot of a wire,
no later endpoint of the same `nodeAssign` run may name that `(tile, wire)`
pair again: the second `set_conn_wire` would fail. -/
theorem nodeAssign_no_reclaim :
    ∀ (rest : List (Coord × WireIdx × SpeedIdx)) {st st' : PartBuilder}
      {node : NodeIdx} {c : Coord} {w : WireIdx},
      nodeAssign node st rest = some st' → KindsWF st.part →
      node ≠ NodeIdx.PENDING → node ≠ NodeIdx.NONE →
      (∃ tile tk idx, alGet st.part.tiles c = some tile ∧
        alGet st.part.tile_kinds tile.kind = some tk ∧
        alGet tk.wires w = some (.Connected idx) ∧
        tile.conn_wires[idx]? = some node) →
      ∀ (s : SpeedIdx), (c, w, s) ∉ rest := by
  intro rest
  induction rest with
  | nil =>
    intro st st' node c w h hwf hnP hnN hpost s
    exact List.not_mem_nil _
  | cons e rest' ih =>
    intro st st' node c w h hwf hnP hnN hpost s hmem
    rw [nodeAssign_cons] at h
    split at h
    next => cases h
    next stM hstep =>
      rcases List.mem_cons.1 hmem with heq | hmem'
      · obtain ⟨tile, tk, idx, htile, htk, hwire, hentry⟩ := hpost
        have hcur : (padTo tile.conn_wires (idx + 1) NodeIdx.NONE).getD idx
            NodeIdx.NONE = node := by
          rw [padTo_getD, List.getD_eq_getElem?_getD, hentry]
          rfl
        have hnone : tile.set_conn_wire idx node = none := by
          simp only [Tile.set_conn_wire]
          rw [hcur, if_pos ⟨hnP, hnN, hnP⟩]
        have hstep' : stepNA node st (c, w, s) = some stM := by
          rw [← heq] at hstep
          exact hstep
        simp only [stepNA, htile, htk, hwire, hnone] at hstep'
        cases hstep'
      · obtain ⟨hKM, hn1, ht1, hLE1, hTR1, hpost1⟩ := stepNA_char hwf hnP hstep
        obtain ⟨tile, tk, idx, htile, htk, hwire, hentry⟩ := hpost
        obtain ⟨t1, ht1', f1, f2, f3, f4, f5, f6⟩ := hTR1.2 c tile htile
        obtain ⟨tk1, htk1, g1, g2, g3, g4, g5, g6, g7⟩ := hLE1.2 tile.kind tk htk
        exact ih h hKM hnP hnN
          ⟨t1, tk1, idx, ht1', by rw [f2]; exact htk1, g7 w idx hwire,
            f5 idx node hentry hnP hnN⟩ s hmem'

/-- A successful `nodeAssign` run visits no `(tile, wire)` pair twice. -/
theorem nodeAssign_nodup :
    ∀ (l : List (Coord × WireIdx × SpeedIdx)) {st st' : PartBuilder}
      {node : NodeIdx},
      nodeAssign node st l = some st' → KindsWF st.part →
      node ≠ NodeIdx.PENDING → node ≠ NodeIdx.NONE →
      (l.map (fun e => (e.1, e.2.1))).Nodup := by
  intro l
  induction l with
  | nil =>
    intro st st' node h hwf hnP hnN
    simp
  | cons e rest ih =>
    intro st st' node h hwf hnP hnN
    rw [nodeAssign_cons] at h
    split at h
    next => cases h
    next stM hstep =>
      obtain ⟨hKM, hn1, ht1, hLE1, hTR1, hpost1⟩ := stepNA_char hwf hnP hstep
      simp only [List.map_cons, List.nodup_cons]
      refine ⟨?_, ih h hKM hnP hnN⟩
      intro hmem
      obtain ⟨e2, he2, heq⟩ := List.mem_map.1 hmem
      have h1 : e2.1 = e.1 := congrArg (fun p : Coord × WireIdx => p.1) heq
      have h2 : e2.2.1 = e.2.1 := congrArg (fun p : Coord × WireIdx => p.2) heq
      have he2' : (e.1, e.2.1, e2.2.2) ∈ rest := by
        rw [← h1, ← h2]
        exact he2
      exact nodeAssign_no_reclaim rest h hKM hnP hnN hpost1 e2.2.2 he2'

theorem templateIdxStep_cases {st : PartBuilder} {T : TkNodeTemplate} {tidx : Nat}
    {st' : PartBuilder} (h : templateIdxStep st T = some (tidx, st')) :
    st'.part.nodes = st.part.nodes ∧ st'.part.tiles = st.part.tiles ∧
    st'.part.tile_kinds = st.part.tile_kinds ∧
    ((st' = st ∧ alGet st.templates_idx T = some tidx) ∨
     (tidx = st.part.templates.length ∧
      st'.part.templates = st.part.templates ++ [T] ∧
      st'.templates_idx = alPut st.templates_idx T st.part.templates.length)) := by
  unfold templateIdxStep at h
  split at h
  next hti =>
    cases h
    exact ⟨rfl, rfl, rfl, Or.inl ⟨rfl, hti⟩⟩
  next hti =>
    dsimp only at h
    split at h
    next => cases h
    next hcap =>
      cases h
      exact ⟨rfl, rfl, rfl, Or.inr ⟨rfl, rfl, rfl⟩⟩

/-- Appending a duplicate-free template preserves the structural invariant. -/
theorem Wf_templates_append {p : Part} (hw : Wf p) (T : TkNodeTemplate)
    (hnd : (T.wires.map (fun tw => (tw.delta.x, tw.delta.y, tw.wire))).Nodup) :
    Wf { p with templates := p.templates ++ [T] } := by
  constructor
  · exact hw.nodesBound
  · intro i node hn
    have := hw.tmplBound i node hn
    show node.template < (p.templates ++ [T]).length
    rw [List.length_append]
    omega
  · intro i node tmpl tw hn htm htw
    have hlt := hw.tmplBound i node hn
    have htm' : p.templates[node.template]? = some tmpl := by
      have h2 : (p.templates ++ [T])[node.template]? = some tmpl := htm
      rw [List.getElem?_append_left hlt] at h2
      exact h2
    exact hw.walk i node tmpl tw hn htm' htw
  · intro coord tile idx n htile hentry hp hn
    obtain ⟨nodeO, tmplO, twO, tkO, c1, c2, c3, c4, c5, c6⟩ :=
      hw.conc coord tile idx n htile hentry hp hn
    refine ⟨nodeO, tmplO, twO, tkO, c1, ?_, c3, c4, c5, c6⟩
    show (p.templates ++ [T])[nodeO.template]? = some tmplO
    rw [List.getElem?_append_left (hw.tmplBound n.idx nodeO c1)]
    exact c2
  · exact hw.slotInj
  · exact hw.slotBound
  · exact hw.kindOf
  · exact hw.kindTiles
  · intro t tmpl htm
    have htm' : (p.templates ++ [T])[t]? = some tmpl := htm
    by_cases hlt : t < p.templates.length
    · rw [List.getElem?_append_left hlt] at htm'
      exact hw.tmplNodup t tmpl htm'
    · rw [List.getElem?_append_right (Nat.le_of_not_lt hlt)] at htm'
      by_cases ht0 : t = p.templates.length
      · rw [ht0, Nat.sub_self, List.getElem?_cons_zero] at htm'
        cases htm'
        exact hnd
      · rw [List.getElem?_eq_none] at htm'
        · cases htm'
        · simp only [List.length_singleton]
          omega

/-- Builder-level invariant: the template dedup table points into the
template list correctly. -/
def tmplIdxOK (st : PartBuilder) : Prop :=
  ∀ (T : TkNodeTemplate) (i : Nat), alGet st.templates_idx T = some i →
    st.part.templates[i]? = some T

theorem add_tile_frame {st : PartBuilder} {coord : Coord} {name kind : Str}
    {sites : List SiteArg} {wires : List (Str × Option Str)} {pips : List PipArg}
    {st' : PartBuilder}
    (h : add_tile st coord name kind sites wires pips = some st') :
    st'.part.nodes = st.part.nodes ∧ st'.part.templates = st.part.templates ∧
    st'.templates_idx = st.templates_idx := by
  simp only [add_tile] at h
  split at h
  next hcond =>
    split at h
    next => cases h
    next wiresI pipsI sitesI st4 hpre =>
      have hio := addTilePrefix_internsOnly hpre
      split at h
      next tk htk =>
        split at h
        next => cases h
        next tkA ls hms =>
          split at h
          next => cases h
          next tkB lc tilesB hmw =>
            split at h
            next => cases h
            next tkC lv tilesC hmp =>
              cases h
              exact ⟨hio.2.2.2.2.2.2.2.1, hio.2.2.2.2.2.2.2.2.1,
                hio.2.2.2.2.2.2.2.2.2.2.2.2⟩
      next htk =>
        cases h
        exact ⟨hio.2.2.2.2.2.2.2.1, hio.2.2.2.2.2.2.2.2.1,
          hio.2.2.2.2.2.2.2.2.2.2.2.2⟩
  next => cases h

/-- A successful `add_node` preserves the structural invariant and the
template-index table invariant. -/
theorem add_node_wf {st st' : PartBuilder} {ws : List (Str × Str × Option Str)}
    (hwf : Wf st.part) (hidx : tmplIdxOK st)
    (h : add_node st ws = some st') : Wf st'.part ∧ tmplIdxOK st' := by
  unfold add_node at h
  split at h
  next => cases h
  next l st1 hres =>
    have hio := resolveNodeWires_internsOnly ws hres
    have hwf1 : Wf st1.part := Wf_transport hwf hio.2.2.2.2.2.2.2.1
      hio.2.2.2.2.2.2.2.2.1 hio.2.2.2.2.2.2.1 hio.2.2.2.2.2.1
    have hidx1 : tmplIdxOK st1 := by
      intro T i hT
      rw [hio.2.2.2.2.2.2.2.2.2.2.2.2] at hT
      rw [hio.2.2.2.2.2.2.2.2.1]
      exact hidx T i hT
    have hgen : ∀ {stG : PartBuilder}, add_node_general st1 l = some stG →
        Wf stG.part ∧ tmplIdxOK stG := by
      intro stG hG
      unfold add_node_general at hG
      cases hbx : listMin (l.map (fun e => e.1.x)) with
      | none =>
        cases hby : listMin (l.map (fun e => e.1.y)) with
        | none =>
          simp only [hbx, hby] at hG
          cases hG
        | some byy =>
          simp only [hbx, hby] at hG
          cases hG
      | some bx =>
        cases hby : listMin (l.map (fun e => e.1.y)) with
        | none =>
          simp only [hbx, hby] at hG
          cases hG
        | some byy =>
          simp only [hbx, hby] at hG
          split at hG
          next => cases hG
          next tidx stT hstep =>
            split at hG
            next => cases hG
            next node hraw =>
              have hfromraw : stT.part.nodes.length < 4294967294 ∧
                  node = ⟨stT.part.nodes.length⟩ := by
                simp only [NodeIdx.from_raw] at hraw
                split at hraw
                next hl =>
                  cases hraw
                  exact ⟨hl, rfl⟩
                next hl => cases hraw
              obtain ⟨hNlt, hnodeEq⟩ := hfromraw
              subst hnodeEq
              obtain ⟨tcn, tct, tck, tcd⟩ := templateIdxStep_cases hstep
              have hnP : (⟨stT.part.nodes.length⟩ : NodeIdx) ≠ NodeIdx.PENDING := by
                intro he
                have := congrArg NodeIdx.idx he
                simp only [NodeIdx.PENDING] at this
                omega
              have hnN : (⟨stT.part.nodes.length⟩ : NodeIdx) ≠ NodeIdx.NONE := by
                intro he
                have := congrArg NodeIdx.idx he
                simp only [NodeIdx.NONE] at this
                omega
              have hKN : KindsWF ({ stT with part := { stT.part with nodes := stT.part.nodes ++ [⟨⟨bx, byy⟩, tidx⟩] } } : PartBuilder).part :=
                KindsWF_transport hwf1.kindsWF tct tck
              obtain ⟨hK', hnodes', htmpl', hLE, hTR, hposts⟩ :=
                nodeAssign_wf l hG hKN hnP hnN
              have hnodesG : stG.part.nodes = stT.part.nodes ++
                  [(⟨⟨bx, byy⟩, tidx⟩ : TkNode)] := hnodes'
              have htmplG : stG.part.templates = stT.part.templates := htmpl'
              have hTR1 : tilesRel ⟨stT.part.nodes.length⟩ l st1.part.tiles
                  stG.part.tiles stG.part.tile_kinds := by
                rw [← tct]
                exact hTR
              have hLE1 : kindsLE st1.part.tile_kinds stG.part.tile_kinds := by
                rw [← tck]
                exact hLE
              have hminx := (listMin_eq_some_iff _ bx).mp hbx
              have hminy := (listMin_eq_some_iff _ byy).mp hby
              have hnd0 : (l.map (fun e => (e.1, e.2.1))).Nodup :=
                nodeAssign_nodup l hG hKN hnP hnN
              have hndT : ((sortTW (l.map (relTW bx byy))).map
                  (fun tw => (tw.delta.x, tw.delta.y, tw.wire))).Nodup := by
                have hperm : ((sortTW (l.map (relTW bx byy))).map
                    (fun tw => (tw.delta.x, tw.delta.y, tw.wire))).Perm
                    ((l.map (relTW bx byy)).map
                      (fun tw => (tw.delta.x, tw.delta.y, tw.wire))) :=
                  (List.perm_insertionSort twLE _).map _
                rw [hperm.nodup_iff, List.map_map]
                have hpw : l.Pairwise (fun a b => (a.1, a.2.1) ≠ (b.1, b.2.1)) :=
                  List.pairwise_map.mp hnd0
                refine List.pairwise_map.mpr (hpw.imp_of_mem ?_)
                intro a b ha hb hne heq
                apply hne
                simp only [Function.comp, relTW, Prod.mk.injEq] at heq
                obtain ⟨h1, h2, h3⟩ := heq
                have hax : bx ≤ a.1.x := hminx.2 _ (List.mem_map_of_mem _ ha)
                have hbxx : bx ≤ b.1.x := hminx.2 _ (List.mem_map_of_mem _ hb)
                have hay : byy ≤ a.1.y := hminy.2 _ (List.mem_map_of_mem _ ha)
                have hby2 : byy ≤ b.1.y := hminy.2 _ (List.mem_map_of_mem _ hb)
                have hx : a.1.x = b.1.x := by omega
                have hy : a.1.y = b.1.y := by omega
                have hco : a.1 = b.1 := by
                  have hcc : (⟨a.1.x, a.1.y⟩ : Coord) = ⟨b.1.x, b.1.y⟩ := by
                    rw [hx, hy]
                  exact hcc
                rw [Prod.mk.injEq]
                exact ⟨hco, h3⟩
              have hTfact : stT.part.templates[tidx]? =
                  some ⟨sortTW (l.map (relTW bx byy))⟩ := by
                rcases tcd with ⟨heq, hti⟩ | ⟨h1, h2, h3⟩
                · rw [heq]
                  exact hidx1 _ tidx hti
                · rw [h2, h1]
                  exact List.getElem?_concat_length _ _
              have hWfT : Wf stT.part := by
                rcases tcd with ⟨heq, hti⟩ | ⟨h1, h2, h3⟩
                · rw [heq]
                  exact hwf1
                · exact Wf_transport
                    (Wf_templates_append hwf1 ⟨sortTW (l.map (relTW bx byy))⟩ hndT)
                    tcn h2 tct tck
              have hidxT : tmplIdxOK stT := by
                rcases tcd with ⟨heq, hti⟩ | ⟨h1, h2, h3⟩
                · rw [heq]
                  exact hidx1
                · intro T' i hT'
                  rw [h3, alGet_alPut] at hT'
                  rw [h2]
                  by_cases hTe : T' = ⟨sortTW (l.map (relTW bx byy))⟩
                  · rw [if_pos hTe] at hT'
                    cases hT'
                    rw [hTe]
                    exact List.getElem?_concat_length _ _
                  · rw [if_neg hTe] at hT'
                    have hold := hidx1 T' i hT'
                    rw [List.getElem?_append_left (getElem?_some_lt hold)]
                    exact hold
              have hTfwd : ∀ (j : Nat) (tm : TkNodeTemplate),
                  st1.part.templates[j]? = some tm →
                  stT.part.templates[j]? = some tm := by
                rcases tcd with ⟨heq, hti⟩ | ⟨h1, h2, h3⟩
                · rw [heq]
                  exact fun _ _ hx => hx
                · intro j tm hx
                  rw [h2, List.getElem?_append_left (getElem?_some_lt hx)]
                  exact hx
              have hTback : ∀ (j : Nat) (tm : TkNodeTemplate),
                  j < st1.part.templates.length →
                  stT.part.templates[j]? = some tm →
                  st1.part.templates[j]? = some tm := by
                rcases tcd with ⟨heq, hti⟩ | ⟨h1, h2, h3⟩
                · rw [heq]
                  exact fun _ _ _ hx => hx
                · intro j tm hj hx
                  rw [h2, List.getElem?_append_left hj] at hx
                  exact hx
              have hfrG := nodeAssign_frame l ⟨stT.part.nodes.length⟩ hG
              refine ⟨?_, ?_⟩
              · constructor
                · rw [hnodesG, List.length_append, List.length_singleton]
                  omega
                · intro i nodeI hni
                  rw [hnodesG] at hni
                  rw [htmplG]
                  by_cases hilt : i < stT.part.nodes.length
                  · rw [List.getElem?_append_left hilt] at hni
                    exact hWfT.tmplBound i nodeI hni
                  · rw [List.getElem?_append_right (Nat.le_of_not_lt hilt)] at hni
                    have hieq : i = stT.part.nodes.length := by
                      by_contra hne
                      rw [List.getElem?_eq_none] at hni
                      · cases hni
                      · simp only [List.length_singleton]
                        omega
                    rw [hieq, Nat.sub_self, List.getElem?_cons_zero] at hni
                    cases hni
                    show tidx < stT.part.templates.length
                    exact getElem?_some_lt hTfact
                · intro i nodeI tmpl tw hni htm htw
                  rw [hnodesG] at hni
                  have htm2 : stT.part.templates[nodeI.template]? = some tmpl := by
                    rw [htmplG] at htm
                    exact htm
                  by_cases hilt : i < stT.part.nodes.length
                  · rw [List.getElem?_append_left hilt] at hni
                    have hni1 : st1.part.nodes[i]? = some nodeI := by
                      rw [← tcn]
                      exact hni
                    have htm1 : st1.part.templates[nodeI.template]? = some tmpl :=
                      hTback _ _ (hwf1.tmplBound i nodeI hni1) htm2
                    obtain ⟨tile, tkO, idx, htile, htkO, hwire, hentry⟩ :=
                      hwf1.walk i nodeI tmpl tw hni1 htm1 htw
                    obtain ⟨t1, ht1', f1, f2, f3, f4, f5, f6⟩ :=
                      hTR1.2 _ tile htile
                    obtain ⟨tk1, htk1, g1, g2, g3, g4, g5, g6, g7⟩ :=
                      hLE1.2 tile.kind tkO htkO
                    have hiP : (⟨i⟩ : NodeIdx) ≠ NodeIdx.PENDING := by
                      intro he
                      have := congrArg NodeIdx.idx he
                      simp only [NodeIdx.PENDING] at this
                      omega
                    have hiN : (⟨i⟩ : NodeIdx) ≠ NodeIdx.NONE := by
                      intro he
                      have := congrArg NodeIdx.idx he
                      simp only [NodeIdx.NONE] at this
                      omega
                    exact ⟨t1, tk1, idx, ht1', by rw [f2]; exact htk1,
                      g7 _ _ hwire, f5 idx ⟨i⟩ hentry hiP hiN⟩
                  · rw [List.getElem?_append_right (Nat.le_of_not_lt hilt)] at hni
                    have hieq : i = stT.part.nodes.length := by
                      by_contra hne
                      rw [List.getElem?_eq_none] at hni
                      · cases hni
                      · simp only [List.length_singleton]
                        omega
                    subst hieq
                    rw [Nat.sub_self, List.getElem?_cons_zero] at hni
                    cases hni
                    have htm3 : stT.part.templates[tidx]? = some tmpl := htm2
                    rw [hTfact] at htm3
                    cases htm3
                    have htw2 : tw ∈ l.map (relTW bx byy) :=
                      (List.perm_insertionSort twLE _).mem_iff.mp htw
                    obtain ⟨e, he, heq⟩ := List.mem_map.1 htw2
                    obtain ⟨tileE, tkE, idxE, p1, p2, p3, p4⟩ := hposts e he
                    have hcx : bx ≤ e.1.x := hminx.2 _ (List.mem_map_of_mem _ he)
                    have hcy : byy ≤ e.1.y := hminy.2 _ (List.mem_map_of_mem _ he)
                    have hcoord : (⟨(⟨⟨bx, byy⟩, tidx⟩ : TkNode).base.x + tw.delta.x,
                        (⟨⟨bx, byy⟩, tidx⟩ : TkNode).base.y + tw.delta.y⟩ : Coord) =
                        e.1 := by
                      rw [← heq]
                      show (⟨bx + (e.1.x - bx), byy + (e.1.y - byy)⟩ : Coord) = e.1
                      have h1 : bx + (e.1.x - bx) = e.1.x := by omega
                      have h2 : byy + (e.1.y - byy) = e.1.y := by omega
                      rw [h1, h2]
                    refine ⟨tileE, tkE, idxE, ?_, p2, ?_, p4⟩
                    · rw [hcoord]
                      exact p1
                    · rw [← heq]
                      exact p3
                · intro coord' tile' idx n htile' hentry' hpn hnn
                  cases hold : alGet st1.part.tiles coord' with
                  | none =>
                    rw [hTR1.1 coord' hold] at htile'
                    cases htile'
                  | some t =>
                    obtain ⟨t1, ht1', f1, f2, f3, f4, f5, f6⟩ := hTR1.2 coord' t hold
                    rw [ht1'] at htile'
                    cases htile'
                    rcases f6 idx n hentry' with hE | hE | hE |
                      ⟨hE, e, he, hec, tk1, hbind1, hconn1⟩
                    · obtain ⟨nodeO, tmplO, twO, tkO, c1, c2, c3, c4, c5, c6⟩ :=
                        hwf1.conc coord' t idx n hold hE hpn hnn
                      obtain ⟨tkO1, htkO1, g1, g2, g3, g4, g5, g6, g7⟩ :=
                        hLE1.2 t.kind tkO c5
                      refine ⟨nodeO, tmplO, twO, tkO1, ?_, ?_, c3, c4, ?_, g7 _ _ c6⟩
                      · rw [hnodesG]
                        have hltO : n.idx < st1.part.nodes.length :=
                          getElem?_some_lt c1
                        have hltT : n.idx < stT.part.nodes.length := by
                          rw [tcn]
                          exact hltO
                        rw [List.getElem?_append_left hltT, tcn]
                        exact c1
                      · rw [htmplG]
                        exact hTfwd _ _ c2
                      · rw [f2]
                        exact htkO1
                    · exact absurd hE hpn
                    · exact absurd hE hnn
                    · subst hE
                      have hcx : bx ≤ e.1.x := hminx.2 _ (List.mem_map_of_mem _ he)
                      have hcy : byy ≤ e.1.y := hminy.2 _ (List.mem_map_of_mem _ he)
                      refine ⟨⟨⟨bx, byy⟩, tidx⟩, ⟨sortTW (l.map (relTW bx byy))⟩,
                        relTW bx byy e, tk1, ?_, ?_, ?_, ?_, ?_, ?_⟩
                      · rw [hnodesG]
                        show (stT.part.nodes ++
                          [(⟨⟨bx, byy⟩, tidx⟩ : TkNode)])[stT.part.nodes.length]? = _
                        exact List.getElem?_concat_length _ _
                      · rw [htmplG]
                        show stT.part.templates[tidx]? = _
                        exact hTfact
                      · show relTW bx byy e ∈ sortTW (l.map (relTW bx byy))
                        exact (List.perm_insertionSort twLE _).mem_iff.mpr
                          (List.mem_map_of_mem _ he)
                      · show coord' = (⟨bx + (e.1.x - bx), byy + (e.1.y - byy)⟩ : Coord)
                        rw [← hec]
                        have h1 : bx + (e.1.x - bx) = e.1.x := by omega
                        have h2 : byy + (e.1.y - byy) = e.1.y := by omega
                        rw [h1, h2]
                      · rw [f2]
                        exact hbind1
                      · exact hconn1
                · exact hK'.slotInj
                · exact hK'.slotBound
                · exact hK'.kindOf
                · exact hK'.kindTiles
                · intro t0 tmplX htmX
                  rw [htmplG] at htmX
                  rcases tcd with ⟨heq, hti⟩ | ⟨h1, h2, h3⟩
                  · rw [heq] at htmX
                    exact hwf1.tmplNodup t0 tmplX htmX
                  · rw [h2] at htmX
                    by_cases hlt2 : t0 < st1.part.templates.length
                    · rw [List.getElem?_append_left hlt2] at htmX
                      exact hwf1.tmplNodup t0 tmplX htmX
                    · rw [List.getElem?_append_right (Nat.le_of_not_lt hlt2)] at htmX
                      have ht0 : t0 = st1.part.templates.length := by
                        by_contra hne
                        rw [List.getElem?_eq_none] at htmX
                        · cases htmX
                        · simp only [List.length_singleton]
                          omega
                      rw [ht0, Nat.sub_self, List.getElem?_cons_zero] at htmX
                      cases htmX
                      exact hndT
              · intro T' i hT'
                rw [hfrG.2.2] at hT'
                rw [htmplG]
                exact hidxT T' i hT'
    split at h
    next coord wire speed =>
      split at h
      next => cases h
      next tileX htileX =>
        split at h
        next => cases h
        next tkX htkX =>
          split at h
          next => cases h
          next twX hwvX =>
            split at h
            next htwi =>
              cases h
              exact ⟨hwf1, hidx1⟩
            next htwi =>
              exact hgen h
    all_goals exact hgen h

theorem round_trip_res_core (p : Part) (hwf : Wf p) :
    ∃ p1, from_file_model p = some p1 ∧
      (∀ (coord : Coord) (w : WireIdx), resolve_conn_wire p1 coord w =
        (resolve_conn_wire p coord w).map
          (fun n => if n = NodeIdx.PENDING then NodeIdx.NONE else n)) ∧
      (∀ (coord : Coord) (key : WireIdx × WireIdx),
        resolve_pip_speed p1 coord key = resolve_pip_speed p coord key) := by
  obtain ⟨p1, hrun, hfr, hrel⟩ := from_file_model_spec p hwf
  refine ⟨p1, hrun, ?_, ?_⟩
  · intro coord w
    cases htile : alGet p.tiles coord with
    | none =>
      simp only [resolve_conn_wire, htile, (hrel coord).1 htile]
      rfl
    | some tileP =>
      obtain ⟨tileQ, hq, hname, hkind, hsites, hvp, hconn⟩ :=
        (hrel coord).2 tileP htile
      have hq1k : alGet p1.tile_kinds tileQ.kind = alGet p.tile_kinds tileP.kind := by
        rw [hfr.2.2.2.2.2.1, hkind]
      cases htk : alGet p.tile_kinds tileP.kind with
      | none =>
        simp only [resolve_conn_wire, hq, htile, hq1k, htk]
        rfl
      | some tk =>
        cases hw : alGet tk.wires w with
        | none =>
          simp only [resolve_conn_wire, hq, htile, hq1k, htk, hw]
          rfl
        | some tws =>
          cases tws with
          | Internal s =>
            simp only [resolve_conn_wire, hq, htile, hq1k, htk, hw]
            rfl
          | Connected i =>
            simp only [resolve_conn_wire, hq, htile, hq1k, htk, hw,
              Option.map_some']
            by_cases hC : ClaimedBelow p p.nodes.length coord i
            · rw [(hconn i).1 hC]
              obtain ⟨n, hn, hcl⟩ := hC
              obtain ⟨tileP2, htileP2, hentry2⟩ := claims_entry hwf hcl
              rw [htile] at htileP2
              cases htileP2
              have hgd : tileP.conn_wires.getD i NodeIdx.NONE = ⟨n⟩ := by
                rw [List.getD_eq_getElem?_getD, hentry2]
                rfl
              have hlt : n < 4294967294 := by
                have h1 := hwf.nodesBound
                have h2 := claims_lt hcl
                omega
              rw [hgd, if_neg (fun hx => by
                have hxx := congrArg NodeIdx.idx hx
                simp only [NodeIdx.PENDING] at hxx
                omega)]
            · rw [(hconn i).2 hC]
              cases he : tileP.conn_wires[i]? with
              | none =>
                rw [List.getD_eq_getElem?_getD, he]
                rw [if_neg (by decide)]
                rfl
              | some v0 =>
                have hgd : tileP.conn_wires.getD i NodeIdx.NONE = v0 := by
                  rw [List.getD_eq_getElem?_getD, he]
                  rfl
                rw [hgd]
                by_cases hvP : v0 = NodeIdx.PENDING
                · rw [if_pos hvP]
                · by_cases hvN : v0 = NodeIdx.NONE
                  · rw [if_neg hvP, hvN]
                  · exfalso
                    have hcl := conc_claims hwf htile he hvP hvN
                    exact hC ⟨v0.idx, claims_lt hcl, hcl⟩
  · intro coord key
    cases htile : alGet p.tiles coord with
    | none =>
      simp only [resolve_pip_speed, htile, (hrel coord).1 htile]
    | some tileP =>
      obtain ⟨tileQ, hq, hname, hkind, hsites, hvp, hconn⟩ :=
        (hrel coord).2 tileP htile
      have hq1k : alGet p1.tile_kinds tileQ.kind = alGet p.tile_kinds tileP.kind := by
        rw [hfr.2.2.2.2.2.1, hkind]
      cases htk : alGet p.tile_kinds tileP.kind with
      | none => simp only [resolve_pip_speed, hq, htile, hq1k, htk]
      | some tk =>
        cases hp : alGet tk.pips key with
        | none => simp only [resolve_pip_speed, hq, htile, hq1k, htk, hp]
        | some pip =>
          cases hm : pip.mode with
          | Const s =>
            simp only [resolve_pip_speed, hq, htile, hq1k, htk, hp, hm]
          | Variable j =>
            simp only [resolve_pip_speed, hq, htile, hq1k, htk, hp, hm, hvp]

/-- Tile `u0` of kind `U` with wire `B`, no speed. -/
def cx1B1 : PartBuilder :=
  (add_tile (PartBuilder.new ['p'] ['f'] Source.ISE 2 1) ⟨0, 0⟩ ['u', '0'] ['U']
    [] [(['B'], none)] []).getD cxFallback

/-- A second `U` instance whose differing speed for `B` forces promotion:
both tiles end with a `PENDING` cache entry never assigned a node. -/
def cx1B2 : PartBuilder :=
  (add_tile cx1B1 ⟨1, 0⟩ ['u', '1'] ['U'] [] [(['B'], some ['s'])] []).getD cxFallback

/-- C1 counterexample: a `(tile, wire)` whose cache entry is `PENDING`
before serialization resolves to `NONE` after the round trip — the
rebuilt cache only receives entries from the node/template walk, and a
promoted-but-never-assigned slot has no node to rebuild it from. -/
theorem round_trip_cx :
    resolve_conn_wire cx1B2.part ⟨0, 0⟩ ⟨0⟩ = some NodeIdx.PENDING ∧
    (from_file_model cx1B2.part).map (fun p => resolve_conn_wire p ⟨0, 0⟩ ⟨0⟩) =
      some (some NodeIdx.NONE) := by
  decide

/-- Every builder-reachable state satisfies the structural invariant and
the template-index invariant. -/
theorem reached_wf : ∀ {st : PartBuilder}, Reached st →
    Wf st.part ∧ tmplIdxOK st := by
  intro st h
  induction h with
  | new pname fam src w0 h0 =>
    refine ⟨?_, ?_⟩
    · constructor
      · exact Nat.zero_le _
      · intro i node hn
        have hn' : ([] : List TkNode)[i]? = some node := hn
        rw [List.getElem?_nil] at hn'
        cases hn'
      · intro i node tmpl tw hn htm htw
        have hn' : ([] : List TkNode)[i]? = some node := hn
        rw [List.getElem?_nil] at hn'
        cases hn'
      · intro coord tile idx n htile hentry hp hnn
        have h' : (none : Option Tile) = some tile := htile
        cases h'
      · intro kind tk w1 w2 i htk h1 h2
        have h' : (none : Option TileKind) = some tk := htk
        cases h'
      · intro kind tk w1 i htk h1
        have h' : (none : Option TileKind) = some tk := htk
        cases h'
      · intro coord tile htile
        have h' : (none : Option Tile) = some tile := htile
        cases h'
      · intro kind tk coord htk hmem
        have h' : (none : Option TileKind) = some tk := htk
        cases h'
      · intro t tmpl htm
        have h' : ([] : List TkNodeTemplate)[t]? = some tmpl := htm
        rw [List.getElem?_nil] at h'
        cases h'
    · intro T i hT
      have h' : (none : Option Nat) = some i := hT
      cases h'
  | tile hr hfresh hadd ih =>
    obtain ⟨hwfP, hidxP⟩ := ih
    refine ⟨add_tile_wf hwfP hfresh hadd, ?_⟩
    intro T i hT
    obtain ⟨hn, ht, hti⟩ := add_tile_frame hadd
    rw [hti] at hT
    rw [ht]
    exact hidxP T i hT
  | node hr hadd ih =>
    obtain ⟨hwfP, hidxP⟩ := ih
    exact add_node_wf hwfP hidxP hadd
  | pkg name pins hr ih =>
    obtain ⟨hwfP, hidxP⟩ := ih
    exact ⟨Wf_transport hwfP rfl rfl rfl rfl, hidxP⟩
  | combo n d p0 s t hr ih =>
    obtain ⟨hwfP, hidxP⟩ := ih
    exact ⟨Wf_transport hwfP rfl rfl rfl rfl, hidxP⟩

/-- C1 (amended).  For every `Part` built through the public `PartBuilder`
API (each coordinate registered once), the serialization round trip —
dropping the serde-skipped per-tile `conn_wires` caches and rebuilding them
with `post_deserialize` — succeeds, preserves the effective speed of every
`(tile, pip)` pair exactly, and preserves the resolved NodeIdx of every
`(tile, wire)` pair except that a cache entry holding the `PENDING`
sentinel (promoted but never assigned a node) resolves to `NONE` after the
round trip: the spec's "in particular this must hold for conn_wire entries
that were PENDING" is exactly the part that fails, because the rebuilt
cache only receives entries from the node/template walk. -/
theorem round_trip_resolution {st : PartBuilder} (hr : Reached st) :
    ∃ p1, from_file_model st.part = some p1 ∧
      (∀ (coord : Coord) (w : WireIdx), resolve_conn_wire p1 coord w =
        (resolve_conn_wire st.part coord w).map
          (fun n => if n = NodeIdx.PENDING then NodeIdx.NONE else n)) ∧
      (∀ (coord : Coord) (key : WireIdx × WireIdx),
        resolve_pip_speed p1 coord key = resolve_pip_speed st.part coord key) :=
  round_trip_res_core st.part (reached_wf hr).1

/-- Witness for C1 (amended) at a concrete reachable builder state (the
two-tile state of the counterexample, whose cache holds a `PENDING`). -/
theorem round_trip_resolution_witness :
    ∃ p1, from_file_model cx1B2.part = some p1 ∧
      (∀ (coord : Coord) (w : WireIdx), resolve_conn_wire p1 coord w =
        (resolve_conn_wire cx1B2.part coord w).map
          (fun n => if n = NodeIdx.PENDING then NodeIdx.NONE else n)) ∧
      (∀ (coord : Coord) (key : WireIdx × WireIdx),
        resolve_pip_speed p1 coord key = resolve_pip_speed cx1B2.part coord key) := by
  have f1 : alGet (PartBuilder.new ['p'] ['f'] Source.ISE 2 1).part.tiles ⟨0, 0⟩ =
      none := by decide
  have h1 : add_tile (PartBuilder.new ['p'] ['f'] Source.ISE 2 1) ⟨0, 0⟩
      ['u', '0'] ['U'] [] [(['B'], none)] [] = some cx1B1 := by decide
  have f2 : alGet cx1B1.part.tiles ⟨1, 0⟩ = none := by decide
  have h2 : add_tile cx1B1 ⟨1, 0⟩ ['u', '1'] ['U'] [] [(['B'], some ['s'])] [] =
      some cx1B2 := by decide
  exact round_trip_resolution
    (Reached.tile (Reached.tile (Reached.new ['p'] ['f'] Source.ISE 2 1) f1 h1)
      f2 h2)

end Rawdump
